import Mathlib

/-!
# Spectral-analysis pipeline of the THD meter (`fft.c`, `main.c`)

A shallow embedding of the numeric core of the firmware: the bit-reversal
permutation and the radix-2 transform of `fft.c`, and the per-cycle analysis of
`main.c` (Hann window, magnitude, fundamental detection, harmonics, total RMS,
THD).

Conventions of the embedding.

* A C array is a map `Nat → K` from index to value; a store `a[i] = v` is
  `Function.update a i v`.
* `float` values are elements of a field `K`, the math library being the class
  `Libm K`; the theorems instantiate `K` with `ℝ` (exact arithmetic, exact `π`,
  cosine, sine and square root).
* C `int` values are `Nat` or `Int`; every index of the program stays far below
  `2^31`, so no operation wraps.
* Every loop of the program runs through `whileLoop`, which takes a step budget
  and answers `none` when the budget is spent before the loop condition turns
  false. The theorems show that each function returns once the budget exceeds
  the length of its buffer.
* The one float division whose divisor can be zero, the THD ratio, is
  `float_div`, which answers `none` where IEEE-754 gives an infinity or a NaN.
* The THD computation is embedded a second time in binary32 (`main_thd_f32`): a
  float is the rational it denotes, and every operation rounds its exact result to
  the nearest binary32 value, ties to even (`round32`).
* A sampled signal reaches the program as a buffer of integer codes;
  `sine_buffer A k` is the buffer of the codes nearest to the sinusoid of amplitude
  `A` at bin `k` around the offset.
* Properties of a signal given by its centered samples are stated on
  `main_cycle_centered`, the cycle of `main` with the centered sample as input;
  `main_cycle` on a buffer of codes is `main_cycle_centered` on `centered_of buffer`.
-/

namespace PES

/-! ## Loops -/

/-- The C loop `while (cond) body` run with a budget of `fuel` condition tests.
The answer is `none` when the budget is spent, or when the body itself fails. -/
def whileLoop {σ : Type} (cond : σ → Bool) (body : σ → Option σ) : Nat → σ → Option σ
  | 0, _ => none
  | fuel + 1, s => if cond s then (body s).bind (whileLoop cond body fuel) else some s

/-! ## `fft.c` : bit reversal -/

/-- State of the `for` loop of `bit_reverse`: both arrays, the running
reversed counter `j` and the loop counter `i`. -/
structure BitRevState (K : Type) where
  real : Nat → K
  imag : Nat → K
  j : Nat
  i : Nat

/-- The inner loop `while (m >= 1 && j >= m) { j -= m; m >>= 1; }` on the
pair `(j, m)`. -/
def bit_reverse_while (fuel : Nat) (j m : Nat) : Option (Nat × Nat) :=
  whileLoop (fun s => decide (s.2 ≥ 1 ∧ s.1 ≥ s.2))
    (fun s => some (s.1 - s.2, s.2 >>> 1)) fuel (j, m)

/-- One pass of the body of the `for` loop of `bit_reverse`, counter increment
included. -/
def bit_reverse_body {K : Type} (fuel n : Nat) (s : BitRevState K) : Option (BitRevState K) :=
  let real1 :=
    if s.i < s.j then
      Function.update (Function.update s.real s.i (s.real s.j)) s.j (s.real s.i)
    else s.real
  let imag1 :=
    if s.i < s.j then
      Function.update (Function.update s.imag s.i (s.imag s.j)) s.j (s.imag s.i)
    else s.imag
  (bit_reverse_while fuel s.j (n >>> 1)).map fun jm =>
    { real := real1, imag := imag1, j := jm.1 + jm.2, i := s.i + 1 }

/-- The function `bit_reverse(real, imag, n)`. -/
def bit_reverse {K : Type} (fuel : Nat) (real imag : Nat → K) (n : Nat) :
    Option ((Nat → K) × (Nat → K)) :=
  (whileLoop (fun s => decide (s.i < n)) (bit_reverse_body fuel n) fuel
    { real := real, imag := imag, j := 0, i := 0 }).map fun s => (s.real, s.imag)

/-! ## `fft.c` : the radix-2 transform -/

/-- The C math library as the program uses it: the constant `M_PI` and the
functions `cosf`, `sinf`, `sqrtf`, over the field that stands for `float`. -/
class Libm (K : Type) where
  M_PI : K
  cosf : K → K
  sinf : K → K
  sqrtf : K → K

/-- State of the innermost loop of `fft_1024` (over `j`): both arrays, the
running twiddle factor `(wr, wi)` and the counter `j`. -/
structure ButterflyState (K : Type) where
  real : Nat → K
  imag : Nat → K
  wr : K
  wi : K
  j : Nat

/-- Body of the innermost loop of `fft_1024`: one butterfly on the positions
`i0 = i + j` and `i1 = i + j + len/2`, then the twiddle recurrence and `j++`. -/
def fft_butterfly_body {K : Type} [Field K] (len i : Nat) (wlen_r wlen_i : K)
    (s : ButterflyState K) : Option (ButterflyState K) :=
  let i0 := i + s.j
  let i1 := i + s.j + len / 2
  let u_r := s.real i0
  let u_i := s.imag i0
  let v_r := s.real i1 * s.wr - s.imag i1 * s.wi
  let v_i := s.real i1 * s.wi + s.imag i1 * s.wr
  let real1 := Function.update s.real i0 (u_r + v_r)
  let imag1 := Function.update s.imag i0 (u_i + v_i)
  let real2 := Function.update real1 i1 (u_r - v_r)
  let imag2 := Function.update imag1 i1 (u_i - v_i)
  let nxt_r := s.wr * wlen_r - s.wi * wlen_i
  let nxt_i := s.wr * wlen_i + s.wi * wlen_r
  some { real := real2, imag := imag2, wr := nxt_r, wi := nxt_i, j := s.j + 1 }

/-- State of the middle loop of `fft_1024` (over the block start `i`). -/
structure BlockState (K : Type) where
  real : Nat → K
  imag : Nat → K
  i : Nat

/-- Body of the middle loop of `fft_1024`: the loop over `j` on the block that
starts at `i`, then `i += len`. -/
def fft_block_body {K : Type} [Field K] (fuel len : Nat) (wlen_r wlen_i : K)
    (s : BlockState K) : Option (BlockState K) :=
  (whileLoop (fun t => decide (t.j < len / 2)) (fft_butterfly_body len s.i wlen_r wlen_i) fuel
    { real := s.real, imag := s.imag, wr := 1, wi := 0, j := 0 }).map fun t =>
      { real := t.real, imag := t.imag, i := s.i + len }

/-- State of the outer loop of `fft_1024` (over the stage length `len`). -/
structure StageState (K : Type) where
  real : Nat → K
  imag : Nat → K
  len : Nat

/-- Body of the outer loop of `fft_1024`: the stage twiddle `(cosf ang, sinf ang)`
with `ang = -2 * M_PI / len`, the loop over the blocks, then `len <<= 1`. -/
def fft_stage_body {K : Type} [Field K] [Libm K] (fuel n : Nat)
    (s : StageState K) : Option (StageState K) :=
  let ang : K := -2 * Libm.M_PI / (s.len : K)
  let wlen_r : K := Libm.cosf ang
  let wlen_i : K := Libm.sinf ang
  (whileLoop (fun t => decide (t.i < n)) (fft_block_body fuel s.len wlen_r wlen_i) fuel
    { real := s.real, imag := s.imag, i := 0 }).map fun t =>
      { real := t.real, imag := t.imag, len := s.len <<< 1 }

/-- The body of `fft_1024` with the local constant `n` as a parameter. -/
def fft_n {K : Type} [Field K] [Libm K] (fuel n : Nat) (real imag : Nat → K) :
    Option ((Nat → K) × (Nat → K)) :=
  (bit_reverse fuel real imag n).bind fun b =>
    (whileLoop (fun t => decide (t.len ≤ n)) (fft_stage_body fuel n) fuel
      { real := b.1, imag := b.2, len := 2 }).map fun t => (t.real, t.imag)

/-- The function `fft_1024(real, imag)`, where `int n = 1024*4`. -/
def fft_1024 {K : Type} [Field K] [Libm K] (fuel : Nat) (real imag : Nat → K) :
    Option ((Nat → K) × (Nat → K)) :=
  fft_n fuel (1024 * 4) real imag

/-- The math library over the reals: exact `π`, cosine, sine and square root. -/
noncomputable instance realLibm : Libm ℝ where
  M_PI := Real.pi
  cosf := Real.cos
  sinf := Real.sin
  sqrtf := Real.sqrt

/-! ## `main.c` : constants and conversions -/

section MainC

variable {K : Type} [LinearOrderedField K] [FloorRing K]

/-- `#define SAMPLES 4096`. -/
def SAMPLES : Nat := 4096

/-- `#define NFFT 4096`. -/
def NFFT : Nat := 4096

/-- `#define FS 4096.0f`. -/
def FS : K := 4096

/-- `#define VREF 3.25f`. -/
def VREF : K := 3.25

/-- `#define ADC_MAX 4095.0f`. -/
def ADC_MAX : K := 4095

/-- `#define ADC_OFFSET 2048`. -/
def ADC_OFFSET : Int := 2048

/-- `#define HANN_GAIN 0.6123f`. -/
def HANN_GAIN : K := 0.6123

/-- The library function `roundf`: the nearest integer, halves away from zero. -/
def roundf (x : K) : K :=
  if 0 ≤ x then ((⌊x + 1 / 2⌋ : Int) : K) else ((⌈x - 1 / 2⌉ : Int) : K)

/-- The C conversion `(int)x` of a float: truncation toward zero. -/
def float_to_int (x : K) : Int :=
  if 0 ≤ x then ⌊x⌋ else ⌈x⌉

/-- A float division whose divisor may be zero. IEEE-754 gives an infinity or a
NaN for a zero divisor, which is no value of the field: the answer is `none`. -/
def float_div (a b : K) : Option K :=
  if b = 0 then none else some (a / b)

/-! ## `main.c` : window, magnitude -/

/-- State of the windowing loop of `main`: the two transform buffers and `i`. -/
structure WindowState (K : Type) where
  real_fft : Nat → K
  imag_fft : Nat → K
  i : Nat

/-- Body of the windowing loop: signed centering of the 16-bit code, the Hann
weight, and the two stores. -/
def main_window_body [Libm K] (buffer : Nat → Nat) (s : WindowState K) :
    Option (WindowState K) :=
  let centered : K := (((buffer s.i : Int) - ADC_OFFSET : Int) : K)
  let hann : K :=
    0.5 * (1 - Libm.cosf ((2 * Libm.M_PI * (s.i : K)) / ((SAMPLES - 1 : Nat) : K)))
  some { real_fft := Function.update s.real_fft s.i (centered * hann),
         imag_fft := Function.update s.imag_fft s.i 0,
         i := s.i + 1 }

/-- The windowing loop `for (int i = 0; i < SAMPLES; i++)` of `main`. -/
def main_window [Libm K] (fuel : Nat) (buffer : Nat → Nat) (real_fft imag_fft : Nat → K) :
    Option ((Nat → K) × (Nat → K)) :=
  (whileLoop (fun s => decide (s.i < SAMPLES)) (main_window_body buffer) fuel
    { real_fft := real_fft, imag_fft := imag_fft, i := 0 }).map fun s =>
      (s.real_fft, s.imag_fft)

/-- State of the magnitude loop of `main`. -/
structure MagnitudeState (K : Type) where
  magnitude : Nat → K
  i : Nat

/-- Body of the magnitude loop. -/
def main_magnitude_body [Libm K] (real_fft imag_fft : Nat → K) (s : MagnitudeState K) :
    Option (MagnitudeState K) :=
  some { magnitude := Function.update s.magnitude s.i
           (Libm.sqrtf (real_fft s.i * real_fft s.i + imag_fft s.i * imag_fft s.i)),
         i := s.i + 1 }

/-- The magnitude loop `for (int i = 0; i < NFFT/2; i++)` of `main`. -/
def main_magnitude [Libm K] (fuel : Nat) (real_fft imag_fft magnitude : Nat → K) :
    Option (Nat → K) :=
  (whileLoop (fun s => decide (s.i < NFFT / 2)) (main_magnitude_body real_fft imag_fft) fuel
    { magnitude := magnitude, i := 0 }).map fun s => s.magnitude

/-! ## `main.c` : fundamental detection -/

/-- State of the peak search of `main`. -/
structure PeakState (K : Type) where
  f0_idx : Nat
  max_val : K
  i : Nat

/-- Body of the peak search: a strictly larger magnitude replaces the maximum. -/
def main_peak_body (magnitude : Nat → K) (s : PeakState K) : Option (PeakState K) :=
  if magnitude s.i > s.max_val then
    some { f0_idx := s.i, max_val := magnitude s.i, i := s.i + 1 }
  else
    some { f0_idx := s.f0_idx, max_val := s.max_val, i := s.i + 1 }

/-- The peak search of `main`: `f0_idx = 1`, `max_val = magnitude[1]`, then
`for (int i = 2; i < FS/2; i++)`, the bound being a float comparison. -/
def main_peak (fuel : Nat) (magnitude : Nat → K) : Option (PeakState K) :=
  whileLoop (fun s => decide ((s.i : K) < FS / 2)) (main_peak_body magnitude) fuel
    { f0_idx := 1, max_val := magnitude 1, i := 2 }

/-! ## `main.c` : harmonics, total RMS, THD -/

/-- One line of the harmonic table that `main` prints, together with the bin
index `idx` it read and the value `vrms_adc` it computed there. -/
structure HarmonicRecord (K : Type) where
  n : Nat
  idx : Int
  f_h : K
  vrms_adc : K
  mv : K

/-- State of the harmonic loop of `main`. -/
structure HarmonicState (K : Type) where
  fundamental_rms : K
  sum_harm_sq : K
  table : List (HarmonicRecord K)
  n : Nat

/-- Body of the harmonic loop. `continue` skips to `n++`; a read of
`magnitude[idx]` at a negative `idx` is outside the array and answers `none`. -/
def main_harmonic_body (magnitude : Nat → K) (f0 : K) (s : HarmonicState K) :
    Option (HarmonicState K) :=
  let f_h : K := (s.n : K) * f0
  let idx : Int := float_to_int (roundf (f_h * (NFFT : K) / FS))
  if idx ≥ ((NFFT / 2 : Nat) : Int) then
    some { fundamental_rms := s.fundamental_rms, sum_harm_sq := s.sum_harm_sq,
           table := s.table, n := s.n + 1 }
  else if idx < 0 then none
  else
    let vrms_adc : K :=
      (magnitude idx.toNat / ((NFFT / 2 : Nat) : K)) / 1.4142 * (1 / HANN_GAIN)
    let mv : K := (vrms_adc * VREF / ADC_MAX) * 1000
    let table := s.table ++ [{ n := s.n, idx := idx, f_h := f_h, vrms_adc := vrms_adc, mv := mv }]
    if s.n = 1 then
      some { fundamental_rms := vrms_adc, sum_harm_sq := s.sum_harm_sq,
             table := table, n := s.n + 1 }
    else
      some { fundamental_rms := s.fundamental_rms,
             sum_harm_sq := s.sum_harm_sq + vrms_adc * vrms_adc,
             table := table, n := s.n + 1 }

/-- The harmonic loop `for (int n = 1; n <= 20; n++)` of `main`. -/
def main_harmonics (fuel : Nat) (magnitude : Nat → K) (f0 : K) : Option (HarmonicState K) :=
  whileLoop (fun s => decide (s.n ≤ 20)) (main_harmonic_body magnitude f0) fuel
    { fundamental_rms := 0, sum_harm_sq := 0, table := [], n := 1 }

/-- State of the total-RMS loop of `main`. -/
structure TotalState (K : Type) where
  total_rms_sq : K
  i : Nat

/-- Body of the total-RMS loop. -/
def main_total_body (magnitude : Nat → K) (s : TotalState K) : Option (TotalState K) :=
  let vrms : K := (magnitude s.i / ((NFFT / 2 : Nat) : K)) / 1.4142 * (1 / HANN_GAIN)
  some { total_rms_sq := s.total_rms_sq + vrms * vrms, i := s.i + 1 }

/-- The total-RMS loop `for (int i = 1; i < NFFT/2; i++)` of `main`. -/
def main_total (fuel : Nat) (magnitude : Nat → K) : Option (TotalState K) :=
  whileLoop (fun s => decide (s.i < NFFT / 2)) (main_total_body magnitude) fuel
    { total_rms_sq := 0, i := 1 }

/-- What one cycle of `main` reports: the values it prints and displays.
`thd` and `thd_percent` are `none` when the division gave no finite value. -/
structure AnalysisResult (K : Type) where
  f0_idx : Nat
  f0 : K
  table : List (HarmonicRecord K)
  fundamental_rms : K
  sum_harm_sq : K
  total_rms : K
  total_mv : K
  thd : Option K
  thd_percent : Option K

/-- The part of one cycle of `main` that follows the magnitude loop: peak search,
harmonic loop, total RMS and THD. -/
def main_analysis [Libm K] (fuel : Nat) (magnitude : Nat → K) : Option (AnalysisResult K) :=
  (main_peak fuel magnitude).bind fun pk =>
    let f0 : K := (FS * (pk.f0_idx : K)) / (NFFT : K)
    (main_harmonics fuel magnitude f0).bind fun h =>
      (main_total fuel magnitude).bind fun t =>
        let total_rms : K := Libm.sqrtf t.total_rms_sq
        let total_mv : K := (total_rms * VREF / ADC_MAX) * 1000
        let thd : Option K := float_div (Libm.sqrtf h.sum_harm_sq) h.fundamental_rms
        let thd_percent : Option K := thd.map fun v => v * 100
        some { f0_idx := pk.f0_idx, f0 := f0, table := h.table,
               fundamental_rms := h.fundamental_rms, sum_harm_sq := h.sum_harm_sq,
               total_rms := total_rms, total_mv := total_mv,
               thd := thd, thd_percent := thd_percent }

/-- One cycle of the `while (true)` loop of `main` after the acquisition filled
`buffer`: window, `fft_1024`, magnitude, analysis. The arguments `real_fft`,
`imag_fft` and `magnitude` are the contents the global arrays had before. -/
def main_cycle [Libm K] (fuel : Nat) (buffer : Nat → Nat)
    (real_fft imag_fft magnitude : Nat → K) : Option (AnalysisResult K) :=
  (main_window fuel buffer real_fft imag_fft).bind fun w =>
    (fft_1024 fuel w.1 w.2).bind fun X =>
      (main_magnitude fuel X.1 X.2 magnitude).bind fun mag =>
        main_analysis fuel mag

/-- Body of the windowing loop of `main` with the centered sample (line 72, the
value of `centered`) given as the input `centered i` in place of the code: the
Hann weight and the two stores. -/
def main_window_centered_body [Libm K] (centered : Nat → K) (s : WindowState K) :
    Option (WindowState K) :=
  let hann : K :=
    0.5 * (1 - Libm.cosf ((2 * Libm.M_PI * (s.i : K)) / ((SAMPLES - 1 : Nat) : K)))
  some { real_fft := Function.update s.real_fft s.i (centered s.i * hann),
         imag_fft := Function.update s.imag_fft s.i 0,
         i := s.i + 1 }

/-- The windowing loop of `main` over given centered samples. -/
def main_window_centered [Libm K] (fuel : Nat) (centered real_fft imag_fft : Nat → K) :
    Option ((Nat → K) × (Nat → K)) :=
  (whileLoop (fun s => decide (s.i < SAMPLES)) (main_window_centered_body centered) fuel
    { real_fft := real_fft, imag_fft := imag_fft, i := 0 }).map fun s =>
      (s.real_fft, s.imag_fft)

/-- The first three stages of a cycle of `main` over given centered samples:
window, `fft_1024`, magnitude. The answer is the array `magnitude`. -/
def main_spectrum_centered [Libm K] (fuel : Nat) (centered real_fft imag_fft magnitude : Nat → K) :
    Option (Nat → K) :=
  (main_window_centered fuel centered real_fft imag_fft).bind fun w =>
    (fft_1024 fuel w.1 w.2).bind fun X =>
      main_magnitude fuel X.1 X.2 magnitude

/-- One cycle of `main` over given centered samples: the spectrum, then the
analysis. -/
def main_cycle_centered [Libm K] (fuel : Nat) (centered real_fft imag_fft magnitude : Nat → K) :
    Option (AnalysisResult K) :=
  (main_spectrum_centered fuel centered real_fft imag_fft magnitude).bind fun mag =>
    main_analysis fuel mag

/-- The centered samples of a buffer of codes: `(float)((int)buffer[i] - ADC_OFFSET)`. -/
def centered_of (buffer : Nat → Nat) (i : Nat) : K :=
  (((buffer i : Int) - ADC_OFFSET : Int) : K)

end MainC

/-! ## `main.c` : the THD computation in binary32 -/

/-- The number of halvings that bring `n` down to 1, which is `⌊log₂ n⌋` when the
budget `fuel` is at least `n`. -/
def nat_log2 : Nat → Nat → Nat
  | 0, _ => 0
  | fuel + 1, n => if n ≤ 1 then 0 else nat_log2 fuel (n / 2) + 1

/-- The integer part of `log₂ |x|` of a non-zero rational `x`. -/
def ilog2 (x : ℚ) : ℤ :=
  let k : ℤ := (nat_log2 x.num.natAbs x.num.natAbs : ℤ) - (nat_log2 x.den x.den : ℤ)
  if (2 : ℚ) ^ k ≤ |x| then k else k - 1

/-- The nearest integer to a rational, a tie going to the even one. -/
def round_even (y : ℚ) : ℤ :=
  let f : ℤ := ⌊y⌋
  if y - f < 1 / 2 then f
  else if 1 / 2 < y - f then f + 1
  else if f % 2 = 0 then f else f + 1

/-- The binary32 value nearest to the rational `x` (IEEE-754 round to nearest, ties
to even): 24 significant bits, least quantum `2^-149`. A float is the rational it
denotes; the answer is `none` when the rounded value is not finite (`2^128` or more
in absolute value). -/
def round32 (x : ℚ) : Option ℚ :=
  if x = 0 then some 0
  else
    let q : ℤ := max (ilog2 x - 23) (-149)
    let r : ℚ := (round_even (x / 2 ^ q) : ℚ) * 2 ^ q
    if |r| < 2 ^ 128 then some r else none

/-- The float sum `a + b`. -/
def f32_add (a b : ℚ) : Option ℚ := round32 (a + b)

/-- The float product `a * b`. -/
def f32_mul (a b : ℚ) : Option ℚ := round32 (a * b)

/-- The float quotient `a / b`; `none` for a zero divisor. -/
def f32_div (a b : ℚ) : Option ℚ := if b = 0 then none else round32 (a / b)

/-- The search, bit by bit from bit `b - 1` down, of the largest `r` with `r² ≤ n`. -/
def nat_sqrt_bits : Nat → Nat → Nat → Nat
  | 0, _, r => r
  | b + 1, n, r =>
    if (r + 2 ^ b) * (r + 2 ^ b) ≤ n then nat_sqrt_bits b n (r + 2 ^ b)
    else nat_sqrt_bits b n r

/-- The integer part of the square root of a natural number. -/
def nat_sqrt (n : Nat) : Nat := nat_sqrt_bits (nat_log2 n n / 2 + 1) n 0

/-- The nearest integer to the square root of a non-negative rational, a tie going
to the even one. -/
def sqrt_round_even (t : ℚ) : ℤ :=
  let m : ℤ := (nat_sqrt ⌊t⌋.toNat : ℤ)
  let h : ℚ := ((m : ℚ) + 1 / 2) * ((m : ℚ) + 1 / 2)
  if t < h then m
  else if h < t then m + 1
  else if m % 2 = 0 then m else m + 1

/-- The library function `sqrtf` on a float: the binary32 value nearest to the
exact square root, as IEEE-754 requires of the operation; `none` for a negative
argument. -/
def f32_sqrt (a : ℚ) : Option ℚ :=
  if a < 0 then none
  else if a = 0 then some 0
  else
    let q : ℤ := max (ilog2 a / 2 - 23) (-149)
    let r : ℚ := (sqrt_round_even (a / 2 ^ (2 * q)) : ℚ) * 2 ^ q
    if r < 2 ^ 128 then some r else none

/-- The value `f0` of line 101, `(FS * f0_idx) / NFFT`, in binary32: the two `int`
operands are converted to float, the product and the quotient are rounded. -/
def f0_f32 (f0_idx : Nat) : Option ℚ :=
  (round32 (f0_idx : ℚ)).bind fun idx_f =>
  (f32_mul FS idx_f).bind fun p =>
  (round32 (NFFT : ℚ)).bind fun nfft_f =>
  f32_div p nfft_f

/-- The argument of `roundf` in line 120, `f_h * NFFT / FS`, in binary32. -/
def harmonic_pos_f32 (f_h : ℚ) : Option ℚ :=
  (round32 (NFFT : ℚ)).bind fun nfft_f =>
  (f32_mul f_h nfft_f).bind fun t =>
  f32_div t FS

/-- The value `vrms_adc` of lines 124-126,
`(magnitude[idx] / (NFFT/2)) / 1.4142f * (1.0f / HANN_GAIN)`, in binary32, `m` being
`magnitude[idx]`: the literals `1.4142f` and `0.6123f` are the binary32 values
nearest to the decimals, and each of the four operations is rounded. -/
def vrms_adc_f32 (m : ℚ) : Option ℚ :=
  (round32 ((NFFT / 2 : Nat) : ℚ)).bind fun half_f =>
  (f32_div m half_f).bind fun a =>
  (round32 1.4142).bind fun sqrt2_f =>
  (f32_div a sqrt2_f).bind fun b =>
  (round32 HANN_GAIN).bind fun gain_f =>
  (f32_div 1 gain_f).bind fun c =>
  f32_mul b c

/-- The value `mv` of line 128, `(vrms_adc * VREF / ADC_MAX) * 1000.0f`, in
binary32. -/
def mv_f32 (vrms_adc : ℚ) : Option ℚ :=
  (f32_mul vrms_adc VREF).bind fun m1 =>
  (f32_div m1 ADC_MAX).bind fun m2 =>
  f32_mul m2 1000

/-- Body of the harmonic loop of `main` (lines 117-134) in binary32. The branches
are those of `main_harmonic_body`; the answer is `none` also when a float operation
has no finite value. -/
def main_harmonic_body_f32 (magnitude : Nat → ℚ) (f0 : ℚ) (s : HarmonicState ℚ) :
    Option (HarmonicState ℚ) :=
  (round32 (s.n : ℚ)).bind fun n_f =>
  (f32_mul n_f f0).bind fun f_h =>
  (harmonic_pos_f32 f_h).bind fun u =>
  let idx : Int := float_to_int (roundf u)
  if idx ≥ ((NFFT / 2 : Nat) : Int) then
    some { fundamental_rms := s.fundamental_rms, sum_harm_sq := s.sum_harm_sq,
           table := s.table, n := s.n + 1 }
  else if idx < 0 then none
  else
    (vrms_adc_f32 (magnitude idx.toNat)).bind fun vrms_adc =>
    (mv_f32 vrms_adc).bind fun mv =>
    let table := s.table ++ [{ n := s.n, idx := idx, f_h := f_h, vrms_adc := vrms_adc, mv := mv }]
    if s.n = 1 then
      some { fundamental_rms := vrms_adc, sum_harm_sq := s.sum_harm_sq,
             table := table, n := s.n + 1 }
    else
      (f32_mul vrms_adc vrms_adc).bind fun sq =>
      (f32_add s.sum_harm_sq sq).bind fun sum =>
      some { fundamental_rms := s.fundamental_rms, sum_harm_sq := sum,
             table := table, n := s.n + 1 }

/-- The harmonic loop `for (int n = 1; n <= 20; n++)` of `main` in binary32. -/
def main_harmonics_f32 (fuel : Nat) (magnitude : Nat → ℚ) (f0 : ℚ) :
    Option (HarmonicState ℚ) :=
  whileLoop (fun s => decide (s.n ≤ 20)) (main_harmonic_body_f32 magnitude f0) fuel
    { fundamental_rms := 0, sum_harm_sq := 0, table := [], n := 1 }

/-- What the THD computation of one cycle of `main` yields in binary32. -/
structure ThdResult where
  f0_idx : Nat
  f0 : ℚ
  fundamental_rms : ℚ
  sum_harm_sq : ℚ
  thd : ℚ
  thd_percent : ℚ
deriving DecidableEq

/-- The statements of one cycle of `main` that produce `thd` and `thd_percent`, in
binary32, on a magnitude spectrum of floats: the peak search (lines 91-99, which
only compares floats, so that `main_peak` is exact), `f0` (line 101), the harmonic
loop (lines 111-134) and the THD (lines 150-151). The total-RMS loop (lines
137-147) writes none of the variables read here and is left out. The answer is
`none` when an operation has no finite value. -/
def main_thd_f32 (fuel : Nat) (magnitude : Nat → ℚ) : Option ThdResult :=
  (main_peak fuel magnitude).bind fun pk =>
  (f0_f32 pk.f0_idx).bind fun f0 =>
  (main_harmonics_f32 fuel magnitude f0).bind fun h =>
  (f32_sqrt h.sum_harm_sq).bind fun root =>
  (f32_div root h.fundamental_rms).bind fun thd =>
  (f32_mul thd 100).bind fun thd_percent =>
  some { f0_idx := pk.f0_idx, f0 := f0, fundamental_rms := h.fundamental_rms,
         sum_harm_sq := h.sum_harm_sq, thd := thd, thd_percent := thd_percent }

/-! ## Specification-side definitions -/

/-- The `k`-bit reversal of an index: the lowest bit of `i` becomes bit `k-1`. -/
def rev : Nat → Nat → Nat
  | 0, _ => 0
  | k + 1, i => (i % 2) * 2 ^ k + rev k (i / 2)

/-- The array `a` after the first `t` passes of the loop of `bit_reverse` over a
buffer of length `2^k`: the positions whose pair has been visited are swapped. -/
def permAt {K : Type} (k t : Nat) (a : Nat → K) (p : Nat) : K :=
  if p < 2 ^ k ∧ (p < t ∨ rev k p < t) then a (rev k p) else a p

/-- The complex number stored at position `p` of a pair of arrays. -/
def toC (re im : Nat → ℝ) (p : Nat) : ℂ := ⟨re p, im p⟩

/-- The principal root of unity the stage of length `L` steps by: `e^(-2πi/L)`. -/
noncomputable def omega (L : Nat) : ℂ := Complex.exp (-2 * Real.pi * Complex.I / L)

/-- The value the transform holds after `t` butterfly stages at offset `q` of
block `b`, when `d` levels of decimation remain: the DFT of length `2^t` of the
input samples of stride `2^d` that start at `rev d b`. -/
noncomputable def stageVal (x : Nat → ℂ) (d t b q : Nat) : ℂ :=
  ∑ m in Finset.range (2 ^ t), x (m * 2 ^ d + rev d b) * omega (2 ^ t) ^ (m * q)

/-- The per-bin RMS of the program (the expression of `main.c` lines 124-126 and
139-141) at bin `i` of a magnitude spectrum. -/
def vrms_bin {K : Type} [LinearOrderedField K] (magnitude : Nat → K) (i : Nat) : K :=
  (magnitude i / ((NFFT / 2 : Nat) : K)) / 1.4142 * (1 / HANN_GAIN)

/-- The line of the harmonic table for order `n` when the fundamental is at bin
`f0_idx` and its frequency is `f0`. -/
def harmonic_line {K : Type} [LinearOrderedField K] (magnitude : Nat → K) (f0_idx : Nat)
    (f0 : K) (n : Nat) : HarmonicRecord K :=
  { n := n, idx := ((n * f0_idx : Nat) : Int), f_h := (n : K) * f0,
    vrms_adc := vrms_bin magnitude (n * f0_idx),
    mv := (vrms_bin magnitude (n * f0_idx) * VREF / ADC_MAX) * 1000 }

/-- The inverse transform built from the forward one by conjugate-and-scale:
conjugate the input, apply `fft_n`, conjugate the result, divide by `n`. -/
def ifft_n {K : Type} [Field K] [Libm K] (fuel n : Nat) (real imag : Nat → K) :
    Option ((Nat → K) × (Nat → K)) :=
  (fft_n fuel n real (fun i => -imag i)).map fun Y =>
    (fun i => Y.1 i / (n : K), fun i => (-Y.2 i) / (n : K))

/-- The Hann weight of `main.c` line 74, the sample count `SAMPLES` being the
parameter `N`. -/
def hann {K : Type} [LinearOrderedField K] [Libm K] (N i : Nat) : K :=
  0.5 * (1 - Libm.cosf ((2 * Libm.M_PI * (i : K)) / ((N - 1 : Nat) : K)))

/-- The coherent gain of the window of length `N`: the mean of its weights. -/
def coherent_gain {K : Type} [LinearOrderedField K] [Libm K] (N : Nat) : K :=
  (∑ i in Finset.range N, hann N i) / (N : K)

/-- The geometric sum `Σ_{i<N} e^{iγ·i}` of unit complex numbers. -/
noncomputable def expSum (N : Nat) (γ : ℝ) : ℂ :=
  ∑ i in Finset.range N, Complex.exp ((γ * i : ℝ) * Complex.I)

/-- The transform of the Hann window of length 4096 at the integer frequency `j`:
`Σ_{i<4096} hann(i) · e^(-2πi·j·i/4096)`. -/
noncomputable def hannDFT (j : ℤ) : ℂ :=
  ∑ i in Finset.range 4096, ((hann 4096 i : ℝ) : ℂ) *
    Complex.exp (((-(2 * Real.pi * j / 4096) * i : ℝ)) * Complex.I)

/-- A buffer of codes of a tone: amplitude 1000 around the offset 2048, at bin 1024
of 4096 (period 4 samples). -/
def tone_buffer (i : Nat) : Nat :=
  if i % 4 = 1 then 3048 else if i % 4 = 3 then 1048 else 2048

/-- The transform of the windowed samples `x(i)·hann(i)` at bin `m`:
`Σ_{i<4096} x(i)·hann(i)·e^(-2πi·i·m/4096)`. -/
noncomputable def windowed_dft (x : Nat → ℝ) (m : Nat) : ℂ :=
  ∑ i in Finset.range 4096, ((x i * (hann 4096 i : ℝ) : ℝ) : ℂ) * omega 4096 ^ (i * m)

/-- The buffer of the codes nearest to the sinusoid of amplitude `A` (in codes) at
bin `k` around the offset: `buffer[i] = round(2048 + A·sin(2π·k·i/4096))`. -/
noncomputable def sine_buffer (A : ℝ) (k i : Nat) : Nat :=
  (round (((ADC_OFFSET : Int) : ℝ) + A * Real.sin (2 * Real.pi * k * i / 4096))).toNat

/-! ## The loop rule -/

theorem whileLoop_inv {σ : Type} (cond : σ → Bool) (body : σ → Option σ)
    (Inv : Nat → σ → Prop) (T : Nat)
    (hstep : ∀ t s, t < T → Inv t s → cond s = true ∧ ∃ s', body s = some s' ∧ Inv (t + 1) s')
    (hend : ∀ s, Inv T s → cond s = false) :
    ∀ (fuel t : Nat) (s : σ), t ≤ T → T - t < fuel → Inv t s →
      ∃ s', whileLoop cond body fuel s = some s' ∧ Inv T s' := by
  intro fuel
  induction fuel with
  | zero => intro t s _ h; omega
  | succ fuel ih =>
    intro t s htT hfuel hinv
    rcases Nat.lt_or_ge t T with hlt | hge
    · obtain ⟨hc, s', hb, hinv'⟩ := hstep t s hlt hinv
      obtain ⟨s'', hs'', hfin⟩ := ih (t + 1) s' hlt (by omega) hinv'
      exact ⟨s'', by simp [whileLoop, hc, hb, hs''], hfin⟩
    · have htT' : t = T := le_antisymm htT hge
      subst htT'
      exact ⟨s, by simp [whileLoop, hend s hinv], hinv⟩

theorem whileLoop_continue {σ : Type} (cond : σ → Bool) (body : σ → Option σ) (fuel : Nat)
    (s s' : σ) (hc : cond s = true) (hb : body s = some s') :
    whileLoop cond body (fuel + 1) s = whileLoop cond body fuel s' := by
  simp [whileLoop, hc, hb]

theorem whileLoop_exit {σ : Type} (cond : σ → Bool) (body : σ → Option σ) (fuel : Nat)
    (s : σ) (hc : cond s = false) :
    whileLoop cond body (fuel + 1) s = some s := by
  simp [whileLoop, hc]

/-! ## Bit reversal -/

theorem rev_lt (k : Nat) : ∀ i, rev k i < 2 ^ k := by
  induction k with
  | zero => intro i; simp [rev]
  | succ k ih =>
    intro i
    have h1 := ih (i / 2)
    have h2 : i % 2 < 2 := Nat.mod_lt _ (by norm_num)
    have h3 : i % 2 * 2 ^ k ≤ 1 * 2 ^ k := Nat.mul_le_mul_right _ (by omega)
    simp only [rev, pow_succ]
    omega

theorem rev_zero (k : Nat) : rev k 0 = 0 := by
  induction k with
  | zero => rfl
  | succ k ih => simp [rev, ih]

theorem rev_two_mul (k b : Nat) : rev (k + 1) (2 * b) = rev k b := by
  simp [rev]

theorem rev_two_mul_add_one (k b : Nat) : rev (k + 1) (2 * b + 1) = 2 ^ k + rev k b := by
  have h1 : (2 * b + 1) % 2 = 1 := by omega
  have h2 : (2 * b + 1) / 2 = b := by omega
  simp [rev, h1, h2]

theorem rev_high (k : Nat) : ∀ i, i < 2 ^ (k + 1) →
    rev (k + 1) i = 2 * rev k (i % 2 ^ k) + i / 2 ^ k := by
  induction k with
  | zero =>
    intro i hi
    simp [rev]
    omega
  | succ k ih =>
    intro i hi
    have hi2 : i / 2 < 2 ^ (k + 1) := by
      rw [pow_succ] at hi; omega
    have e1 := ih (i / 2) hi2
    rw [rev, e1]
    have e2 : i % 2 ^ (k + 1) / 2 = i / 2 % 2 ^ k := by
      rw [pow_succ, Nat.mul_comm, Nat.mod_mul_right_div_self]
    have e3 : i % 2 ^ (k + 1) % 2 = i % 2 := by
      rw [pow_succ, Nat.mul_comm]
      exact Nat.mod_mul_right_mod i 2 (2 ^ k)
    have e4 : i / 2 / 2 ^ k = i / 2 ^ (k + 1) := by
      rw [Nat.div_div_eq_div_mul, pow_succ, Nat.mul_comm]
    rw [rev, e2, e3, e4]
    ring

theorem rev_rev (k : Nat) : ∀ i, i < 2 ^ k → rev k (rev k i) = i := by
  induction k with
  | zero => intro i hi; simp at hi; simp [rev, hi]
  | succ k ih =>
    intro i hi
    have hlt := rev_lt (k + 1) i
    rw [rev_high k _ hlt]
    have hr := rev_lt k (i / 2)
    have hb : i % 2 < 2 := Nat.mod_lt _ (by norm_num)
    have hi2 : i / 2 < 2 ^ k := by rw [pow_succ] at hi; omega
    have hpos : 0 < 2 ^ k := by positivity
    have e1 : rev (k + 1) i % 2 ^ k = rev k (i / 2) := by
      rw [rev, Nat.mul_add_mod_of_lt hr]
    have e2 : rev (k + 1) i / 2 ^ k = i % 2 := by
      rw [rev, Nat.add_comm, Nat.add_mul_div_right _ _ hpos, Nat.div_eq_of_lt hr, Nat.zero_add]
    rw [e1, e2, ih _ hi2]
    omega

theorem rev_testBit (k : Nat) : ∀ i b, (rev k i).testBit b =
    (decide (b < k) && i.testBit (k - 1 - b)) := by
  induction k with
  | zero => intro i b; simp [rev]
  | succ k ih =>
    intro i b
    have hr := rev_lt k (i / 2)
    rw [rev, Nat.mul_comm, Nat.testBit_mul_pow_two_add _ hr, ih]
    by_cases hb : b < k
    · have e : k + 1 - 1 - b = (k - 1 - b) + 1 := by omega
      rw [if_pos hb, e, Nat.testBit_add_one]
      simp [hb, Nat.lt_succ_of_lt hb]
    · rw [if_neg hb]
      by_cases hbk : b = k
      · subst hbk
        simp [Nat.testBit_zero]
      · have h1 : ¬ b < k + 1 := by omega
        have h2 : i % 2 < 2 ^ (b - k) := by
          have : 2 ≤ 2 ^ (b - k) := by
            calc 2 = 2 ^ 1 := by norm_num
              _ ≤ 2 ^ (b - k) := Nat.pow_le_pow_right (by norm_num) (by omega)
          have := Nat.mod_lt i (show 0 < 2 by norm_num)
          omega
        simp [h1, Nat.testBit_lt_two_pow h2]

theorem bit_reverse_while_spec (k : Nat) : ∀ (i fuel : Nat), i < 2 ^ k → k < fuel →
    ∃ jm, bit_reverse_while fuel (rev k i) (2 ^ k >>> 1) = some jm ∧
      jm.1 + jm.2 = rev k ((i + 1) % 2 ^ k) := by
  induction k with
  | zero =>
    intro i fuel hi hf
    obtain ⟨fuel, rfl⟩ : ∃ f, fuel = f + 1 := ⟨fuel - 1, by omega⟩
    refine ⟨(0, 0), ?_, by simp [rev]⟩
    simp [bit_reverse_while, whileLoop, rev]
  | succ k ih =>
    intro i fuel hi hf
    obtain ⟨fuel, rfl⟩ : ∃ f, fuel = f + 1 := ⟨fuel - 1, by omega⟩
    have hm : 2 ^ (k + 1) >>> 1 = 2 ^ k := by
      rw [Nat.shiftRight_eq_div_pow, pow_succ]; simp
    have hpos : 0 < 2 ^ k := by positivity
    have hr := rev_lt k (i / 2)
    have hi2 : i / 2 < 2 ^ k := by rw [pow_succ] at hi; omega
    rcases Nat.mod_two_eq_zero_or_one i with h0 | h1
    · refine ⟨(rev k (i / 2), 2 ^ k), ?_, ?_⟩
      · have hc : ¬ (1 ≤ 2 ^ k ∧ 2 ^ k ≤ rev k (i / 2)) := by omega
        simp [bit_reverse_while, whileLoop, rev, h0, hm, hc]
      · have e1 : (i + 1) % 2 ^ (k + 1) = 2 * (i / 2) + 1 := by
          rw [Nat.mod_eq_of_lt (by rw [pow_succ] at hi ⊢; omega)]; omega
        rw [e1, rev_two_mul_add_one]
        simp only []
        omega
    · obtain ⟨jm, hjm, hsum⟩ := ih (i / 2) fuel hi2 (by omega)
      refine ⟨jm, ?_, ?_⟩
      · have hc : 1 ≤ 2 ^ k ∧ 2 ^ k ≤ 2 ^ k + rev k (i / 2) := by omega
        have hsub : 2 ^ k + rev k (i / 2) - 2 ^ k = rev k (i / 2) := by omega
        rw [bit_reverse_while] at hjm ⊢
        rw [whileLoop_continue _ _ _ _ (rev k (i / 2), 2 ^ k >>> 1) (by simp [rev, h1, hm, hc])
          (by simp [rev, h1, hm, hsub])]
        exact hjm
      · have e1 : (i + 1) % 2 ^ (k + 1) = 2 * ((i / 2 + 1) % 2 ^ k) := by
          have : i + 1 = 2 * (i / 2 + 1) := by omega
          rw [this, pow_succ, Nat.mul_comm (2 ^ k) 2, Nat.mul_mod_mul_left]
        rw [e1, rev_two_mul, hsum]

theorem permAt_swap {K : Type} (k t : Nat) (a f : Nat → K) (ht : t < 2 ^ k)
    (hf : ∀ p, f p = permAt k t a p) (p : Nat) :
    (if t < rev k t then
        Function.update (Function.update f t (f (rev k t))) (rev k t) (f t)
      else f) p = permAt k (t + 1) a p := by
  have hj := rev_lt k t
  have hjj := rev_rev k t ht
  by_cases htj : t < rev k t
  · rw [if_pos htj]
    by_cases hp1 : p = rev k t
    · subst hp1
      rw [Function.update_same, hf t]
      have c1 : ¬ (t < 2 ^ k ∧ (t < t ∨ rev k t < t)) := by omega
      have c2 : rev k t < 2 ^ k ∧ (rev k t < t + 1 ∨ rev k (rev k t) < t + 1) := by omega
      rw [permAt, permAt, if_neg c1, if_pos c2, hjj]
    · rw [Function.update_noteq hp1]
      by_cases hp2 : p = t
      · subst hp2
        rw [Function.update_same, hf]
        have c1 : ¬ (rev k p < 2 ^ k ∧ (rev k p < p ∨ rev k (rev k p) < p)) := by omega
        have c2 : p < 2 ^ k ∧ (p < p + 1 ∨ rev k p < p + 1) := by omega
        rw [permAt, permAt, if_neg c1, if_pos c2]
      · rw [Function.update_noteq hp2, hf]
        by_cases hpk : p < 2 ^ k
        · have hpp := rev_rev k p hpk
          have hne : rev k p ≠ t := by
            intro h; rw [h] at hpp; exact hp1 hpp.symm
          have c : (p < 2 ^ k ∧ (p < t ∨ rev k p < t)) ↔ (p < 2 ^ k ∧ (p < t + 1 ∨ rev k p < t + 1)) := by
            omega
          simp only [permAt, c]
        · simp [permAt, hpk]
  · rw [if_neg htj, hf]
    by_cases hpk : p < 2 ^ k
    · have hpp := rev_rev k p hpk
      by_cases hp2 : p = t
      · subst hp2
        have c2 : p < 2 ^ k ∧ (p < p + 1 ∨ rev k p < p + 1) := by omega
        rw [permAt, permAt, if_pos c2]
        by_cases c1 : (p < 2 ^ k ∧ (p < p ∨ rev k p < p))
        · rw [if_pos c1]
        · rw [if_neg c1]
          have : rev k p = p := by omega
          rw [this]
      · have c : (p < 2 ^ k ∧ (p < t ∨ rev k p < t)) ↔ (p < 2 ^ k ∧ (p < t + 1 ∨ rev k p < t + 1)) := by
          by_cases h : rev k p = t
          · rw [h] at hpp
            omega
          · omega
        simp only [permAt, c]
    · simp [permAt, hpk]


theorem bit_reverse_spec {K : Type} (k fuel : Nat) (real imag : Nat → K) (hf : 2 ^ k < fuel) :
    ∃ out, bit_reverse fuel real imag (2 ^ k) = some out ∧
      ∀ p, out.1 p = (if p < 2 ^ k then real (rev k p) else real p) ∧
        out.2 p = (if p < 2 ^ k then imag (rev k p) else imag p) := by
  have hk : k < fuel := lt_trans (Nat.lt_two_pow k) hf
  obtain ⟨s, hs, hinv⟩ := whileLoop_inv (fun s : BitRevState K => decide (s.i < 2 ^ k))
    (bit_reverse_body fuel (2 ^ k))
    (fun t s => s.i = t ∧ s.j = rev k (t % 2 ^ k) ∧ (∀ p, s.real p = permAt k t real p) ∧
      (∀ p, s.imag p = permAt k t imag p)) (2 ^ k)
    (by
      rintro t s ht ⟨hi, hj, hre, him⟩
      refine ⟨by simp [hi, ht], ?_⟩
      rw [Nat.mod_eq_of_lt ht] at hj
      obtain ⟨jm, hjm, hsum⟩ := bit_reverse_while_spec k t fuel ht hk
      refine ⟨_, by rw [bit_reverse_body, hj, hjm]; rfl, ?_, ?_, ?_, ?_⟩
      · simp [hi]
      · exact hsum
      · intro p
        simp only [hi]
        exact permAt_swap k t real s.real ht hre p
      · intro p
        simp only [hi]
        exact permAt_swap k t imag s.imag ht him p)
    (by
      rintro s ⟨hi, -⟩
      simp [hi])
    fuel 0 { real := real, imag := imag, j := 0, i := 0 } (Nat.zero_le _) (by omega)
    ⟨rfl, by
      show 0 = rev k (0 % 2 ^ k)
      rw [Nat.zero_mod, rev_zero], by intro p; simp [permAt], by intro p; simp [permAt]⟩
  refine ⟨(s.real, s.imag), by rw [bit_reverse, hs]; rfl, ?_⟩
  obtain ⟨-, -, hre, him⟩ := hinv
  intro p
  show s.real p = _ ∧ s.imag p = _
  rw [hre p, him p]
  by_cases hp : p < 2 ^ k <;> simp [permAt, hp]



/-! ## The butterfly loops -/

theorem butterfly_toC (len i : Nat) (wlen_r wlen_i : ℝ) (s : ButterflyState ℝ) :
    ∃ s', fft_butterfly_body len i wlen_r wlen_i s = some s' ∧ s'.j = s.j + 1 ∧
      (⟨s'.wr, s'.wi⟩ : ℂ) = ⟨s.wr, s.wi⟩ * ⟨wlen_r, wlen_i⟩ ∧
      ∀ p, toC s'.real s'.imag p =
        if p = i + s.j + len / 2 then
          toC s.real s.imag (i + s.j) - toC s.real s.imag (i + s.j + len / 2) * ⟨s.wr, s.wi⟩
        else if p = i + s.j then
          toC s.real s.imag (i + s.j) + toC s.real s.imag (i + s.j + len / 2) * ⟨s.wr, s.wi⟩
        else toC s.real s.imag p := by
  refine ⟨_, rfl, rfl, ?_, ?_⟩
  · apply Complex.ext <;> simp
  · intro p
    by_cases h1 : p = i + s.j + len / 2
    · rw [if_pos h1]
      subst h1
      apply Complex.ext <;> simp [toC]
    · rw [if_neg h1]
      by_cases h0 : p = i + s.j
      · rw [if_pos h0]
        subst h0
        apply Complex.ext <;> simp [toC, Function.update_noteq h1]
      · rw [if_neg h0]
        apply Complex.ext <;> simp [toC, Function.update_noteq h1, Function.update_noteq h0]

theorem twiddle_eq (len : Nat) :
    (⟨Real.cos (-2 * Real.pi / (len : ℝ)), Real.sin (-2 * Real.pi / (len : ℝ))⟩ : ℂ) = omega len := by
  have e : (-2 * Real.pi * Complex.I / (len : ℂ)) = ((-2 * Real.pi / (len : ℝ) : ℝ) : ℂ) * Complex.I := by
    push_cast; ring
  rw [omega, e]
  apply Complex.ext
  · rw [Complex.exp_ofReal_mul_I_re]
  · rw [Complex.exp_ofReal_mul_I_im]

theorem omega_sq (L : Nat) (hL : 0 < L) : omega (2 * L) ^ 2 = omega L := by
  rw [omega, omega, ← Complex.exp_nat_mul]
  congr 1
  have : (L : ℂ) ≠ 0 := by exact_mod_cast hL.ne.symm
  push_cast
  field_simp
  ring

theorem omega_pow_self (L : Nat) (hL : 0 < L) : omega L ^ L = 1 := by
  rw [omega, ← Complex.exp_nat_mul]
  have : (L : ℂ) ≠ 0 := by exact_mod_cast hL.ne.symm
  have e : (L : ℂ) * (-2 * Real.pi * Complex.I / L) = -(2 * Real.pi * Complex.I) := by
    field_simp
    ring
  rw [e, Complex.exp_neg, Complex.exp_two_pi_mul_I, inv_one]

theorem omega_half (L : Nat) (hL : 0 < L) : omega (2 * L) ^ L = -1 := by
  rw [omega, ← Complex.exp_nat_mul]
  have : (L : ℂ) ≠ 0 := by exact_mod_cast hL.ne.symm
  have e : (L : ℂ) * (-2 * Real.pi * Complex.I / ((2 * L : ℕ) : ℂ)) = -(Real.pi * Complex.I) := by
    push_cast
    field_simp
    ring
  rw [e, Complex.exp_neg, Complex.exp_pi_mul_I]
  norm_num


theorem butterfly_loop_spec (len L i fuel : Nat) (wlen_r wlen_i : ℝ) (re0 im0 : Nat → ℝ)
    (hlen : len / 2 = L) (hfuel : L < fuel) :
    ∃ s, whileLoop (fun t : ButterflyState ℝ => decide (t.j < len / 2))
        (fft_butterfly_body len i wlen_r wlen_i) fuel
        { real := re0, imag := im0, wr := 1, wi := 0, j := 0 } = some s ∧
      (∀ q, q < L →
        toC s.real s.imag (i + q) =
          toC re0 im0 (i + q) + (⟨wlen_r, wlen_i⟩ : ℂ) ^ q * toC re0 im0 (i + q + L) ∧
        toC s.real s.imag (i + q + L) =
          toC re0 im0 (i + q) - (⟨wlen_r, wlen_i⟩ : ℂ) ^ q * toC re0 im0 (i + q + L)) ∧
      (∀ p, (p < i ∨ i + 2 * L ≤ p) → toC s.real s.imag p = toC re0 im0 p) := by
  obtain ⟨s, hs, -, -, hbf, hframe⟩ := whileLoop_inv
    (fun t : ButterflyState ℝ => decide (t.j < len / 2))
    (fft_butterfly_body len i wlen_r wlen_i)
    (fun t s => s.j = t ∧ (⟨s.wr, s.wi⟩ : ℂ) = (⟨wlen_r, wlen_i⟩ : ℂ) ^ t ∧
      (∀ q, q < t →
        toC s.real s.imag (i + q) =
          toC re0 im0 (i + q) + (⟨wlen_r, wlen_i⟩ : ℂ) ^ q * toC re0 im0 (i + q + L) ∧
        toC s.real s.imag (i + q + L) =
          toC re0 im0 (i + q) - (⟨wlen_r, wlen_i⟩ : ℂ) ^ q * toC re0 im0 (i + q + L)) ∧
      (∀ p, (p < i ∨ (i + t ≤ p ∧ p < i + L) ∨ i + L + t ≤ p) →
        toC s.real s.imag p = toC re0 im0 p)) L
    (by
      rintro t s ht ⟨hj, hw, hbf, hframe⟩
      refine ⟨by simp [hj, hlen, ht], ?_⟩
      obtain ⟨s', hs', hj', hw', hz⟩ := butterfly_toC len i wlen_r wlen_i s
      rw [hlen, hj, hw] at hz
      have e0 := hframe (i + t) (by omega)
      have e1 := hframe (i + t + L) (by omega)
      refine ⟨s', hs', by omega, by rw [hw', hw, pow_succ], ?_, ?_⟩
      · intro q hq
        rcases Nat.lt_or_ge q t with hqt | hqt
        · obtain ⟨h1, h2⟩ := hbf q hqt
          rw [hz, hz, if_neg (by omega), if_neg (by omega), if_neg (by omega), if_neg (by omega)]
          exact ⟨h1, h2⟩
        · have hqe : q = t := by omega
          subst hqe
          rw [hz, hz, if_neg (by omega), if_pos rfl, if_pos rfl, e0, e1]
          constructor <;> ring
      · intro p hp
        rw [hz, if_neg (by omega), if_neg (by omega)]
        exact hframe p (by omega))
    (by
      rintro s ⟨hj, -⟩
      simp [hj, hlen])
    fuel 0 { real := re0, imag := im0, wr := 1, wi := 0, j := 0 } (Nat.zero_le _) (by omega)
    ⟨rfl, by simp; rfl, by intro q hq; omega, by intro p _; rfl⟩
  refine ⟨s, hs, hbf, ?_⟩
  intro p hp
  exact hframe p (by omega)

theorem block_loop_spec (len L c n fuel : Nat) (wlen_r wlen_i : ℝ) (re0 im0 : Nat → ℝ)
    (hlen : len = 2 * L) (hL : 0 < L) (hn : n = c * len) (hfuel : n < fuel) :
    ∃ s, whileLoop (fun t : BlockState ℝ => decide (t.i < n))
        (fft_block_body fuel len wlen_r wlen_i) fuel
        { real := re0, imag := im0, i := 0 } = some s ∧
      (∀ b q, b < c → q < L →
        toC s.real s.imag (b * len + q) =
          toC re0 im0 (b * len + q) +
            (⟨wlen_r, wlen_i⟩ : ℂ) ^ q * toC re0 im0 (b * len + q + L) ∧
        toC s.real s.imag (b * len + q + L) =
          toC re0 im0 (b * len + q) -
            (⟨wlen_r, wlen_i⟩ : ℂ) ^ q * toC re0 im0 (b * len + q + L)) ∧
      (∀ p, n ≤ p → toC s.real s.imag p = toC re0 im0 p) := by
  have hhalf : len / 2 = L := by omega
  obtain ⟨s, hs, -, hbf, hframe⟩ := whileLoop_inv
    (fun t : BlockState ℝ => decide (t.i < n))
    (fft_block_body fuel len wlen_r wlen_i)
    (fun t s => s.i = t * len ∧
      (∀ b q, b < t → q < L →
        toC s.real s.imag (b * len + q) =
          toC re0 im0 (b * len + q) +
            (⟨wlen_r, wlen_i⟩ : ℂ) ^ q * toC re0 im0 (b * len + q + L) ∧
        toC s.real s.imag (b * len + q + L) =
          toC re0 im0 (b * len + q) -
            (⟨wlen_r, wlen_i⟩ : ℂ) ^ q * toC re0 im0 (b * len + q + L)) ∧
      (∀ p, t * len ≤ p → toC s.real s.imag p = toC re0 im0 p)) c
    (by
      rintro t s ht ⟨hi, hbf, hframe⟩
      have hlt : t * len < c * len := Nat.mul_lt_mul_of_pos_right ht (by omega)
      have hle : (t + 1) * len ≤ c * len := Nat.mul_le_mul_right _ ht
      have hsucc : (t + 1) * len = t * len + len := by ring
      refine ⟨by simp [hi, hn, hlt], ?_⟩
      obtain ⟨u, hu, hub, huf⟩ := butterfly_loop_spec len L s.i fuel wlen_r wlen_i
        s.real s.imag hhalf (by omega)
      refine ⟨{ real := u.real, imag := u.imag, i := s.i + len },
        by rw [fft_block_body, hu]; rfl, by rw [hi, hsucc], ?_, ?_⟩
      · intro b q hb hq
        rcases Nat.lt_or_ge b t with hbt | hbt
        · have h1 : (b + 1) * len ≤ t * len := Nat.mul_le_mul_right _ hbt
          have h2 : (b + 1) * len = b * len + len := by ring
          obtain ⟨e1, e2⟩ := hbf b q hbt hq
          rw [huf _ (by omega), huf _ (by omega)]
          exact ⟨e1, e2⟩
        · have hbe : b = t := by omega
          subst hbe
          obtain ⟨e1, e2⟩ := hub q hq
          rw [hi] at e1 e2
          rw [e1, e2, hframe _ (by omega), hframe _ (by omega)]
          exact ⟨rfl, rfl⟩
      · intro p hp
        show toC u.real u.imag p = _
        rw [huf p (by omega)]
        exact hframe p (by omega))
    (by
      rintro s ⟨hi, -⟩
      simp [hi, hn])
    fuel 0 { real := re0, imag := im0, i := 0 } (Nat.zero_le _)
    (by
      have : c ≤ c * len := Nat.le_mul_of_pos_right _ (by omega)
      omega)
    ⟨by simp, by intro b q hb; omega, by intro p _; rfl⟩
  refine ⟨s, hs, hbf, ?_⟩
  intro p hp
  exact hframe p (by omega)


/-! ## Decimation in time -/

theorem sum_range_even_odd (f : Nat → ℂ) (L : Nat) :
    ∑ m in Finset.range (2 * L), f m =
      ∑ m in Finset.range L, f (2 * m) + ∑ m in Finset.range L, f (2 * m + 1) := by
  induction L with
  | zero => simp
  | succ L ih =>
    rw [show 2 * (L + 1) = 2 * L + 1 + 1 by ring, Finset.sum_range_succ, Finset.sum_range_succ,
      ih, Finset.sum_range_succ, Finset.sum_range_succ]
    ring

theorem omega_succ_sq (t : Nat) : omega (2 ^ (t + 1)) ^ 2 = omega (2 ^ t) := by
  rw [pow_succ 2 t, Nat.mul_comm]
  exact omega_sq _ (by positivity)

theorem omega_succ_half (t : Nat) : omega (2 ^ (t + 1)) ^ (2 ^ t) = -1 := by
  rw [pow_succ 2 t, Nat.mul_comm]
  exact omega_half _ (by positivity)

theorem stageVal_split (x : Nat → ℂ) (d t b q : Nat) :
    stageVal x d (t + 1) b q =
      ∑ m in Finset.range (2 ^ t),
          x (2 * m * 2 ^ d + rev d b) * omega (2 ^ (t + 1)) ^ (2 * m * q) +
        ∑ m in Finset.range (2 ^ t),
          x ((2 * m + 1) * 2 ^ d + rev d b) * omega (2 ^ (t + 1)) ^ ((2 * m + 1) * q) := by
  have h := sum_range_even_odd
    (fun m => x (m * 2 ^ d + rev d b) * omega (2 ^ (t + 1)) ^ (m * q)) (2 ^ t)
  rw [show 2 * 2 ^ t = 2 ^ (t + 1) by ring] at h
  rw [stageVal, h]

theorem stageVal_low (x : Nat → ℂ) (d t b q : Nat) :
    stageVal x d (t + 1) b q =
      stageVal x (d + 1) t (2 * b) q +
        omega (2 ^ (t + 1)) ^ q * stageVal x (d + 1) t (2 * b + 1) q := by
  have hsq := omega_succ_sq t
  rw [stageVal_split, stageVal, stageVal, Finset.mul_sum]
  congr 1
  · apply Finset.sum_congr rfl
    intro m _
    have e1 : 2 * m * 2 ^ d + rev d b = m * 2 ^ (d + 1) + rev (d + 1) (2 * b) := by
      rw [rev_two_mul]; ring
    have e2 : omega (2 ^ (t + 1)) ^ (2 * m * q) = omega (2 ^ t) ^ (m * q) := by
      rw [show 2 * m * q = 2 * (m * q) by ring, pow_mul, hsq]
    rw [e1, e2]
  · apply Finset.sum_congr rfl
    intro m _
    have e1 : (2 * m + 1) * 2 ^ d + rev d b = m * 2 ^ (d + 1) + rev (d + 1) (2 * b + 1) := by
      rw [rev_two_mul_add_one]; ring
    have e2 : omega (2 ^ (t + 1)) ^ ((2 * m + 1) * q) =
        omega (2 ^ (t + 1)) ^ q * omega (2 ^ t) ^ (m * q) := by
      rw [show (2 * m + 1) * q = 2 * (m * q) + q by ring, pow_add, pow_mul, hsq]
      ring
    rw [e1, e2]
    ring

theorem stageVal_high (x : Nat → ℂ) (d t b q : Nat) :
    stageVal x d (t + 1) b (q + 2 ^ t) =
      stageVal x (d + 1) t (2 * b) q -
        omega (2 ^ (t + 1)) ^ q * stageVal x (d + 1) t (2 * b + 1) q := by
  have hsq := omega_succ_sq t
  have hhalf := omega_succ_half t
  have hfull := omega_pow_self (2 ^ t) (by positivity)
  have e0 : ∀ m, omega (2 ^ (t + 1)) ^ (2 * m * (q + 2 ^ t)) = omega (2 ^ t) ^ (m * q) := by
    intro m
    rw [show 2 * m * (q + 2 ^ t) = 2 * (m * q + 2 ^ t * m) by ring, pow_mul, hsq, pow_add,
      pow_mul (omega (2 ^ t)) (2 ^ t) m, hfull, one_pow, mul_one]
  rw [stageVal_split, stageVal, stageVal, Finset.mul_sum, sub_eq_add_neg,
    ← Finset.sum_neg_distrib]
  congr 1
  · apply Finset.sum_congr rfl
    intro m _
    have e1 : 2 * m * 2 ^ d + rev d b = m * 2 ^ (d + 1) + rev (d + 1) (2 * b) := by
      rw [rev_two_mul]; ring
    rw [e1, e0]
  · apply Finset.sum_congr rfl
    intro m _
    have e1 : (2 * m + 1) * 2 ^ d + rev d b = m * 2 ^ (d + 1) + rev (d + 1) (2 * b + 1) := by
      rw [rev_two_mul_add_one]; ring
    have e2 : omega (2 ^ (t + 1)) ^ ((2 * m + 1) * (q + 2 ^ t)) =
        -(omega (2 ^ (t + 1)) ^ q * omega (2 ^ t) ^ (m * q)) := by
      rw [show (2 * m + 1) * (q + 2 ^ t) = 2 * m * (q + 2 ^ t) + q + 2 ^ t by ring, pow_add,
        pow_add, e0, hhalf]
      ring
    rw [e1, e2]
    ring




theorem stage_loop_spec (K fuel : Nat) (x : Nat → ℂ) (re0 im0 : Nat → ℝ) (hfuel : 2 ^ K < fuel)
    (h0 : ∀ b, b < 2 ^ K → toC re0 im0 b = x (rev K b)) :
    ∃ s, whileLoop (fun t : StageState ℝ => decide (t.len ≤ 2 ^ K)) (fft_stage_body fuel (2 ^ K))
        fuel { real := re0, imag := im0, len := 2 } = some s ∧
      ∀ k, k < 2 ^ K →
        toC s.real s.imag k = ∑ m in Finset.range (2 ^ K), x m * omega (2 ^ K) ^ (m * k) := by
  obtain ⟨s, hs, -, hfin⟩ := whileLoop_inv
    (fun t : StageState ℝ => decide (t.len ≤ 2 ^ K)) (fft_stage_body fuel (2 ^ K))
    (fun t s => s.len = 2 ^ (t + 1) ∧
      ∀ b q, b < 2 ^ (K - t) → q < 2 ^ t →
        toC s.real s.imag (b * 2 ^ t + q) = stageVal x (K - t) t b q) K
    (by
      rintro t s ht ⟨hlen, hz⟩
      obtain ⟨d, rfl⟩ : ∃ d, K = t + 1 + d := ⟨K - (t + 1), by omega⟩
      have hd1 : t + 1 + d - t = d + 1 := by omega
      have hd2 : t + 1 + d - (t + 1) = d := by omega
      rw [hd1] at hz
      dsimp only
      rw [hd2]
      have hle : 2 ^ (t + 1) ≤ 2 ^ (t + 1 + d) := Nat.pow_le_pow_right (by norm_num) (by omega)
      refine ⟨by simp [hlen, hle], ?_⟩
      obtain ⟨u, hu, hub, -⟩ := block_loop_spec (2 ^ (t + 1)) (2 ^ t) (2 ^ d) (2 ^ (t + 1 + d)) fuel
        (Real.cos (-2 * Real.pi / ((2 ^ (t + 1) : ℕ) : ℝ)))
        (Real.sin (-2 * Real.pi / ((2 ^ (t + 1) : ℕ) : ℝ))) s.real s.imag
        (by ring) (by positivity) (by ring) hfuel
      rw [twiddle_eq] at hub
      refine ⟨{ real := u.real, imag := u.imag, len := 2 ^ (t + 1) <<< 1 }, ?_, ?_, ?_⟩
      · rw [fft_stage_body, hlen]
        exact congrArg (Option.map fun t_1 : BlockState ℝ =>
          ({ real := t_1.real, imag := t_1.imag, len := 2 ^ (t + 1) <<< 1 } : StageState ℝ)) hu
      · show 2 ^ (t + 1) <<< 1 = _
        rw [Nat.shiftLeft_eq]
        ring
      · intro b q hb hq
        show toC u.real u.imag (b * 2 ^ (t + 1) + q) = _
        have hb0 : 2 * b < 2 ^ (d + 1) := by rw [pow_succ]; omega
        have hb1 : 2 * b + 1 < 2 ^ (d + 1) := by rw [pow_succ]; omega
        rcases Nat.lt_or_ge q (2 ^ t) with hq1 | hq1
        · obtain ⟨e1, -⟩ := hub b q hb hq1
          have a0 := hz (2 * b) q hb0 hq1
          have a1 := hz (2 * b + 1) q hb1 hq1
          rw [show 2 * b * 2 ^ t + q = b * 2 ^ (t + 1) + q by ring] at a0
          rw [show (2 * b + 1) * 2 ^ t + q = b * 2 ^ (t + 1) + q + 2 ^ t by ring] at a1
          rw [e1, a0, a1, stageVal_low]
        · obtain ⟨q', rfl⟩ : ∃ q', q = q' + 2 ^ t := ⟨q - 2 ^ t, by omega⟩
          have hq' : q' < 2 ^ t := by rw [pow_succ] at hq; omega
          obtain ⟨-, e2⟩ := hub b q' hb hq'
          have a0 := hz (2 * b) q' hb0 hq'
          have a1 := hz (2 * b + 1) q' hb1 hq'
          rw [show 2 * b * 2 ^ t + q' = b * 2 ^ (t + 1) + q' by ring] at a0
          rw [show (2 * b + 1) * 2 ^ t + q' = b * 2 ^ (t + 1) + q' + 2 ^ t by ring] at a1
          rw [← Nat.add_assoc, e2, a0, a1, stageVal_high])
    (by
      rintro s ⟨hlen, -⟩
      have hpos : 0 < 2 ^ K := by positivity
      have : ¬ (2 ^ (K + 1) ≤ 2 ^ K) := by
        rw [pow_succ]
        omega
      simp [hlen, this])
    fuel 0 { real := re0, imag := im0, len := 2 } (Nat.zero_le _)
    (by have := Nat.lt_two_pow K; omega)
    ⟨rfl, by
      intro b q hb hq
      have hq0 : q = 0 := by simpa using hq
      subst hq0
      simp only [Nat.sub_zero] at hb
      simp [stageVal, h0 b hb]⟩
  refine ⟨s, hs, ?_⟩
  intro k hk
  have := hfin 0 k (by simp) hk
  simp only [Nat.sub_self, zero_mul, zero_add] at this
  rw [this, stageVal]
  simp [rev]




theorem fft_n_spec (K fuel : Nat) (re im : Nat → ℝ) (hfuel : 2 ^ K < fuel) :
    ∃ out, fft_n fuel (2 ^ K) re im = some out ∧
      ∀ k, k < 2 ^ K →
        toC out.1 out.2 k =
          ∑ m in Finset.range (2 ^ K), toC re im m * omega (2 ^ K) ^ (m * k) := by
  obtain ⟨b, hb, hperm⟩ := bit_reverse_spec K fuel re im hfuel
  obtain ⟨s, hs, hfin⟩ := stage_loop_spec K fuel (toC re im) b.1 b.2 hfuel (by
    intro p hp
    obtain ⟨h1, h2⟩ := hperm p
    rw [if_pos hp] at h1 h2
    rw [toC, toC, h1, h2])
  exact ⟨(s.real, s.imag), by rw [fft_n, hb]; simp [hs], hfin⟩

theorem omega_pow_eq_exp (N m k : Nat) :
    omega N ^ (m * k) = Complex.exp (-2 * Real.pi * Complex.I * m * k / N) := by
  rw [omega, ← Complex.exp_nat_mul]
  congr 1
  push_cast
  ring

theorem fft_n_dft (K fuel : Nat) (real imag : Nat → ℝ) (hfuel : 2 ^ K < fuel) :
    ∃ out, fft_n fuel (2 ^ K) real imag = some out ∧
      ∀ k, k < 2 ^ K →
        (⟨out.1 k, out.2 k⟩ : ℂ) =
          ∑ m in Finset.range (2 ^ K), (⟨real m, imag m⟩ : ℂ) *
            Complex.exp (-2 * Real.pi * Complex.I * m * k / (2 ^ K : ℕ)) := by
  obtain ⟨out, h1, h2⟩ := fft_n_spec K fuel real imag hfuel
  refine ⟨out, h1, ?_⟩
  intro k hk
  have := h2 k hk
  simp only [toC, omega_pow_eq_exp] at this
  exact this

/-! ## Claims on `fft.c` : the transform and the bit reversal -/

theorem fft_1024_dft (fuel : Nat) (real imag : Nat → ℝ) (hfuel : 4096 < fuel) :
    ∃ out, fft_1024 fuel real imag = some out ∧
      ∀ k, k < 4096 →
        (⟨out.1 k, out.2 k⟩ : ℂ) =
          ∑ m in Finset.range 4096, (⟨real m, imag m⟩ : ℂ) *
            Complex.exp (-2 * Real.pi * Complex.I * m * k / 4096) := by
  have h := fft_n_dft 12 fuel real imag (by norm_num; exact hfuel)
  have e : (2 : Nat) ^ 12 = 4096 := by norm_num
  rw [e] at h
  simpa [fft_1024] using h

/-- C1: over exact real arithmetic the transform leaves in position `k` the
discrete Fourier transform `X[k] = Σ_{m<N} (real[m] + i·imag[m]) · e^(-2πi·m·k/N)`
of its input, in natural index order: for `fft_n` at every power of two
`N = 2^K` (in particular every `N > 1`; the indices of the parameterised embedding
are unbounded naturals), and for `fft_1024` where `N = 4096`. Both calls return
once the step budget exceeds `N`. -/
theorem fft_1024_computes_dft (K fuel : Nat) (real imag : Nat → ℝ) (hfuel : 2 ^ K < fuel) :
    (∃ out, fft_n fuel (2 ^ K) real imag = some out ∧
      ∀ k, k < 2 ^ K →
        (⟨out.1 k, out.2 k⟩ : ℂ) =
          ∑ m in Finset.range (2 ^ K), (⟨real m, imag m⟩ : ℂ) *
            Complex.exp (-2 * Real.pi * Complex.I * m * k / (2 ^ K : ℕ))) ∧
    (4096 < fuel →
      ∃ out, fft_1024 fuel real imag = some out ∧
        ∀ k, k < 4096 →
          (⟨out.1 k, out.2 k⟩ : ℂ) =
            ∑ m in Finset.range 4096, (⟨real m, imag m⟩ : ℂ) *
              Complex.exp (-2 * Real.pi * Complex.I * m * k / 4096)) :=
  ⟨fft_n_dft K fuel real imag hfuel, fft_1024_dft fuel real imag⟩

theorem fft_1024_computes_dft_witness :
    (∃ out, fft_n 4097 (2 ^ 12) (fun _ => (0 : ℝ)) (fun _ => (0 : ℝ)) = some out ∧
      ∀ k, k < 2 ^ 12 →
        (⟨out.1 k, out.2 k⟩ : ℂ) =
          ∑ m in Finset.range (2 ^ 12), (⟨(0 : ℝ), (0 : ℝ)⟩ : ℂ) *
            Complex.exp (-2 * Real.pi * Complex.I * m * k / (2 ^ 12 : ℕ))) ∧
    (4096 < 4097 →
      ∃ out, fft_1024 4097 (fun _ => (0 : ℝ)) (fun _ => (0 : ℝ)) = some out ∧
        ∀ k, k < 4096 →
          (⟨out.1 k, out.2 k⟩ : ℂ) =
            ∑ m in Finset.range 4096, (⟨(0 : ℝ), (0 : ℝ)⟩ : ℂ) *
              Complex.exp (-2 * Real.pi * Complex.I * m * k / 4096)) :=
  fft_1024_computes_dft 12 4097 (fun _ => 0) (fun _ => 0) (by norm_num)

/-- C2: for every `n = 2^k` (in particular `k ≥ 1`) `bit_reverse` returns and
moves the element at index `i` to index `rev k i` in both arrays, where `rev k i`
is the `k`-bit reversal of `i` (bit `b` of `rev k i` is bit `k-1-b` of `i`); and on
the buffer `[0,1,2,3,4,5,6,7]` with `n = 8` it yields `[0,4,2,6,1,5,3,7]`. -/
theorem bit_reverse_permutes {K : Type} (k fuel : Nat) (real imag : Nat → K)
    (hfuel : 2 ^ k < fuel) :
    (∃ out, bit_reverse fuel real imag (2 ^ k) = some out ∧
      ∀ i, i < 2 ^ k →
        rev k i < 2 ^ k ∧ out.1 (rev k i) = real i ∧ out.2 (rev k i) = imag i) ∧
    (∀ i b, (rev k i).testBit b = (decide (b < k) && i.testBit (k - 1 - b))) ∧
    (bit_reverse 9 (fun i => i) (fun i => i) 8).map
      (fun out => ((List.range 8).map out.1, (List.range 8).map out.2)) =
        some ([0, 4, 2, 6, 1, 5, 3, 7], [0, 4, 2, 6, 1, 5, 3, 7]) := by
  refine ⟨?_, rev_testBit k, by decide⟩
  obtain ⟨out, hout, hperm⟩ := bit_reverse_spec k fuel real imag hfuel
  refine ⟨out, hout, ?_⟩
  intro i hi
  have hlt := rev_lt k i
  obtain ⟨h1, h2⟩ := hperm (rev k i)
  rw [if_pos hlt, rev_rev k i hi] at h1 h2
  exact ⟨hlt, h1, h2⟩

theorem bit_reverse_permutes_witness :
    (∃ out, bit_reverse 5 (fun i => (i : ℤ)) (fun i => (2 * i : ℤ)) (2 ^ 2) = some out ∧
      ∀ i, i < 2 ^ 2 →
        rev 2 i < 2 ^ 2 ∧ out.1 (rev 2 i) = (i : ℤ) ∧ out.2 (rev 2 i) = (2 * i : ℤ)) ∧
    (∀ i b, (rev 2 i).testBit b = (decide (b < 2) && i.testBit (2 - 1 - b))) ∧
    (bit_reverse 9 (fun i => i) (fun i => i) 8).map
      (fun out => ((List.range 8).map out.1, (List.range 8).map out.2)) =
        some ([0, 4, 2, 6, 1, 5, 3, 7], [0, 4, 2, 6, 1, 5, 3, 7]) :=
  bit_reverse_permutes 2 5 (fun i => (i : ℤ)) (fun i => (2 * i : ℤ)) (by decide)

/-! ## Claims on `fft.c` : round trip -/

theorem omega_isPrimitiveRoot (N : Nat) (hN : N ≠ 0) : IsPrimitiveRoot (omega N) N := by
  have h := Complex.isPrimitiveRoot_exp N hN
  have e : omega N = (Complex.exp (2 * Real.pi * Complex.I / N))⁻¹ := by
    rw [omega, ← Complex.exp_neg]
    congr 1
    ring
  rw [e]
  exact IsPrimitiveRoot.inv_iff.mpr h

theorem omega_conj (N : Nat) : (starRingEnd ℂ) (omega N) = (omega N)⁻¹ := by
  rw [omega, ← Complex.exp_conj, ← Complex.exp_neg]
  congr 1
  simp only [map_div₀, map_mul, map_neg, Complex.conj_I, Complex.conj_ofReal, map_ofNat,
    Complex.conj_natCast]
  ring

theorem omega_ne_zero (N : Nat) : omega N ≠ 0 := Complex.exp_ne_zero _

theorem omega_orthogonal (N m j : Nat) (hm : m < N) (hj : j < N) :
    ∑ k in Finset.range N, omega N ^ (m * k) * (omega N)⁻¹ ^ (k * j) =
      if m = j then (N : ℂ) else 0 := by
  have hN : N ≠ 0 := by omega
  have hw := omega_ne_zero N
  have hprim := omega_isPrimitiveRoot N hN
  have hterm : ∀ k, omega N ^ (m * k) * (omega N)⁻¹ ^ (k * j) =
      (omega N ^ m * (omega N)⁻¹ ^ j) ^ k := by
    intro k
    rw [mul_pow, ← pow_mul, ← pow_mul, Nat.mul_comm k j]
  simp only [hterm]
  by_cases hmj : m = j
  · subst hmj
    rw [if_pos rfl, ← mul_pow, mul_inv_cancel₀ hw]
    simp
  · rw [if_neg hmj]
    have hr1 : omega N ^ m * (omega N)⁻¹ ^ j ≠ 1 := by
      intro h
      apply hmj
      apply hprim.pow_inj hm hj
      have h2 := congrArg (fun z => z * omega N ^ j) h
      simp only [one_mul] at h2
      rw [mul_assoc, ← mul_pow, inv_mul_cancel₀ hw, one_pow, mul_one] at h2
      exact h2
    have hrN : (omega N ^ m * (omega N)⁻¹ ^ j) ^ N = 1 := by
      rw [mul_pow, ← pow_mul, ← pow_mul, Nat.mul_comm m N, Nat.mul_comm j N, pow_mul, pow_mul,
        inv_pow, omega_pow_self N (by omega)]
      simp
    have hgeom := mul_geom_sum (omega N ^ m * (omega N)⁻¹ ^ j) N
    rw [hrN, sub_self] at hgeom
    rcases mul_eq_zero.mp hgeom with h | h
    · exact absurd (sub_eq_zero.mp h) hr1
    · exact h

theorem fft_roundtrip_pow (K fuel : Nat) (real imag : Nat → ℝ) (hfuel : 2 ^ K < fuel) :
    ∃ X out, fft_n fuel (2 ^ K) real imag = some X ∧
      ifft_n fuel (2 ^ K) X.1 X.2 = some out ∧
      ∀ k, k < 2 ^ K → out.1 k = real k ∧ out.2 k = imag k := by
  obtain ⟨X, hX, hXs⟩ := fft_n_spec K fuel real imag hfuel
  obtain ⟨Y, hY, hYs⟩ := fft_n_spec K fuel X.1 (fun i => -X.2 i) hfuel
  refine ⟨X, (fun i => Y.1 i / ((2 ^ K : Nat) : ℝ), fun i => (-Y.2 i) / ((2 ^ K : Nat) : ℝ)),
    hX, by rw [ifft_n, hY]; rfl, ?_⟩
  intro j hj
  have hNpos : (0 : ℝ) < ((2 ^ K : Nat) : ℝ) := by positivity
  have hconj : (starRingEnd ℂ) (toC Y.1 Y.2 j) = toC real imag j * ((2 ^ K : Nat) : ℂ) := by
    rw [hYs j hj, map_sum]
    have hterm : ∀ k ∈ Finset.range (2 ^ K),
        (starRingEnd ℂ) (toC X.1 (fun i => -X.2 i) k * omega (2 ^ K) ^ (k * j)) =
          ∑ m in Finset.range (2 ^ K),
            toC real imag m * (omega (2 ^ K) ^ (m * k) * (omega (2 ^ K))⁻¹ ^ (k * j)) := by
      intro k hk
      have e1 : (starRingEnd ℂ) (toC X.1 (fun i => -X.2 i) k) = toC X.1 X.2 k := by
        apply Complex.ext <;> simp [toC]
      rw [map_mul, map_pow, omega_conj, e1, hXs k (Finset.mem_range.mp hk), Finset.sum_mul]
      apply Finset.sum_congr rfl
      intro m _
      ring
    rw [Finset.sum_congr rfl hterm, Finset.sum_comm]
    have hinner : ∀ m ∈ Finset.range (2 ^ K),
        ∑ k in Finset.range (2 ^ K),
            toC real imag m * (omega (2 ^ K) ^ (m * k) * (omega (2 ^ K))⁻¹ ^ (k * j)) =
          if m = j then toC real imag m * ((2 ^ K : Nat) : ℂ) else 0 := by
      intro m hm
      rw [← Finset.mul_sum, omega_orthogonal (2 ^ K) m j (Finset.mem_range.mp hm) hj]
      split_ifs <;> simp
    rw [Finset.sum_congr rfl hinner, Finset.sum_ite_eq' (Finset.range (2 ^ K)) j,
      if_pos (Finset.mem_range.mpr hj)]
  have hcast : ((2 ^ K : Nat) : ℂ) = (((2 ^ K : Nat) : ℝ) : ℂ) := by push_cast; rfl
  rw [hcast] at hconj
  have hre := congrArg Complex.re hconj
  have him := congrArg Complex.im hconj
  rw [Complex.re_mul_ofReal] at hre
  rw [Complex.im_mul_ofReal] at him
  constructor
  · show Y.1 j / ((2 ^ K : Nat) : ℝ) = real j
    rw [div_eq_iff hNpos.ne.symm]
    exact hre
  · show (-Y.2 j) / ((2 ^ K : Nat) : ℝ) = imag j
    rw [div_eq_iff hNpos.ne.symm]
    exact him

/-- C10: over exact real arithmetic, for each `N` of 4, 8, 1024, 4096 and every
complex buffer of length `N`, the forward transform followed by the inverse built
from it by conjugate-and-scale returns the original buffer. -/
theorem fft_roundtrip (N fuel : Nat) (real imag : Nat → ℝ)
    (hN : N = 4 ∨ N = 8 ∨ N = 1024 ∨ N = 4096) (hfuel : N < fuel) :
    ∃ X out, fft_n fuel N real imag = some X ∧ ifft_n fuel N X.1 X.2 = some out ∧
      ∀ k, k < N → out.1 k = real k ∧ out.2 k = imag k := by
  have hpow : ∃ K, N = 2 ^ K := by
    rcases hN with h | h | h | h
    · exact ⟨2, by rw [h]; norm_num⟩
    · exact ⟨3, by rw [h]; norm_num⟩
    · exact ⟨10, by rw [h]; norm_num⟩
    · exact ⟨12, by rw [h]; norm_num⟩
  obtain ⟨K, rfl⟩ := hpow
  exact fft_roundtrip_pow K fuel real imag hfuel

theorem fft_roundtrip_witness :
    ∃ X out, fft_n 9 8 (fun i => (i : ℝ)) (fun _ => (1 : ℝ)) = some X ∧
      ifft_n 9 8 X.1 X.2 = some out ∧
      ∀ k, k < 8 → out.1 k = (k : ℝ) ∧ out.2 k = (1 : ℝ) :=
  fft_roundtrip 8 9 (fun i => (i : ℝ)) (fun _ => 1) (by norm_num) (by norm_num)

/-! ## The loops of `main.c` -/

theorem peak_cond (i : Nat) : decide (((i : ℝ)) < (FS : ℝ) / 2) = decide (i < 2048) := by
  have h : ((i : ℝ) < (FS : ℝ) / 2) ↔ i < 2048 := by
    rw [FS, show (4096 : ℝ) / 2 = ((2048 : ℕ) : ℝ) by norm_num, Nat.cast_lt]
  simp only [h]

theorem main_peak_spec (fuel : Nat) (magnitude : Nat → ℝ) (hfuel : 2048 < fuel) :
    ∃ pk, main_peak fuel magnitude = some pk ∧ 1 ≤ pk.f0_idx ∧ pk.f0_idx < 2048 ∧
      pk.max_val = magnitude pk.f0_idx ∧
      (∀ i, 1 ≤ i → i < 2048 → magnitude i ≤ magnitude pk.f0_idx) ∧
      (∀ j, 1 ≤ j → j < pk.f0_idx → magnitude j < magnitude pk.f0_idx) := by
  obtain ⟨s, hs, -, h1, h2, h3, h4, h5⟩ := whileLoop_inv
    (fun s : PeakState ℝ => decide ((s.i : ℝ) < FS / 2)) (main_peak_body magnitude)
    (fun t s => s.i = t + 2 ∧ 1 ≤ s.f0_idx ∧ s.f0_idx < t + 2 ∧
      s.max_val = magnitude s.f0_idx ∧
      (∀ i, 1 ≤ i → i < t + 2 → magnitude i ≤ magnitude s.f0_idx) ∧
      (∀ j, 1 ≤ j → j < s.f0_idx → magnitude j < magnitude s.f0_idx)) 2046
    (by
      rintro t s ht ⟨hi, h1, h2, h3, h4, h5⟩
      refine ⟨by dsimp only; rw [peak_cond, hi]; exact decide_eq_true (by omega), ?_⟩
      by_cases hgt : magnitude s.i > s.max_val
      · refine ⟨_, by rw [main_peak_body, if_pos hgt], by simp [hi], by simp [hi],
          by simp [hi], rfl, ?_, ?_⟩
        · intro i hi1 hi2
          show magnitude i ≤ magnitude s.i
          rcases Nat.lt_or_ge i (t + 2) with hlt | hge
          · have := h4 i hi1 hlt
            rw [← h3] at this
            exact le_trans this (le_of_lt hgt)
          · have : i = s.i := by omega
            rw [this]
        · intro j hj1 hj2
          show magnitude j < magnitude s.i
          have hj3 : j < t + 2 := by simpa [hi] using hj2
          have := h4 j hj1 hj3
          rw [← h3] at this
          exact lt_of_le_of_lt this hgt
      · refine ⟨{ f0_idx := s.f0_idx, max_val := s.max_val, i := s.i + 1 },
          by rw [main_peak_body, if_neg hgt], by simp [hi], h1, ?_, h3, ?_, h5⟩
        · show s.f0_idx < t + 1 + 2
          omega
        · intro i hi1 hi2
          show magnitude i ≤ magnitude s.f0_idx
          rcases Nat.lt_or_ge i (t + 2) with hlt | hge
          · exact h4 i hi1 hlt
          · have : i = s.i := by omega
            rw [this, ← h3]
            exact not_lt.mp hgt)
    (by
      rintro s ⟨hi, -⟩
      dsimp only
      rw [peak_cond, hi]
      exact decide_eq_false (by omega))
    fuel 0 { f0_idx := 1, max_val := magnitude 1, i := 2 } (Nat.zero_le _) (by omega)
    ⟨rfl, le_refl _, by norm_num, rfl, by
      intro i hi1 hi2
      have : i = 1 := by omega
      rw [this], by
      intro j hj1 hj2
      have hj3 : j < 1 := hj2
      omega⟩
  exact ⟨s, hs, h1, h2, h3, h4, h5⟩

theorem roundf_natCast (m : Nat) : roundf ((m : ℝ)) = (m : ℝ) := by
  have h0 : (0 : ℝ) ≤ (m : ℝ) := Nat.cast_nonneg m
  have hfl : ⌊(m : ℝ) + 1 / 2⌋ = (m : ℤ) := by
    rw [Int.floor_eq_iff]
    constructor
    · push_cast; linarith
    · push_cast; linarith
  rw [roundf, if_pos h0, hfl]
  simp

theorem float_to_int_natCast (m : Nat) : float_to_int ((m : ℝ)) = (m : ℤ) := by
  have h0 : (0 : ℝ) ≤ (m : ℝ) := Nat.cast_nonneg m
  rw [float_to_int, if_pos h0]
  exact Int.floor_natCast m

theorem harmonic_idx (n f0_idx : Nat) :
    float_to_int (roundf (((n : ℝ) * ((FS * (f0_idx : ℝ)) / (NFFT : ℝ))) * (NFFT : ℝ) / FS)) =
      ((n * f0_idx : Nat) : Int) := by
  have e : ((n : ℝ) * ((FS * (f0_idx : ℝ)) / (NFFT : ℝ))) * (NFFT : ℝ) / FS =
      ((n * f0_idx : Nat) : ℝ) := by
    simp only [FS, NFFT]
    push_cast
    field_simp
  rw [e, roundf_natCast, float_to_int_natCast]

theorem main_harmonic_body_eq (magnitude : Nat → ℝ) (f0_idx : Nat) (s : HarmonicState ℝ) :
    main_harmonic_body magnitude ((FS * (f0_idx : ℝ)) / (NFFT : ℝ)) s =
      some (if s.n * f0_idx < 2048 then
          { fundamental_rms :=
              if s.n = 1 then vrms_bin magnitude (s.n * f0_idx) else s.fundamental_rms,
            sum_harm_sq :=
              if s.n = 1 then s.sum_harm_sq
              else s.sum_harm_sq + vrms_bin magnitude (s.n * f0_idx) ^ 2,
            table := s.table ++
              [harmonic_line magnitude f0_idx ((FS * (f0_idx : ℝ)) / (NFFT : ℝ)) s.n],
            n := s.n + 1 }
        else
          { fundamental_rms := s.fundamental_rms, sum_harm_sq := s.sum_harm_sq,
            table := s.table, n := s.n + 1 }) := by
  have hidx := harmonic_idx s.n f0_idx
  rw [main_harmonic_body]
  simp only []
  rw [hidx]
  by_cases hbig : s.n * f0_idx < 2048
  · have hc1 : ¬ ((s.n * f0_idx : Nat) : Int) ≥ ((NFFT / 2 : Nat) : Int) := by
      simp only [NFFT]; omega
    have hc2 : ¬ ((s.n * f0_idx : Nat) : Int) < 0 := by omega
    rw [if_neg hc1, if_neg hc2, if_pos hbig, Int.toNat_ofNat]
    by_cases h1 : s.n = 1
    · rw [if_pos h1, if_pos h1, if_pos h1]
      rfl
    · rw [if_neg h1, if_neg h1, if_neg h1, sq]
      rfl
  · have hc1 : ((s.n * f0_idx : Nat) : Int) ≥ ((NFFT / 2 : Nat) : Int) := by
      simp only [NFFT]; omega
    rw [if_pos hc1, if_neg hbig]

theorem main_harmonics_spec (fuel : Nat) (magnitude : Nat → ℝ) (f0_idx : Nat)
    (hfuel : 20 < fuel) :
    ∃ h, main_harmonics fuel magnitude ((FS * (f0_idx : ℝ)) / (NFFT : ℝ)) = some h ∧
      h.table = ((List.range' 1 20).filter (fun n => decide (n * f0_idx < 2048))).map
        (harmonic_line magnitude f0_idx ((FS * (f0_idx : ℝ)) / (NFFT : ℝ))) ∧
      h.fundamental_rms = (if f0_idx < 2048 then vrms_bin magnitude f0_idx else 0) ∧
      h.sum_harm_sq = ∑ n in Finset.range 21,
        if 2 ≤ n ∧ n * f0_idx < 2048 then vrms_bin magnitude (n * f0_idx) ^ 2 else 0 := by
  obtain ⟨s, hs, -, h1, h2, h3⟩ := whileLoop_inv
    (fun s : HarmonicState ℝ => decide (s.n ≤ 20))
    (main_harmonic_body magnitude ((FS * (f0_idx : ℝ)) / (NFFT : ℝ)))
    (fun t s => s.n = t + 1 ∧
      s.table = ((List.range' 1 t).filter (fun n => decide (n * f0_idx < 2048))).map
        (harmonic_line magnitude f0_idx ((FS * (f0_idx : ℝ)) / (NFFT : ℝ))) ∧
      s.fundamental_rms = (if 1 ≤ t ∧ f0_idx < 2048 then vrms_bin magnitude f0_idx else 0) ∧
      s.sum_harm_sq = ∑ n in Finset.range (t + 1),
        if 2 ≤ n ∧ n * f0_idx < 2048 then vrms_bin magnitude (n * f0_idx) ^ 2 else 0) 20
    (by
      rintro t s ht ⟨hn, htab, hfund, hsum⟩
      refine ⟨by simp [hn]; omega, ?_⟩
      have hrange : List.range' 1 (t + 1) = List.range' 1 t ++ [t + 1] := by
        rw [List.range'_concat]; simp [Nat.add_comm]
      refine ⟨_, main_harmonic_body_eq magnitude f0_idx s, ?_⟩
      rw [hn]
      by_cases hbig : (t + 1) * f0_idx < 2048
      · rw [if_pos hbig]
        refine ⟨rfl, ?_, ?_, ?_⟩
        · simp only [htab, hrange, List.filter_append, List.map_append]
          simp [hbig]
        · simp only [hfund]
          by_cases h1 : t = 0
          · subst h1
            have : f0_idx < 2048 := by omega
            simp [this]
          · have hf : f0_idx < 2048 := by
              have : f0_idx ≤ (t + 1) * f0_idx := Nat.le_mul_of_pos_left _ (by omega)
              omega
            have ht1 : 1 ≤ t := by omega
            simp [h1, hf, ht1]
        · simp only [hsum]
          rw [Finset.sum_range_succ _ (t + 1)]
          by_cases h1 : t = 0
          · subst h1
            simp
          · have ht2 : 2 ≤ t + 1 := by omega
            simp [h1, ht2, hbig]
      · rw [if_neg hbig]
        refine ⟨rfl, ?_, ?_, ?_⟩
        · simp only [htab, hrange, List.filter_append, List.map_append]
          simp [hbig]
        · simp only [hfund]
          by_cases h1 : t = 0
          · subst h1
            have : ¬ f0_idx < 2048 := by omega
            simp [this]
          · have ht1 : 1 ≤ t := by omega
            simp [ht1]
        · simp only [hsum]
          rw [Finset.sum_range_succ _ (t + 1)]
          simp [hbig])
    (by
      rintro s ⟨hn, -⟩
      simp [hn])
    fuel 0 { fundamental_rms := 0, sum_harm_sq := 0, table := [], n := 1 } (Nat.zero_le _)
    (by omega)
    ⟨rfl, by simp, by simp, by simp⟩
  refine ⟨s, hs, h1, ?_, h3⟩
  rw [h2]
  simp

theorem main_total_spec (fuel : Nat) (magnitude : Nat → ℝ) (hfuel : 2048 < fuel) :
    ∃ t, main_total fuel magnitude = some t ∧
      t.total_rms_sq = ∑ i in Finset.Ico 1 2048, vrms_bin magnitude i ^ 2 := by
  obtain ⟨s, hs, -, h1⟩ := whileLoop_inv
    (fun s : TotalState ℝ => decide (s.i < NFFT / 2)) (main_total_body magnitude)
    (fun t s => s.i = t + 1 ∧
      s.total_rms_sq = ∑ i in Finset.Ico 1 (t + 1), vrms_bin magnitude i ^ 2) 2047
    (by
      rintro t s ht ⟨hi, hsum⟩
      refine ⟨by simp [hi, NFFT]; omega, _, rfl, by simp [hi], ?_⟩
      show s.total_rms_sq + _ * _ = _
      rw [Finset.sum_Ico_succ_top (by omega), hsum, hi, ← sq]
      rfl)
    (by
      rintro s ⟨hi, -⟩
      simp [hi, NFFT])
    fuel 0 { total_rms_sq := 0, i := 1 } (Nat.zero_le _) (by omega) ⟨rfl, by simp⟩
  exact ⟨s, hs, h1⟩

theorem main_window_spec (fuel : Nat) (buffer : Nat → Nat) (real_fft imag_fft : Nat → ℝ)
    (hfuel : 4096 < fuel) :
    ∃ w, main_window fuel buffer real_fft imag_fft = some w ∧
      ∀ p, w.1 p =
          (if p < 4096 then
            (((buffer p : Int) - ADC_OFFSET : Int) : ℝ) *
              (0.5 * (1 - Real.cos ((2 * Real.pi * (p : ℝ)) / ((SAMPLES - 1 : Nat) : ℝ))))
          else real_fft p) ∧
        w.2 p = (if p < 4096 then 0 else imag_fft p) := by
  obtain ⟨s, hs, -, h1⟩ := whileLoop_inv
    (fun s : WindowState ℝ => decide (s.i < SAMPLES)) (main_window_body buffer)
    (fun t s => s.i = t ∧ ∀ p, s.real_fft p =
          (if p < t then
            (((buffer p : Int) - ADC_OFFSET : Int) : ℝ) *
              (0.5 * (1 - Real.cos ((2 * Real.pi * (p : ℝ)) / ((SAMPLES - 1 : Nat) : ℝ))))
          else real_fft p) ∧
        s.imag_fft p = (if p < t then 0 else imag_fft p)) 4096
    (by
      rintro t s ht ⟨hi, harr⟩
      refine ⟨by simp [hi, SAMPLES, ht], _, rfl, by simp [hi], ?_⟩
      intro p
      obtain ⟨e1, e2⟩ := harr p
      show Function.update s.real_fft s.i _ p = _ ∧ Function.update s.imag_fft s.i _ p = _
      rw [Function.update_apply, Function.update_apply, hi]
      by_cases hp : p = t
      · subst hp
        rw [if_pos rfl, if_pos rfl, if_pos (by omega), if_pos (by omega)]
        exact ⟨rfl, rfl⟩
      · rw [if_neg hp, if_neg hp, e1, e2]
        by_cases hlt : p < t
        · rw [if_pos hlt, if_pos hlt, if_pos (by omega), if_pos (by omega)]
          exact ⟨rfl, rfl⟩
        · rw [if_neg hlt, if_neg hlt, if_neg (by omega), if_neg (by omega)]
          exact ⟨rfl, rfl⟩)
    (by
      rintro s ⟨hi, -⟩
      simp [hi, SAMPLES])
    fuel 0 { real_fft := real_fft, imag_fft := imag_fft, i := 0 } (Nat.zero_le _) (by omega)
    ⟨rfl, by intro p; simp⟩
  exact ⟨(s.real_fft, s.imag_fft), by rw [main_window, hs]; rfl, h1⟩

theorem main_magnitude_spec (fuel : Nat) (real_fft imag_fft magnitude : Nat → ℝ)
    (hfuel : 2048 < fuel) :
    ∃ m, main_magnitude fuel real_fft imag_fft magnitude = some m ∧
      ∀ p, m p =
        (if p < 2048 then Real.sqrt (real_fft p * real_fft p + imag_fft p * imag_fft p)
         else magnitude p) := by
  obtain ⟨s, hs, -, h1⟩ := whileLoop_inv
    (fun s : MagnitudeState ℝ => decide (s.i < NFFT / 2))
    (main_magnitude_body real_fft imag_fft)
    (fun t s => s.i = t ∧ ∀ p, s.magnitude p =
        (if p < t then Real.sqrt (real_fft p * real_fft p + imag_fft p * imag_fft p)
         else magnitude p)) 2048
    (by
      rintro t s ht ⟨hi, harr⟩
      refine ⟨by simp [hi, NFFT, ht], _, rfl, by simp [hi], ?_⟩
      intro p
      show Function.update s.magnitude s.i _ p = _
      rw [Function.update_apply, hi]
      by_cases hp : p = t
      · subst hp
        rw [if_pos rfl, if_pos (by omega)]
        rfl
      · rw [if_neg hp, harr p]
        by_cases hlt : p < t
        · rw [if_pos hlt, if_pos (by omega)]
        · rw [if_neg hlt, if_neg (by omega)])
    (by
      rintro s ⟨hi, -⟩
      simp [hi, NFFT])
    fuel 0 { magnitude := magnitude, i := 0 } (Nat.zero_le _) (by omega)
    ⟨rfl, by intro p; simp⟩
  exact ⟨s.magnitude, by rw [main_magnitude, hs]; rfl, h1⟩

/-! ## Claims on `main.c` : the analysis of a spectrum -/

theorem main_analysis_spec (fuel : Nat) (magnitude : Nat → ℝ) (hfuel : 2048 < fuel) :
    ∃ pk h t r, main_peak fuel magnitude = some pk ∧
      main_harmonics fuel magnitude ((FS * (pk.f0_idx : ℝ)) / (NFFT : ℝ)) = some h ∧
      main_total fuel magnitude = some t ∧
      main_analysis fuel magnitude = some r ∧
      r.f0_idx = pk.f0_idx ∧ r.f0 = (FS * (pk.f0_idx : ℝ)) / (NFFT : ℝ) ∧
      r.table = h.table ∧ r.fundamental_rms = h.fundamental_rms ∧
      r.sum_harm_sq = h.sum_harm_sq ∧ r.total_rms = Real.sqrt t.total_rms_sq ∧
      r.total_mv = (Real.sqrt t.total_rms_sq * VREF / ADC_MAX) * 1000 ∧
      r.thd = float_div (Real.sqrt h.sum_harm_sq) h.fundamental_rms ∧
      r.thd_percent = (float_div (Real.sqrt h.sum_harm_sq) h.fundamental_rms).map
        fun v => v * 100 := by
  obtain ⟨pk, hpk, -⟩ := main_peak_spec fuel magnitude hfuel
  obtain ⟨h, hh, -⟩ := main_harmonics_spec fuel magnitude pk.f0_idx (by omega)
  obtain ⟨t, ht, -⟩ := main_total_spec fuel magnitude hfuel
  refine ⟨pk, h, t,
    { f0_idx := pk.f0_idx, f0 := (FS * (pk.f0_idx : ℝ)) / (NFFT : ℝ), table := h.table,
      fundamental_rms := h.fundamental_rms, sum_harm_sq := h.sum_harm_sq,
      total_rms := Real.sqrt t.total_rms_sq,
      total_mv := (Real.sqrt t.total_rms_sq * VREF / ADC_MAX) * 1000,
      thd := float_div (Real.sqrt h.sum_harm_sq) h.fundamental_rms,
      thd_percent := (float_div (Real.sqrt h.sum_harm_sq) h.fundamental_rms).map
        fun v => v * 100 },
    hpk, hh, ht, ?_, rfl, rfl, rfl, rfl, rfl, rfl, rfl, rfl, rfl⟩
  simp only [main_analysis, hpk, Option.some_bind, hh, ht]
  rfl

theorem harmonic_sum_eq (g : Nat → ℝ) (f : Nat) :
    (∑ n in Finset.range 21, if 2 ≤ n ∧ n * f < 2048 then g n else 0) =
      ∑ n in (Finset.Icc 2 20).filter (fun n => n * f < 2048), g n := by
  rw [← Finset.sum_filter]
  apply Finset.sum_congr _ (fun _ _ => rfl)
  ext n
  simp only [Finset.mem_filter, Finset.mem_range, Finset.mem_Icc]
  omega

theorem main_analysis_values (fuel : Nat) (magnitude : Nat → ℝ) (hfuel : 2048 < fuel) :
    ∃ r, main_analysis fuel magnitude = some r ∧ 1 ≤ r.f0_idx ∧ r.f0_idx < 2048 ∧
      (∀ i, 1 ≤ i → i < 2048 → magnitude i ≤ magnitude r.f0_idx) ∧
      (∀ j, 1 ≤ j → j < r.f0_idx → magnitude j < magnitude r.f0_idx) ∧
      r.fundamental_rms = vrms_bin magnitude r.f0_idx ∧
      r.sum_harm_sq = ∑ n in (Finset.Icc 2 20).filter (fun n => n * r.f0_idx < 2048),
        vrms_bin magnitude (n * r.f0_idx) ^ 2 ∧
      r.total_rms = Real.sqrt (∑ i in Finset.Ico 1 2048, vrms_bin magnitude i ^ 2) ∧
      r.thd = float_div (Real.sqrt r.sum_harm_sq) r.fundamental_rms ∧
      r.thd_percent = r.thd.map fun v => v * 100 := by
  obtain ⟨pk, h, t, r, hpk, hh, ht, hr, hidx, -, -, hfund, hsum, htot, -, hthd, hpc⟩ :=
    main_analysis_spec fuel magnitude hfuel
  obtain ⟨pk', hpk', h1, h2, -, h4, h5⟩ := main_peak_spec fuel magnitude hfuel
  rw [hpk] at hpk'
  obtain rfl : pk = pk' := Option.some.inj hpk'
  obtain ⟨h', hh', -, hf', hs'⟩ := main_harmonics_spec fuel magnitude pk.f0_idx (by omega)
  rw [hh] at hh'
  obtain rfl : h = h' := Option.some.inj hh'
  obtain ⟨t', ht', htt⟩ := main_total_spec fuel magnitude hfuel
  rw [ht] at ht'
  obtain rfl : t = t' := Option.some.inj ht'
  rw [if_pos h2] at hf'
  rw [harmonic_sum_eq] at hs'
  rw [← hidx] at h1 h2 h4 h5 hf' hs'
  refine ⟨r, hr, h1, h2, h4, h5, by rw [hfund, hf'], by rw [hsum, hs'], by rw [htot, htt],
    by rw [hthd, hsum, hfund], by rw [hpc, hthd]⟩

/-- C3: for every magnitude spectrum the fundamental detector returns an index
`f0_idx` with `1 ≤ f0_idx < N/2` (never bin 0) whose magnitude is the maximum over
bins `1 .. N/2 - 1` and which is the earliest bin attaining it; when all those
magnitudes are equal it returns bin 1; the reported frequency is
`f0 = FS * f0_idx / N`, which equals `f0_idx` for `FS = N = 4096`. -/
theorem fundamental_detector_earliest_max (fuel : Nat) (magnitude : Nat → ℝ)
    (hfuel : 2048 < fuel) :
    ∃ pk r, main_peak fuel magnitude = some pk ∧ main_analysis fuel magnitude = some r ∧
      r.f0_idx = pk.f0_idx ∧ 1 ≤ r.f0_idx ∧ r.f0_idx < NFFT / 2 ∧
      (∀ i, 1 ≤ i → i < NFFT / 2 → magnitude i ≤ magnitude r.f0_idx) ∧
      (∀ j, 1 ≤ j → j < r.f0_idx → magnitude j < magnitude r.f0_idx) ∧
      ((∀ i, 1 ≤ i → i < NFFT / 2 → magnitude i = magnitude 1) → r.f0_idx = 1) ∧
      r.f0 = (FS * (r.f0_idx : ℝ)) / (NFFT : ℝ) ∧ r.f0 = (r.f0_idx : ℝ) := by
  obtain ⟨pk, h, t, r, hpk, -, -, hr, hidx, hf0, -⟩ := main_analysis_spec fuel magnitude hfuel
  obtain ⟨pk', hpk', h1, h2, -, h4, h5⟩ := main_peak_spec fuel magnitude hfuel
  rw [hpk] at hpk'
  obtain rfl : pk = pk' := Option.some.inj hpk'
  rw [← hidx] at h1 h2 h4 h5 hf0
  refine ⟨pk, r, hpk, hr, hidx, h1, h2, h4, h5, ?_, hf0, ?_⟩
  · intro hall
    by_contra hne
    have hlt := h5 1 (le_refl 1) (by omega)
    rw [hall r.f0_idx h1 h2] at hlt
    exact lt_irrefl _ hlt
  · rw [hf0]
    simp only [FS, NFFT]
    push_cast
    field_simp

theorem fundamental_detector_earliest_max_witness :
    ∃ pk r, main_peak 2049 (fun _ => (0 : ℝ)) = some pk ∧
      main_analysis 2049 (fun _ => (0 : ℝ)) = some r ∧
      r.f0_idx = pk.f0_idx ∧ 1 ≤ r.f0_idx ∧ r.f0_idx < NFFT / 2 ∧
      (∀ i, 1 ≤ i → i < NFFT / 2 → (0 : ℝ) ≤ 0) ∧
      (∀ j, 1 ≤ j → j < r.f0_idx → (0 : ℝ) < 0) ∧
      ((∀ i, 1 ≤ i → i < NFFT / 2 → (0 : ℝ) = 0) → r.f0_idx = 1) ∧
      r.f0 = (FS * (r.f0_idx : ℝ)) / (NFFT : ℝ) ∧ r.f0 = (r.f0_idx : ℝ) :=
  fundamental_detector_earliest_max 2049 (fun _ => 0) (by norm_num)

/-- C4: for a fundamental at bin `f0_idx` with `1 ≤ f0_idx < N/2` and
`N = FS = 4096`, the harmonic loop returns and records order `n` of `1..20` exactly
when `idx = round(n * f0 * N / FS) < N/2`, where `idx = n * f0_idx`: the recorded
orders are those with `n * f0_idx ≤ N/2 - 1`, order 1 is among them, at most 20
are recorded, and every index read lies in `[0, N/2)`; the whole analysis of the
spectrum returns as well. -/
theorem harmonic_loop_records (fuel : Nat) (magnitude : Nat → ℝ) (f0_idx : Nat)
    (h1 : 1 ≤ f0_idx) (h2 : f0_idx < NFFT / 2) (hfuel : 2048 < fuel) :
    (∃ h, main_harmonics fuel magnitude ((FS * (f0_idx : ℝ)) / (NFFT : ℝ)) = some h ∧
      h.table.map (fun r => r.n) =
        (List.range' 1 20).filter (fun n => decide (n * f0_idx ≤ NFFT / 2 - 1)) ∧
      (∀ n : Nat, 1 ≤ n → n ≤ 20 →
        (n ∈ h.table.map (fun r => r.n) ↔
          float_to_int (roundf (((n : ℝ) * ((FS * (f0_idx : ℝ)) / (NFFT : ℝ))) * (NFFT : ℝ) / FS))
            < ((NFFT / 2 : Nat) : Int))) ∧
      (∀ r : HarmonicRecord ℝ, r ∈ h.table →
        r.idx = float_to_int
          (roundf (((r.n : ℝ) * ((FS * (f0_idx : ℝ)) / (NFFT : ℝ))) * (NFFT : ℝ) / FS)) ∧
        r.idx = ((r.n * f0_idx : Nat) : Int) ∧ 0 ≤ r.idx ∧ r.idx < ((NFFT / 2 : Nat) : Int)) ∧
      1 ∈ h.table.map (fun r => r.n) ∧ h.table.length ≤ 20) ∧
    (∃ r, main_analysis fuel magnitude = some r) := by
  constructor
  · obtain ⟨h, hh, htab, -⟩ := main_harmonics_spec fuel magnitude f0_idx (by omega)
    have hN : NFFT / 2 = 2048 := by simp [NFFT]
    rw [hN] at h2 ⊢
    have horders : h.table.map (fun r => r.n) =
        (List.range' 1 20).filter (fun n => decide (n * f0_idx ≤ 2048 - 1)) := by
      rw [htab, List.map_map]
      have e : ((fun r : HarmonicRecord ℝ => r.n) ∘
          harmonic_line magnitude f0_idx ((FS * (f0_idx : ℝ)) / (NFFT : ℝ))) = id := by
        funext n; rfl
      rw [e, List.map_id]
      apply List.filter_congr
      intro n _
      simp only [decide_eq_decide]
      omega
    refine ⟨h, hh, horders, ?_, ?_, ?_, ?_⟩
    · intro n hn1 hn2
      rw [horders, harmonic_idx, List.mem_filter, List.mem_range'_1]
      simp only [decide_eq_true_eq]
      constructor
      · rintro ⟨-, hle⟩
        omega
      · intro hlt
        exact ⟨⟨hn1, by omega⟩, by omega⟩
    · intro r hr
      rw [htab, List.mem_map] at hr
      obtain ⟨n, hn, rfl⟩ := hr
      rw [List.mem_filter] at hn
      have hlt : n * f0_idx < 2048 := by simpa using hn.2
      rw [harmonic_idx]
      refine ⟨rfl, rfl, ?_, ?_⟩
      · show (0 : Int) ≤ ((n * f0_idx : Nat) : Int)
        omega
      · show ((n * f0_idx : Nat) : Int) < ((2048 : Nat) : Int)
        omega
    · rw [horders, List.mem_filter, List.mem_range'_1]
      simp only [decide_eq_true_eq]
      omega
    · have hlen : (h.table.map (fun r => r.n)).length ≤ 20 := by
        rw [horders]
        exact le_trans (List.length_filter_le _ _) (by simp)
      simpa using hlen
  · obtain ⟨-, -, -, r, -, -, -, hr, -⟩ := main_analysis_spec fuel magnitude hfuel
    exact ⟨r, hr⟩

theorem harmonic_loop_records_witness :
    (∃ h, main_harmonics 2049 (fun _ => (1 : ℝ)) ((FS * ((1000 : Nat) : ℝ)) / (NFFT : ℝ)) = some h ∧
      h.table.map (fun r => r.n) =
        (List.range' 1 20).filter (fun n => decide (n * 1000 ≤ NFFT / 2 - 1)) ∧
      (∀ n : Nat, 1 ≤ n → n ≤ 20 →
        (n ∈ h.table.map (fun r => r.n) ↔
          float_to_int
            (roundf (((n : ℝ) * ((FS * ((1000 : Nat) : ℝ)) / (NFFT : ℝ))) * (NFFT : ℝ) / FS))
            < ((NFFT / 2 : Nat) : Int))) ∧
      (∀ r : HarmonicRecord ℝ, r ∈ h.table →
        r.idx = float_to_int
          (roundf (((r.n : ℝ) * ((FS * ((1000 : Nat) : ℝ)) / (NFFT : ℝ))) * (NFFT : ℝ) / FS)) ∧
        r.idx = ((r.n * 1000 : Nat) : Int) ∧ 0 ≤ r.idx ∧ r.idx < ((NFFT / 2 : Nat) : Int)) ∧
      1 ∈ h.table.map (fun r => r.n) ∧ h.table.length ≤ 20) ∧
    (∃ r, main_analysis 2049 (fun _ => (1 : ℝ)) = some r) :=
  harmonic_loop_records 2049 (fun _ => 1) 1000 (by decide) (by decide) (by decide)

/-- C6: for every magnitude spectrum the analysis returns, the fundamental RMS
is the per-bin RMS at the detected bin `f0_idx`, and when it is non-zero the THD
ratio is `sqrt(Σ vrms(n * f0_idx)^2) / vrms(f0_idx)`, the sum ranging over the
recorded orders `n` of `2..20` (those with `n * f0_idx < N/2`); THD percent is the
ratio times 100. -/
theorem thd_formula (fuel : Nat) (magnitude : Nat → ℝ) (hfuel : 2048 < fuel) :
    ∃ r, main_analysis fuel magnitude = some r ∧
      r.fundamental_rms = vrms_bin magnitude r.f0_idx ∧
      (r.fundamental_rms ≠ 0 →
        r.thd = some (Real.sqrt
            (∑ n in (Finset.Icc 2 20).filter (fun n => n * r.f0_idx < NFFT / 2),
              vrms_bin magnitude (n * r.f0_idx) ^ 2) / vrms_bin magnitude r.f0_idx) ∧
        r.thd_percent = some (Real.sqrt
            (∑ n in (Finset.Icc 2 20).filter (fun n => n * r.f0_idx < NFFT / 2),
              vrms_bin magnitude (n * r.f0_idx) ^ 2) / vrms_bin magnitude r.f0_idx * 100)) := by
  obtain ⟨r, hr, -, -, -, -, hfund, hsum, -, hthd, hpc⟩ :=
    main_analysis_values fuel magnitude hfuel
  refine ⟨r, hr, hfund, ?_⟩
  intro hne
  have hN : NFFT / 2 = 2048 := by simp [NFFT]
  have e : r.thd = some (Real.sqrt
      (∑ n in (Finset.Icc 2 20).filter (fun n => n * r.f0_idx < NFFT / 2),
        vrms_bin magnitude (n * r.f0_idx) ^ 2) / vrms_bin magnitude r.f0_idx) := by
    rw [hthd, float_div, if_neg hne, hsum, hfund, hN]
  exact ⟨e, by rw [hpc, e]; rfl⟩

theorem thd_formula_witness :
    ∃ r, main_analysis 2049 (fun _ => (1 : ℝ)) = some r ∧
      r.fundamental_rms = vrms_bin (fun _ => (1 : ℝ)) r.f0_idx ∧
      r.fundamental_rms ≠ 0 ∧
      r.thd = some (Real.sqrt
          (∑ n in (Finset.Icc 2 20).filter (fun n => n * r.f0_idx < NFFT / 2),
            vrms_bin (fun _ => (1 : ℝ)) (n * r.f0_idx) ^ 2) /
              vrms_bin (fun _ => (1 : ℝ)) r.f0_idx) ∧
      r.thd_percent = some (Real.sqrt
          (∑ n in (Finset.Icc 2 20).filter (fun n => n * r.f0_idx < NFFT / 2),
            vrms_bin (fun _ => (1 : ℝ)) (n * r.f0_idx) ^ 2) /
              vrms_bin (fun _ => (1 : ℝ)) r.f0_idx * 100) := by
  obtain ⟨r, hr, hf, himp⟩ := thd_formula 2049 (fun _ => 1) (by decide)
  have hne : r.fundamental_rms ≠ 0 := by
    rw [hf]
    simp only [vrms_bin, HANN_GAIN, NFFT]
    norm_num
  exact ⟨r, hr, hf, hne, (himp hne).1, (himp hne).2⟩

/-- C7: for every magnitude spectrum the total RMS is
`sqrt(Σ_{i ∈ [1, N/2)} vrms(i)^2)`: bin 0 is left out, every other bin of the half
spectrum enters once, and nothing but the spectrum enters the value. -/
theorem total_rms_formula (fuel : Nat) (magnitude : Nat → ℝ) (hfuel : 2048 < fuel) :
    ∃ r, main_analysis fuel magnitude = some r ∧
      r.total_rms = Real.sqrt (∑ i in Finset.Ico 1 (NFFT / 2), vrms_bin magnitude i ^ 2) := by
  obtain ⟨r, hr, -, -, -, -, -, -, htot, -⟩ := main_analysis_values fuel magnitude hfuel
  exact ⟨r, hr, by rw [htot]; simp [NFFT]⟩

theorem total_rms_formula_witness :
    ∃ r, main_analysis 2049 (fun i => (i : ℝ)) = some r ∧
      r.total_rms =
        Real.sqrt (∑ i in Finset.Ico 1 (NFFT / 2), vrms_bin (fun i => (i : ℝ)) i ^ 2) :=
  total_rms_formula 2049 (fun i => (i : ℝ)) (by decide)

theorem sqrt_two_ne : Real.sqrt 2 ≠ 1.4142 := by
  intro h
  have h2 : Real.sqrt 2 * Real.sqrt 2 = 2 := Real.mul_self_sqrt (by norm_num)
  rw [h] at h2
  norm_num at h2

/-- C8, the claim as stated fails: at bin 1 of the spectrum that is 1 everywhere
the per-bin RMS of the harmonic loop differs from
`(magnitude[1] / (N/2)) / sqrt(2) / HANN_GAIN`, because the program divides by the
constant `1.4142`. -/
theorem per_bin_rms_not_sqrt_two :
    ∃ s', main_harmonic_body (fun _ => (1 : ℝ)) ((FS * ((1 : Nat) : ℝ)) / (NFFT : ℝ))
        { fundamental_rms := 0, sum_harm_sq := 0, table := [], n := 1 } = some s' ∧
      s'.fundamental_rms ≠ ((1 : ℝ) / ((NFFT / 2 : Nat) : ℝ)) / Real.sqrt 2 / HANN_GAIN := by
  refine ⟨_, main_harmonic_body_eq (fun _ => (1 : ℝ)) 1 _, ?_⟩
  have hs := sqrt_two_ne
  have hpos : (0 : ℝ) < Real.sqrt 2 := Real.sqrt_pos.mpr (by norm_num)
  simp only [vrms_bin, HANN_GAIN, NFFT]
  norm_num
  intro h
  apply hs
  field_simp at h
  linarith

/-- C8, amended: for every spectrum and every bin `idx = n * f0_idx` in `[0, N/2)`
(every bin, with `n = 1`) the harmonic loop records at `idx` the per-bin RMS
`(magnitude[idx] / (N/2)) / 1.4142 / HANN_GAIN`, and the total-RMS loop adds the
square of the same expression at its bin: the divisor is the constant `1.4142`,
not the exact square root of 2. -/
theorem per_bin_rms_formula (magnitude : Nat → ℝ) (f0_idx : Nat) (s : HarmonicState ℝ)
    (t : TotalState ℝ) (hidx : s.n * f0_idx < NFFT / 2) :
    (∃ s' line, main_harmonic_body magnitude ((FS * (f0_idx : ℝ)) / (NFFT : ℝ)) s = some s' ∧
      s'.table = s.table ++ [line] ∧ line.idx = ((s.n * f0_idx : Nat) : Int) ∧
      line.vrms_adc =
        (magnitude (s.n * f0_idx) / ((NFFT / 2 : Nat) : ℝ)) / 1.4142 / HANN_GAIN) ∧
    main_total_body magnitude t =
      some { total_rms_sq := t.total_rms_sq +
               ((magnitude t.i / ((NFFT / 2 : Nat) : ℝ)) / 1.4142 / HANN_GAIN) ^ 2,
             i := t.i + 1 } := by
  have hlt : s.n * f0_idx < 2048 := by simpa [NFFT] using hidx
  constructor
  · refine ⟨_, harmonic_line magnitude f0_idx ((FS * (f0_idx : ℝ)) / (NFFT : ℝ)) s.n,
      main_harmonic_body_eq magnitude f0_idx s, ?_, rfl, ?_⟩
    · rw [if_pos hlt]
    · show vrms_bin magnitude (s.n * f0_idx) = _
      rw [vrms_bin]
      ring
  · rw [main_total_body]
    congr 2
    ring

theorem per_bin_rms_formula_witness :
    (∃ s' line, main_harmonic_body (fun _ => (1 : ℝ)) ((FS * ((3 : Nat) : ℝ)) / (NFFT : ℝ))
        { fundamental_rms := 0, sum_harm_sq := 0, table := [], n := 2 } = some s' ∧
      s'.table = [] ++ [line] ∧ line.idx = ((2 * 3 : Nat) : Int) ∧
      line.vrms_adc = ((1 : ℝ) / ((NFFT / 2 : Nat) : ℝ)) / 1.4142 / HANN_GAIN) ∧
    main_total_body (fun _ => (1 : ℝ)) { total_rms_sq := 0, i := 5 } =
      some { total_rms_sq := 0 + (((1 : ℝ) / ((NFFT / 2 : Nat) : ℝ)) / 1.4142 / HANN_GAIN) ^ 2,
             i := 5 + 1 } :=
  per_bin_rms_formula (fun _ => (1 : ℝ)) 3
    { fundamental_rms := 0, sum_harm_sq := 0, table := [], n := 2 }
    { total_rms_sq := 0, i := 5 } (by decide)

/-- C9: for every buffer of sample codes the windowing loop returns with
`real_fft[i] = (code[i] - 2048) * 0.5 * (1 - cos(2π·i/(N-1)))` and `imag_fft[i] = 0`
for every `i < N = 4096`, the centering being a signed subtraction; hence
`real_fft[0] = 0` and `real_fft[N-1] = 0`. -/
theorem windower_formula (fuel : Nat) (buffer : Nat → Nat) (real_fft imag_fft : Nat → ℝ)
    (hfuel : 4096 < fuel) :
    ∃ w, main_window fuel buffer real_fft imag_fft = some w ∧
      (∀ i, i < SAMPLES →
        w.1 i = ((buffer i : ℝ) - 2048) * 0.5 *
          (1 - Real.cos (2 * Real.pi * (i : ℝ) / ((SAMPLES : ℝ) - 1))) ∧
        w.2 i = 0) ∧
      w.1 0 = 0 ∧ w.1 (SAMPLES - 1) = 0 := by
  obtain ⟨w, hw, harr⟩ := main_window_spec fuel buffer real_fft imag_fft hfuel
  have hform : ∀ i, i < SAMPLES →
      w.1 i = ((buffer i : ℝ) - 2048) * 0.5 *
          (1 - Real.cos (2 * Real.pi * (i : ℝ) / ((SAMPLES : ℝ) - 1))) ∧
        w.2 i = 0 := by
    intro i hi
    have hi' : i < 4096 := hi
    obtain ⟨e1, e2⟩ := harr i
    rw [if_pos hi'] at e1 e2
    refine ⟨?_, e2⟩
    rw [e1]
    simp only [ADC_OFFSET, SAMPLES]
    push_cast
    norm_num
    ring
  refine ⟨w, hw, hform, ?_, ?_⟩
  · rw [(hform 0 (by simp [SAMPLES])).1]
    simp
  · rw [(hform (SAMPLES - 1) (by simp [SAMPLES])).1]
    have e : 2 * Real.pi * ((SAMPLES - 1 : Nat) : ℝ) / ((SAMPLES : ℝ) - 1) = 2 * Real.pi := by
      simp only [SAMPLES]
      push_cast
      field_simp
      norm_num
    rw [e, Real.cos_two_pi]
    ring

theorem windower_formula_witness :
    ∃ w, main_window 4097 (fun _ => 100) (fun _ => (0 : ℝ)) (fun _ => (0 : ℝ)) = some w ∧
      (∀ i, i < SAMPLES →
        w.1 i = (((100 : Nat) : ℝ) - 2048) * 0.5 *
          (1 - Real.cos (2 * Real.pi * (i : ℝ) / ((SAMPLES : ℝ) - 1))) ∧
        w.2 i = 0) ∧
      w.1 0 = 0 ∧ w.1 (SAMPLES - 1) = 0 :=
  windower_formula 4097 (fun _ => 100) (fun _ => 0) (fun _ => 0) (by norm_num)

/-! ## Claims on `main.c` : a whole cycle -/

theorem main_cycle_spec (fuel : Nat) (buffer : Nat → Nat) (real_fft imag_fft magnitude : Nat → ℝ)
    (hfuel : 4096 < fuel) :
    ∃ w X m r, main_window fuel buffer real_fft imag_fft = some w ∧
      fft_1024 fuel w.1 w.2 = some X ∧ main_magnitude fuel X.1 X.2 magnitude = some m ∧
      main_analysis fuel m = some r ∧
      main_cycle fuel buffer real_fft imag_fft magnitude = some r := by
  obtain ⟨w, hw, -⟩ := main_window_spec fuel buffer real_fft imag_fft hfuel
  obtain ⟨X, hX, -⟩ := fft_1024_dft fuel w.1 w.2 hfuel
  obtain ⟨m, hm, -⟩ := main_magnitude_spec fuel X.1 X.2 magnitude (by omega)
  obtain ⟨r, hr, -⟩ := main_analysis_values fuel m (by omega)
  refine ⟨w, X, m, r, hw, hX, hm, hr, ?_⟩
  simp only [main_cycle, hw, Option.some_bind, hX, hm, hr]

theorem main_cycle_zero (fuel : Nat) (real_fft imag_fft magnitude : Nat → ℝ)
    (hfuel : 4096 < fuel) :
    ∃ r, main_cycle fuel (fun _ => 2048) real_fft imag_fft magnitude = some r ∧
      r.f0_idx = 1 ∧ r.total_rms = 0 ∧ r.fundamental_rms = 0 ∧ r.sum_harm_sq = 0 ∧
      r.thd = none ∧ r.thd_percent = none := by
  obtain ⟨w, X, m, r, hw, hX, hm, hr, hcycle⟩ :=
    main_cycle_spec fuel (fun _ => 2048) real_fft imag_fft magnitude hfuel
  obtain ⟨w', hw', hwarr⟩ := main_window_spec fuel (fun _ => 2048) real_fft imag_fft hfuel
  rw [hw] at hw'
  obtain rfl : w = w' := Option.some.inj hw'
  obtain ⟨X', hX', hXarr⟩ := fft_1024_dft fuel w.1 w.2 hfuel
  rw [hX] at hX'
  obtain rfl : X = X' := Option.some.inj hX'
  obtain ⟨m', hm', hmarr⟩ := main_magnitude_spec fuel X.1 X.2 magnitude (by omega)
  rw [hm] at hm'
  obtain rfl : m = m' := Option.some.inj hm'
  obtain ⟨r', hr', h1, h2, -, h5, hfund, hsum, htot, hthd, hpc⟩ :=
    main_analysis_values fuel m (by omega)
  rw [hr] at hr'
  obtain rfl : r = r' := Option.some.inj hr'
  have hw0 : ∀ p, p < 4096 → (⟨w.1 p, w.2 p⟩ : ℂ) = 0 := by
    intro p hp
    obtain ⟨e1, e2⟩ := hwarr p
    rw [if_pos hp] at e1 e2
    rw [e1, e2]
    simp [ADC_OFFSET]
    rfl
  have hX0 : ∀ k, k < 4096 → X.1 k = 0 ∧ X.2 k = 0 := by
    intro k hk
    have h := hXarr k hk
    rw [Finset.sum_eq_zero (fun m hm => by
      rw [hw0 m (Finset.mem_range.mp hm), zero_mul])] at h
    exact ⟨congrArg Complex.re h, congrArg Complex.im h⟩
  have hm0 : ∀ p, p < 2048 → m p = 0 := by
    intro p hp
    rw [hmarr p, if_pos hp, (hX0 p (by omega)).1, (hX0 p (by omega)).2]
    simp
  have hv0 : ∀ p, p < 2048 → vrms_bin m p = 0 := by
    intro p hp
    rw [vrms_bin, hm0 p hp]
    simp
  have hidx : r.f0_idx = 1 := by
    by_contra hne
    have hlt := h5 1 (le_refl 1) (by omega)
    rw [hm0 1 (by norm_num), hm0 r.f0_idx h2] at hlt
    exact lt_irrefl _ hlt
  have hf0 : r.fundamental_rms = 0 := by rw [hfund, hv0 _ h2]
  have hs0 : r.sum_harm_sq = 0 := by
    rw [hsum]
    apply Finset.sum_eq_zero
    intro n hn
    rw [hv0 _ (Finset.mem_filter.mp hn).2]
    norm_num
  have ht0 : r.total_rms = 0 := by
    rw [htot, Finset.sum_eq_zero (fun i hi => by
      rw [hv0 i (Finset.mem_Ico.mp hi).2]; norm_num)]
    simp
  have hthd0 : r.thd = none := by rw [hthd, hf0, float_div, if_pos rfl]
  exact ⟨r, hcycle, hidx, ht0, hf0, hs0, hthd0, by rw [hpc, hthd0]; rfl⟩

/-- C5, the claim as stated fails: on the all-constant input (every code equal
to the offset 2048) the cycle divides by `fundamental_rms = 0` without a guard,
and neither the THD ratio nor the THD percent is a defined (finite) value. -/
theorem zero_signal_thd_undefined :
    ∃ r, main_cycle 4097 (fun _ => 2048) (fun _ => (0 : ℝ)) (fun _ => (0 : ℝ))
        (fun _ => (0 : ℝ)) = some r ∧
      r.fundamental_rms = 0 ∧ r.thd = none ∧ r.thd_percent = none := by
  obtain ⟨r, hr, -, -, hf, -, h1, h2⟩ :=
    main_cycle_zero 4097 (fun _ => 0) (fun _ => 0) (fun _ => 0) (by norm_num)
  exact ⟨r, hr, hf, h1, h2⟩

/-- C5, amended: on the all-constant input (every code equal to the offset 2048)
one analysis cycle returns, whatever the arrays held before: it detects bin 1,
reports total RMS 0, and has `fundamental_rms = 0` and `sum_harm_sq = 0`; the THD
division is performed with the divisor 0, so the THD ratio and the THD percent
are not finite values. -/
theorem zero_signal_cycle (fuel : Nat) (real_fft imag_fft magnitude : Nat → ℝ)
    (hfuel : 4096 < fuel) :
    ∃ r, main_cycle fuel (fun _ => 2048) real_fft imag_fft magnitude = some r ∧
      r.f0_idx = 1 ∧ r.total_rms = 0 ∧ r.fundamental_rms = 0 ∧ r.sum_harm_sq = 0 ∧
      r.thd = none ∧ r.thd_percent = none :=
  main_cycle_zero fuel real_fft imag_fft magnitude hfuel

theorem zero_signal_cycle_witness :
    ∃ r, main_cycle 5000 (fun _ => 2048) (fun i => (i : ℝ)) (fun _ => (1 : ℝ))
        (fun _ => (7 : ℝ)) = some r ∧
      r.f0_idx = 1 ∧ r.total_rms = 0 ∧ r.fundamental_rms = 0 ∧ r.sum_harm_sq = 0 ∧
      r.thd = none ∧ r.thd_percent = none :=
  zero_signal_cycle 5000 (fun i => (i : ℝ)) (fun _ => 1) (fun _ => 7) (by norm_num)

/-! ## Geometric sums of unit complex numbers -/

theorem expSum_mul (N : Nat) (γ : ℝ) :
    (Complex.exp ((γ : ℝ) * Complex.I) - 1) * expSum N γ =
      Complex.exp (((N : ℝ) * γ : ℝ) * Complex.I) - 1 := by
  have h := mul_geom_sum (Complex.exp ((γ : ℝ) * Complex.I)) N
  have e : ∀ i : Nat, Complex.exp ((γ : ℝ) * Complex.I) ^ i =
      Complex.exp ((γ * i : ℝ) * Complex.I) := by
    intro i
    rw [← Complex.exp_nat_mul]
    congr 1
    push_cast
    ring
  simp only [e] at h
  rw [expSum, h]
  congr 2
  push_cast
  ring

theorem norm_exp_sub_one (θ : ℝ) :
    ‖Complex.exp ((θ : ℝ) * Complex.I) - 1‖ = 2 * |Real.sin (θ / 2)| := by
  rw [Real.abs_sin_half, Complex.norm_eq_abs, Complex.abs_apply, Complex.normSq_apply]
  have hre : (Complex.exp ((θ : ℝ) * Complex.I) - 1).re = Real.cos θ - 1 := by
    rw [Complex.sub_re, Complex.exp_ofReal_mul_I_re, Complex.one_re]
  have him : (Complex.exp ((θ : ℝ) * Complex.I) - 1).im = Real.sin θ := by
    rw [Complex.sub_im, Complex.exp_ofReal_mul_I_im, Complex.one_im, sub_zero]
  rw [hre, him]
  have h2 : (2 : ℝ) = Real.sqrt 4 := by
    rw [show (4 : ℝ) = 2 ^ 2 by norm_num, Real.sqrt_sq (by norm_num)]
  have h3 : 2 * Real.sqrt ((1 - Real.cos θ) / 2) = Real.sqrt (4 * ((1 - Real.cos θ) / 2)) := by
    rw [Real.sqrt_mul (by norm_num), ← h2]
  rw [h3]
  congr 1
  have := Real.sin_sq_add_cos_sq θ
  nlinarith

theorem expSum_norm (N : Nat) (γ : ℝ) :
    ‖expSum N γ‖ * (2 * |Real.sin (γ / 2)|) = 2 * |Real.sin ((N : ℝ) * γ / 2)| := by
  rw [← norm_exp_sub_one, ← norm_exp_sub_one, mul_comm, ← norm_mul, expSum_mul]

theorem expSum_norm_le (N : Nat) (γ : ℝ) : ‖expSum N γ‖ ≤ N := by
  rw [expSum]
  calc ‖∑ i in Finset.range N, Complex.exp ((γ * i : ℝ) * Complex.I)‖
      ≤ ∑ i in Finset.range N, ‖Complex.exp ((γ * i : ℝ) * Complex.I)‖ := norm_sum_le _ _
    _ = ∑ _i in Finset.range N, (1 : ℝ) := by
        apply Finset.sum_congr rfl
        intro i _
        exact Complex.norm_exp_ofReal_mul_I _
    _ = N := by simp

theorem abs_sin_lower (M d : ℝ) (u q : ℤ) (hM : 0 < M) (hd : 0 ≤ d)
    (h1 : d ≤ (u : ℝ) - M * q) (h2 : (u : ℝ) - M * q ≤ M - d) :
    2 * d / M ≤ |Real.sin (Real.pi * u / M)| := by
  have hpi := Real.pi_pos
  have hx : Real.pi * u / M = Real.pi * ((u : ℝ) - M * q) / M + q * Real.pi := by
    field_simp
    ring
  have hsign : |((-1 : ℝ)) ^ q| = 1 := by
    rcases Int.even_or_odd q with h | h
    · rw [h.neg_one_zpow, abs_one]
    · rw [h.neg_one_zpow, abs_neg, abs_one]
  rw [hx, Real.sin_add_int_mul_pi, abs_mul, hsign, one_mul]
  set r : ℝ := (u : ℝ) - M * q with hr
  have hr0 : 0 ≤ r := le_trans hd h1
  have hrM : r ≤ M := by linarith
  have hnn : 0 ≤ Real.sin (Real.pi * r / M) := by
    apply Real.sin_nonneg_of_nonneg_of_le_pi
    · positivity
    · rw [div_le_iff₀ hM]
      nlinarith
  rw [abs_of_nonneg hnn]
  rcases le_total r (M / 2) with hhalf | hhalf
  · have hb := Real.mul_le_sin (x := Real.pi * r / M) (by positivity) (by
      rw [div_le_iff₀ hM]
      nlinarith)
    have he : 2 / Real.pi * (Real.pi * r / M) = 2 * r / M := by
      field_simp
      ring
    rw [he] at hb
    refine le_trans ?_ hb
    apply div_le_div_of_nonneg_right _ hM.le
    linarith
  · have hb := Real.mul_le_sin (x := Real.pi - Real.pi * r / M) (by
      rw [sub_nonneg, div_le_iff₀ hM]
      nlinarith) (by
      have : Real.pi / 2 ≤ Real.pi * r / M := by
        rw [le_div_iff₀ hM]
        nlinarith
      linarith)
    rw [Real.sin_pi_sub] at hb
    have he : 2 / Real.pi * (Real.pi - Real.pi * r / M) = 2 * (M - r) / M := by
      field_simp
      ring
    rw [he] at hb
    refine le_trans ?_ hb
    apply div_le_div_of_nonneg_right _ hM.le
    linarith

theorem expSum_re (N : Nat) (γ : ℝ) :
    (expSum N γ).re = ∑ i in Finset.range N, Real.cos (γ * i) := by
  rw [expSum, Complex.re_sum]
  apply Finset.sum_congr rfl
  intro i _
  rw [Complex.exp_ofReal_mul_I_re]

theorem expSum_eq_zero (N : Nat) (γ : ℝ) (h1 : Real.sin (γ / 2) ≠ 0)
    (h2 : Real.sin ((N : ℝ) * γ / 2) = 0) : expSum N γ = 0 := by
  have h := expSum_norm N γ
  rw [h2, abs_zero, mul_zero] at h
  rcases mul_eq_zero.mp h with h | h
  · exact norm_eq_zero.mp h
  · exfalso
    have : |Real.sin (γ / 2)| = 0 := by linarith
    exact h1 (abs_eq_zero.mp this)

theorem sum_cos_period (n : Nat) (hn : 2 ≤ n) :
    ∑ i in Finset.range n, Real.cos (2 * Real.pi / (n : ℝ) * i) = 0 := by
  have hn0 : (0 : ℝ) < n := by exact_mod_cast (by omega : 0 < n)
  have hn2 : (2 : ℝ) ≤ n := by exact_mod_cast hn
  have hpi := Real.pi_pos
  rw [← expSum_re, expSum_eq_zero n (2 * Real.pi / (n : ℝ))]
  · rfl
  · have e : 2 * Real.pi / (n : ℝ) / 2 = Real.pi / n := by
      field_simp
      ring
    rw [e]
    apply ne_of_gt
    apply Real.sin_pos_of_pos_of_lt_pi (by positivity)
    rw [div_lt_iff₀ hn0]
    nlinarith
  · have e : (n : ℝ) * (2 * Real.pi / (n : ℝ)) / 2 = Real.pi := by field_simp
    rw [e, Real.sin_pi]

/-! ## The Hann window and its transform -/

theorem hann_real (N i : Nat) :
    (hann N i : ℝ) = 0.5 * (1 - Real.cos (2 * Real.pi / ((N - 1 : Nat) : ℝ) * i)) := by
  rw [hann]
  congr 3
  show 2 * Real.pi * (i : ℝ) / ((N - 1 : Nat) : ℝ) = _
  ring

theorem hannDFT_decomp (j : ℤ) :
    hannDFT j = (1 / 2) * expSum 4096 (-(2 * Real.pi * j / 4096)) -
      (1 / 4) * (expSum 4096 (2 * Real.pi / 4095 - 2 * Real.pi * j / 4096) +
        expSum 4096 (-(2 * Real.pi / 4095) - 2 * Real.pi * j / 4096)) := by
  rw [hannDFT, expSum, expSum, expSum, Finset.mul_sum, ← Finset.sum_add_distrib, Finset.mul_sum,
    ← Finset.sum_sub_distrib]
  apply Finset.sum_congr rfl
  intro i _
  rw [hann_real]
  have hN : ((4096 - 1 : Nat) : ℝ) = 4095 := by norm_num
  rw [hN]
  have e1 : Complex.exp (((2 * Real.pi / 4095 - 2 * Real.pi * j / 4096) * i : ℝ) * Complex.I) =
      Complex.exp (((2 * Real.pi / 4095 * i : ℝ) : ℂ) * Complex.I) *
        Complex.exp (((-(2 * Real.pi * j / 4096) * i : ℝ)) * Complex.I) := by
    rw [← Complex.exp_add]
    congr 1
    push_cast
    ring
  have e2 : Complex.exp (((-(2 * Real.pi / 4095) - 2 * Real.pi * j / 4096) * i : ℝ) * Complex.I) =
      Complex.exp (-((2 * Real.pi / 4095 * i : ℝ) : ℂ) * Complex.I) *
        Complex.exp (((-(2 * Real.pi * j / 4096) * i : ℝ)) * Complex.I) := by
    rw [← Complex.exp_add]
    congr 1
    push_cast
    ring
  have e3 : ((0.5 * (1 - Real.cos (2 * Real.pi / 4095 * i)) : ℝ) : ℂ) =
      1 / 2 - (1 / 4) * (Complex.exp (((2 * Real.pi / 4095 * i : ℝ) : ℂ) * Complex.I) +
        Complex.exp (-((2 * Real.pi / 4095 * i : ℝ) : ℂ) * Complex.I)) := by
    rw [show (0.5 : ℝ) = 1 / 2 by norm_num, Complex.ofReal_mul, Complex.ofReal_sub,
      Complex.ofReal_cos, Complex.cos]
    push_cast
    ring
  rw [e1, e2, e3]
  ring

theorem hann_sum (N : Nat) (hN : 3 ≤ N) :
    ∑ i in Finset.range N, (hann N i : ℝ) = ((N : ℝ) - 1) / 2 := by
  obtain ⟨n, rfl⟩ : ∃ n, N = n + 1 := ⟨N - 1, by omega⟩
  have hn : 2 ≤ n := by omega
  have hn0 : (n : ℝ) ≠ 0 := by
    have : (0 : ℝ) < n := by exact_mod_cast (by omega : 0 < n)
    exact this.ne.symm
  have hcos : ∑ i in Finset.range (n + 1), Real.cos (2 * Real.pi / (n : ℝ) * i) = 1 := by
    rw [Finset.sum_range_succ, sum_cos_period n hn, zero_add]
    have e : 2 * Real.pi / (n : ℝ) * (n : ℝ) = 2 * Real.pi := by field_simp
    rw [e, Real.cos_two_pi]
  simp only [hann_real, Nat.add_sub_cancel]
  rw [← Finset.mul_sum, Finset.sum_sub_distrib, hcos]
  simp
  ring

theorem hann_two (i : Nat) : (hann 2 i : ℝ) = 0 := by
  rw [hann_real]
  have e : 2 * Real.pi / (((2 - 1 : Nat) : ℝ)) * (i : ℝ) = (i : ℝ) * (2 * Real.pi) := by
    norm_num
    ring
  rw [e, Real.cos_nat_mul_two_pi]
  norm_num

theorem expSum_hann_norm (s j : ℤ) (hs : s = 1 ∨ s = -1) :
    ‖expSum 4096 (s * (2 * Real.pi / 4095) - 2 * Real.pi * j / 4096)‖ *
        |Real.sin (Real.pi * ((s * 4096 - 4095 * j : ℤ) : ℝ) / 16773120)| =
      Real.sin (Real.pi / 4095) := by
  have h := expSum_norm 4096 (s * (2 * Real.pi / 4095) - 2 * Real.pi * j / 4096)
  have e1 : (s * (2 * Real.pi / 4095) - 2 * Real.pi * j / 4096) / 2 =
      Real.pi * ((s * 4096 - 4095 * j : ℤ) : ℝ) / 16773120 := by
    push_cast
    ring
  have e2 : ((4096 : ℕ) : ℝ) * (s * (2 * Real.pi / 4095) - 2 * Real.pi * j / 4096) / 2 =
      s * (Real.pi / 4095) + ((s - j : ℤ) : ℝ) * Real.pi := by
    push_cast
    ring
  have hsign : ∀ q : ℤ, |((-1 : ℝ)) ^ q| = 1 := by
    intro q
    rcases Int.even_or_odd q with h | h
    · rw [h.neg_one_zpow, abs_one]
    · rw [h.neg_one_zpow, abs_neg, abs_one]
  have hpos : 0 ≤ Real.sin (Real.pi / 4095) := by
    apply Real.sin_nonneg_of_nonneg_of_le_pi (by positivity)
    have := Real.pi_pos
    linarith [div_le_self this.le (show (1 : ℝ) ≤ 4095 by norm_num)]
  have e3 : |Real.sin ((s : ℝ) * (Real.pi / 4095))| = Real.sin (Real.pi / 4095) := by
    rcases hs with h1 | h1
    · rw [h1]
      push_cast
      rw [one_mul, abs_of_nonneg hpos]
    · rw [h1]
      push_cast
      rw [neg_one_mul, Real.sin_neg, abs_neg, abs_of_nonneg hpos]
  rw [e1, e2, Real.sin_add_int_mul_pi, abs_mul, hsign, one_mul, e3] at h
  linarith

theorem expSum_hann_small (s j q : ℤ) (hs : s = 1 ∨ s = -1)
    (h1 : 4094 ≤ s * 4096 - 4095 * j - 16773120 * q)
    (h2 : s * 4096 - 4095 * j - 16773120 * q ≤ 16773120 - 4094) :
    ‖expSum 4096 (s * (2 * Real.pi / 4095) - 2 * Real.pi * j / 4096)‖ ≤ 8 / 5 := by
  have h := expSum_hann_norm s j hs
  have hlow := abs_sin_lower 16773120 4094 (s * 4096 - 4095 * j) q (by norm_num) (by norm_num)
    (by
      have : ((4094 : ℤ) : ℝ) ≤ ((s * 4096 - 4095 * j - 16773120 * q : ℤ) : ℝ) :=
        Int.cast_le.mpr h1
      push_cast at this ⊢
      linarith)
    (by
      have : ((s * 4096 - 4095 * j - 16773120 * q : ℤ) : ℝ) ≤ ((16773120 - 4094 : ℤ) : ℝ) :=
        Int.cast_le.mpr h2
      push_cast at this ⊢
      linarith)
  have hup : Real.sin (Real.pi / 4095) ≤ Real.pi / 4095 :=
    (Real.sin_lt (by positivity)).le
  have hpi := Real.pi_lt_d2
  have hnorm : 0 ≤ ‖expSum 4096 (s * (2 * Real.pi / 4095) - 2 * Real.pi * j / 4096)‖ :=
    norm_nonneg _
  by_contra hcon
  push_neg at hcon
  have hprod : 8 / 5 * (2 * 4094 / 16773120) <
      ‖expSum 4096 (s * (2 * Real.pi / 4095) - 2 * Real.pi * j / 4096)‖ *
        |Real.sin (Real.pi * ((s * 4096 - 4095 * j : ℤ) : ℝ) / 16773120)| :=
    mul_lt_mul hcon hlow (by norm_num) hnorm
  rw [h] at hprod
  have : Real.pi / 4095 < 3.15 / 4095 := by
    apply div_lt_div_of_pos_right hpi (by norm_num)
  norm_num at hprod this
  linarith

theorem expSum_hann_large :
    2600 ≤ ‖expSum 4096 (((1 : ℤ) : ℝ) * (2 * Real.pi / 4095) - 2 * Real.pi * ((1 : ℤ) : ℝ) / 4096)‖ := by
  have h := expSum_hann_norm 1 1 (Or.inl rfl)
  have hpi := Real.pi_lt_d2
  have hpi0 := Real.pi_pos
  have e : ((1 * 4096 - 4095 * 1 : ℤ) : ℝ) = 1 := by norm_num
  rw [e, mul_one] at h
  have hs1 : |Real.sin (Real.pi / 16773120)| ≤ Real.pi / 16773120 := by
    rw [abs_of_nonneg (Real.sin_nonneg_of_nonneg_of_le_pi (by positivity) (by
      linarith [div_le_self hpi0.le (show (1 : ℝ) ≤ 16773120 by norm_num)]))]
    exact (Real.sin_lt (by positivity)).le
  have hs2 : 2 / 4095 ≤ Real.sin (Real.pi / 4095) := by
    have hb := Real.mul_le_sin (x := Real.pi / 4095) (by positivity) (by
      apply div_le_div_of_nonneg_left hpi0.le (by norm_num) (by norm_num))
    have he : 2 / Real.pi * (Real.pi / 4095) = 2 / 4095 := by
      field_simp
    rw [he] at hb
    exact hb
  by_contra hcon
  push_neg at hcon
  have hnorm : 0 ≤ ‖expSum 4096 (((1 : ℤ) : ℝ) * (2 * Real.pi / 4095) -
      2 * Real.pi * ((1 : ℤ) : ℝ) / 4096)‖ := norm_nonneg _
  have hprod : ‖expSum 4096 (((1 : ℤ) : ℝ) * (2 * Real.pi / 4095) -
      2 * Real.pi * ((1 : ℤ) : ℝ) / 4096)‖ * |Real.sin (Real.pi / 16773120)| ≤
      2600 * (Real.pi / 16773120) :=
    mul_le_mul hcon.le hs1 (abs_nonneg _) (by norm_num)
  rw [h] at hprod
  have : 2600 * (Real.pi / 16773120) < 2600 * (3.15 / 16773120) := by
    apply mul_lt_mul_of_pos_left _ (by norm_num)
    apply div_lt_div_of_pos_right hpi (by norm_num)
  norm_num at this hs2 hprod
  linarith

theorem expSum_pos_small (j q : ℤ)
    (h1 : 4094 ≤ 4096 - 4095 * j - 16773120 * q)
    (h2 : 4096 - 4095 * j - 16773120 * q ≤ 16773120 - 4094) :
    ‖expSum 4096 (2 * Real.pi / 4095 - 2 * Real.pi * j / 4096)‖ ≤ 8 / 5 := by
  have h := expSum_hann_small 1 j q (Or.inl rfl) (by omega) (by omega)
  simpa using h

theorem expSum_neg_small (j q : ℤ)
    (h1 : 4094 ≤ -4096 - 4095 * j - 16773120 * q)
    (h2 : -4096 - 4095 * j - 16773120 * q ≤ 16773120 - 4094) :
    ‖expSum 4096 (-(2 * Real.pi / 4095) - 2 * Real.pi * j / 4096)‖ ≤ 8 / 5 := by
  have h := expSum_hann_small (-1) j q (Or.inr rfl) (by omega) (by omega)
  simpa using h

theorem expSum_plain_zero (j q : ℤ) (h1 : 1 ≤ j - 4096 * q) (h2 : j - 4096 * q ≤ 4095) :
    expSum 4096 (-(2 * Real.pi * j / 4096)) = 0 := by
  apply expSum_eq_zero
  · have hlow := abs_sin_lower 4096 1 j q (by norm_num) (by norm_num)
      (by
        have : ((1 : ℤ) : ℝ) ≤ ((j - 4096 * q : ℤ) : ℝ) := Int.cast_le.mpr h1
        push_cast at this ⊢
        linarith)
      (by
        have : ((j - 4096 * q : ℤ) : ℝ) ≤ ((4095 : ℤ) : ℝ) := Int.cast_le.mpr h2
        push_cast at this ⊢
        linarith)
    have e : -(2 * Real.pi * (j : ℝ) / 4096) / 2 = -(Real.pi * j / 4096) := by ring
    rw [e, Real.sin_neg]
    intro h0
    rw [neg_eq_zero] at h0
    rw [h0, abs_zero] at hlow
    norm_num at hlow
  · have e : ((4096 : ℕ) : ℝ) * -(2 * Real.pi * (j : ℝ) / 4096) / 2 = -((j : ℝ) * Real.pi) := by
      push_cast
      ring
    rw [e, Real.sin_neg, Real.sin_int_mul_pi, neg_zero]

theorem hannDFT_small (j : ℤ) (hj : (2 ≤ j ∧ j ≤ 4094) ∨ (-4094 ≤ j ∧ j ≤ -2)) :
    ‖hannDFT j‖ ≤ 4 / 5 := by
  have h0 : expSum 4096 (-(2 * Real.pi * j / 4096)) = 0 := by
    rcases hj with h | h
    · exact expSum_plain_zero j 0 (by omega) (by omega)
    · exact expSum_plain_zero j (-1) (by omega) (by omega)
  have hp : ‖expSum 4096 (2 * Real.pi / 4095 - 2 * Real.pi * j / 4096)‖ ≤ 8 / 5 := by
    rcases hj with h | h
    · exact expSum_pos_small j (-1) (by omega) (by omega)
    · exact expSum_pos_small j 0 (by omega) (by omega)
  have hn : ‖expSum 4096 (-(2 * Real.pi / 4095) - 2 * Real.pi * j / 4096)‖ ≤ 8 / 5 := by
    rcases hj with h | h
    · exact expSum_neg_small j (-1) (by omega) (by omega)
    · exact expSum_neg_small j 0 (by omega) (by omega)
  rw [hannDFT_decomp, h0, mul_zero, zero_sub, norm_neg, norm_mul]
  have h4 : ‖(1 / 4 : ℂ)‖ = 1 / 4 := by
    rw [Complex.norm_eq_abs]
    simp
  rw [h4]
  have := norm_add_le (expSum 4096 (2 * Real.pi / 4095 - 2 * Real.pi * j / 4096))
    (expSum 4096 (-(2 * Real.pi / 4095) - 2 * Real.pi * j / 4096))
  linarith

theorem hannDFT_one (j : ℤ) (hj : j = 1 ∨ j = -1) : ‖hannDFT j‖ ≤ 5122 / 5 := by
  have h0 : expSum 4096 (-(2 * Real.pi * j / 4096)) = 0 := by
    rcases hj with h | h
    · exact expSum_plain_zero j 0 (by omega) (by omega)
    · exact expSum_plain_zero j (-1) (by omega) (by omega)
  have hsum : ‖expSum 4096 (2 * Real.pi / 4095 - 2 * Real.pi * j / 4096)‖ +
      ‖expSum 4096 (-(2 * Real.pi / 4095) - 2 * Real.pi * j / 4096)‖ ≤ 4096 + 8 / 5 := by
    rcases hj with h | h
    · have a := expSum_norm_le 4096 (2 * Real.pi / 4095 - 2 * Real.pi * j / 4096)
      have b := expSum_neg_small j (-1) (by omega) (by omega)
      push_cast at a
      linarith
    · have a := expSum_pos_small j 0 (by omega) (by omega)
      have b := expSum_norm_le 4096 (-(2 * Real.pi / 4095) - 2 * Real.pi * j / 4096)
      push_cast at b
      linarith
  rw [hannDFT_decomp, h0, mul_zero, zero_sub, norm_neg, norm_mul]
  have h4 : ‖(1 / 4 : ℂ)‖ = 1 / 4 := by
    rw [Complex.norm_eq_abs]
    simp
  rw [h4]
  have := norm_add_le (expSum 4096 (2 * Real.pi / 4095 - 2 * Real.pi * j / 4096))
    (expSum 4096 (-(2 * Real.pi / 4095) - 2 * Real.pi * j / 4096))
  linarith

theorem hannDFT_one_lower : 649 ≤ ‖hannDFT 1‖ := by
  have h0 : expSum 4096 (-(2 * Real.pi * ((1 : ℤ) : ℝ) / 4096)) = 0 :=
    expSum_plain_zero 1 0 (by omega) (by omega)
  have a : 2600 ≤ ‖expSum 4096 (2 * Real.pi / 4095 - 2 * Real.pi * ((1 : ℤ) : ℝ) / 4096)‖ := by
    simpa using expSum_hann_large
  have b := expSum_neg_small 1 (-1) (by omega) (by omega)
  rw [hannDFT_decomp, h0, mul_zero, zero_sub, norm_neg, norm_mul]
  have h4 : ‖(1 / 4 : ℂ)‖ = 1 / 4 := by
    rw [Complex.norm_eq_abs]
    simp
  rw [h4]
  have hrev := norm_sub_norm_le
    (expSum 4096 (2 * Real.pi / 4095 - 2 * Real.pi * ((1 : ℤ) : ℝ) / 4096))
    (-expSum 4096 (-(2 * Real.pi / 4095) - 2 * Real.pi * ((1 : ℤ) : ℝ) / 4096))
  rw [norm_neg, sub_neg_eq_add] at hrev
  linarith

theorem hannDFT_zero : hannDFT 0 = ((4095 / 2 : ℝ) : ℂ) := by
  have h := hann_sum 4096 (by norm_num)
  rw [hannDFT]
  have e : ∀ i ∈ Finset.range 4096, ((hann 4096 i : ℝ) : ℂ) *
      Complex.exp (((-(2 * Real.pi * ((0 : ℤ) : ℝ) / 4096) * i : ℝ)) * Complex.I) =
        ((hann 4096 i : ℝ) : ℂ) := by
    intro i _
    simp
  rw [Finset.sum_congr rfl e, ← Complex.ofReal_sum, h]
  norm_num


theorem sinusoid_term (A θ φ h : ℝ) :
    ((A * Real.sin θ * h : ℝ) : ℂ) * Complex.exp (((-φ : ℝ)) * Complex.I) =
      (A : ℂ) / (2 * Complex.I) *
        ((h : ℂ) * Complex.exp (((-(φ - θ) : ℝ)) * Complex.I) -
          (h : ℂ) * Complex.exp (((-(φ + θ) : ℝ)) * Complex.I)) := by
  have e1 : Complex.exp (((-(φ - θ) : ℝ)) * Complex.I) =
      Complex.exp ((θ : ℂ) * Complex.I) * Complex.exp (((-φ : ℝ)) * Complex.I) := by
    rw [← Complex.exp_add]
    congr 1
    push_cast
    ring
  have e2 : Complex.exp (((-(φ + θ) : ℝ)) * Complex.I) =
      Complex.exp (-(θ : ℂ) * Complex.I) * Complex.exp (((-φ : ℝ)) * Complex.I) := by
    rw [← Complex.exp_add]
    congr 1
    push_cast
    ring
  rw [e1, e2, Complex.ofReal_mul, Complex.ofReal_mul, Complex.ofReal_sin, Complex.sin]
  have hI : Complex.I ≠ 0 := Complex.I_ne_zero
  field_simp
  ring_nf
  rw [Complex.I_sq]
  ring

theorem sinusoid_dft (A : ℝ) (k m : Nat) :
    ∑ i in Finset.range 4096,
        ((A * Real.sin (2 * Real.pi * k * i / 4096) * (hann 4096 i : ℝ) : ℝ) : ℂ) *
          omega 4096 ^ (i * m) =
      (A : ℂ) / (2 * Complex.I) * (hannDFT ((m : ℤ) - k) - hannDFT ((m : ℤ) + k)) := by
  rw [hannDFT, hannDFT, ← Finset.sum_sub_distrib, Finset.mul_sum]
  apply Finset.sum_congr rfl
  intro i _
  have hw : omega 4096 ^ (i * m) =
      Complex.exp (((-(2 * Real.pi * m * i / 4096) : ℝ)) * Complex.I) := by
    rw [omega_pow_eq_exp]
    congr 1
    push_cast
    ring
  rw [hw, sinusoid_term]
  congr 3
  · congr 2
    push_cast
    ring
  · congr 2
    push_cast
    ring


/-! ## The cycle over centered samples -/

theorem fft_1024_spec (fuel : Nat) (re im : Nat → ℝ) (hfuel : 4096 < fuel) :
    ∃ out, fft_1024 fuel re im = some out ∧
      ∀ k, k < 4096 →
        toC out.1 out.2 k = ∑ m in Finset.range 4096, toC re im m * omega 4096 ^ (m * k) := by
  have h := fft_n_spec 12 fuel re im (by norm_num; exact hfuel)
  have e : (2 : Nat) ^ 12 = 4096 := by norm_num
  rw [e] at h
  exact h

theorem main_window_centered_spec (fuel : Nat) (centered real_fft imag_fft : Nat → ℝ)
    (hfuel : 4096 < fuel) :
    ∃ w, main_window_centered fuel centered real_fft imag_fft = some w ∧
      ∀ p, w.1 p = (if p < 4096 then centered p * hann 4096 p else real_fft p) ∧
        w.2 p = (if p < 4096 then 0 else imag_fft p) := by
  obtain ⟨s, hs, -, h1⟩ := whileLoop_inv
    (fun s : WindowState ℝ => decide (s.i < SAMPLES)) (main_window_centered_body centered)
    (fun t s => s.i = t ∧ ∀ p, s.real_fft p =
          (if p < t then centered p * hann 4096 p else real_fft p) ∧
        s.imag_fft p = (if p < t then 0 else imag_fft p)) 4096
    (by
      rintro t s ht ⟨hi, harr⟩
      refine ⟨by simp [hi, SAMPLES, ht], _, rfl, by simp [hi], ?_⟩
      intro p
      obtain ⟨e1, e2⟩ := harr p
      show Function.update s.real_fft s.i _ p = _ ∧ Function.update s.imag_fft s.i _ p = _
      rw [Function.update_apply, Function.update_apply, hi]
      by_cases hp : p = t
      · subst hp
        rw [if_pos rfl, if_pos rfl, if_pos (by omega), if_pos (by omega)]
        exact ⟨rfl, rfl⟩
      · rw [if_neg hp, if_neg hp, e1, e2]
        by_cases hlt : p < t
        · rw [if_pos hlt, if_pos hlt, if_pos (by omega), if_pos (by omega)]
          exact ⟨rfl, rfl⟩
        · rw [if_neg hlt, if_neg hlt, if_neg (by omega), if_neg (by omega)]
          exact ⟨rfl, rfl⟩)
    (by
      rintro s ⟨hi, -⟩
      simp [hi, SAMPLES])
    fuel 0 { real_fft := real_fft, imag_fft := imag_fft, i := 0 } (Nat.zero_le _) (by omega)
    ⟨rfl, by intro p; simp⟩
  exact ⟨(s.real_fft, s.imag_fft), by rw [main_window_centered, hs]; rfl, h1⟩

theorem main_window_eq_centered (fuel : Nat) (buffer : Nat → Nat) (real_fft imag_fft : Nat → ℝ) :
    main_window fuel buffer real_fft imag_fft =
      main_window_centered fuel (centered_of buffer) real_fft imag_fft := rfl

theorem main_cycle_eq_centered (fuel : Nat) (buffer : Nat → Nat)
    (real_fft imag_fft magnitude : Nat → ℝ) :
    main_cycle fuel buffer real_fft imag_fft magnitude =
      main_cycle_centered fuel (centered_of buffer) real_fft imag_fft magnitude := by
  rw [main_cycle, main_cycle_centered, main_spectrum_centered, main_window_eq_centered]
  cases main_window_centered fuel (centered_of buffer) real_fft imag_fft with
  | none => rfl
  | some w =>
    simp only [Option.some_bind]
    cases fft_1024 fuel w.1 w.2 with
    | none => rfl
    | some X => rfl

theorem main_spectrum_centered_spec (fuel : Nat) (centered real_fft imag_fft magnitude : Nat → ℝ)
    (hfuel : 4096 < fuel) :
    ∃ mag, main_spectrum_centered fuel centered real_fft imag_fft magnitude = some mag ∧
      (∀ m, m < 2048 → mag m =
        ‖∑ i in Finset.range 4096,
          ((centered i * (hann 4096 i : ℝ) : ℝ) : ℂ) * omega 4096 ^ (i * m)‖) ∧
      (∀ m, 2048 ≤ m → mag m = magnitude m) := by
  obtain ⟨w, hw, hwarr⟩ := main_window_centered_spec fuel centered real_fft imag_fft hfuel
  obtain ⟨X, hX, hXs⟩ := fft_1024_spec fuel w.1 w.2 hfuel
  obtain ⟨mag, hmag, hmarr⟩ := main_magnitude_spec fuel X.1 X.2 magnitude (by omega)
  refine ⟨mag, by simp only [main_spectrum_centered, hw, Option.some_bind, hX, hmag], ?_, ?_⟩
  · intro m hm
    rw [hmarr m, if_pos hm]
    have hsum : ∑ i in Finset.range 4096,
        ((centered i * (hann 4096 i : ℝ) : ℝ) : ℂ) * omega 4096 ^ (i * m) = toC X.1 X.2 m := by
      rw [hXs m (by omega)]
      apply Finset.sum_congr rfl
      intro i hi
      have hi' := Finset.mem_range.mp hi
      obtain ⟨e1, e2⟩ := hwarr i
      rw [if_pos hi'] at e1 e2
      rw [toC, e1, e2]
      rfl
    rw [hsum, Complex.norm_eq_abs, Complex.abs_apply, Complex.normSq_apply]
    rfl
  · intro m hm
    rw [hmarr m, if_neg (by omega)]

theorem main_cycle_centered_spec (fuel : Nat) (centered real_fft imag_fft magnitude : Nat → ℝ)
    (hfuel : 4096 < fuel) :
    ∃ mag r, main_spectrum_centered fuel centered real_fft imag_fft magnitude = some mag ∧
      main_analysis fuel mag = some r ∧
      main_cycle_centered fuel centered real_fft imag_fft magnitude = some r := by
  obtain ⟨mag, hmag, -⟩ :=
    main_spectrum_centered_spec fuel centered real_fft imag_fft magnitude hfuel
  obtain ⟨r, hr, -⟩ := main_analysis_values fuel mag (by omega)
  exact ⟨mag, r, hmag, hr, by rw [main_cycle_centered, hmag, Option.some_bind, hr]⟩




/-! ## The windowed sinusoid -/

theorem hannDFT_peak (k : Nat) (hk1 : 1 ≤ k) (hk2 : k < 2048) :
    4095 / 2 - 4 / 5 ≤ ‖hannDFT ((k : ℤ) - k) - hannDFT ((k : ℤ) + k)‖ ∧
      ‖hannDFT ((k : ℤ) - k) - hannDFT ((k : ℤ) + k)‖ ≤ 4095 / 2 + 4 / 5 := by
  have h0 : ‖hannDFT ((k : ℤ) - k)‖ = 4095 / 2 := by
    rw [sub_self, hannDFT_zero, Complex.norm_real, Real.norm_of_nonneg (by norm_num)]
  have h2 := hannDFT_small ((k : ℤ) + k) (Or.inl ⟨by omega, by omega⟩)
  have a := norm_sub_le (hannDFT ((k : ℤ) - k)) (hannDFT ((k : ℤ) + k))
  have b := norm_sub_norm_le (hannDFT ((k : ℤ) - k)) (hannDFT ((k : ℤ) + k))
  constructor <;> linarith

theorem hannDFT_other (k m : Nat) (hk1 : 1 ≤ k) (hk2 : k < 2048) (hm1 : 1 ≤ m) (hm2 : m < 2048)
    (hne : m ≠ k) :
    ‖hannDFT ((m : ℤ) - k) - hannDFT ((m : ℤ) + k)‖ ≤ 5126 / 5 := by
  have h2 := hannDFT_small ((m : ℤ) + k) (Or.inl ⟨by omega, by omega⟩)
  have h1 : ‖hannDFT ((m : ℤ) - k)‖ ≤ 5122 / 5 := by
    by_cases hadj : (m : ℤ) - k = 1 ∨ (m : ℤ) - k = -1
    · exact hannDFT_one _ hadj
    · have := hannDFT_small ((m : ℤ) - k) (by omega)
      linarith
  have a := norm_sub_le (hannDFT ((m : ℤ) - k)) (hannDFT ((m : ℤ) + k))
  linarith

theorem hannDFT_harmonic (k n : Nat) (hk : 2 ≤ k) (hn : 2 ≤ n) (hnk : n * k < 2048) :
    ‖hannDFT (((n * k : Nat) : ℤ) - k) - hannDFT (((n * k : Nat) : ℤ) + k)‖ ≤ 8 / 5 := by
  have hge : 2 * k ≤ n * k := Nat.mul_le_mul_right k hn
  have h1 := hannDFT_small (((n * k : Nat) : ℤ) - k) (Or.inl ⟨by omega, by omega⟩)
  have h2 := hannDFT_small (((n * k : Nat) : ℤ) + k) (Or.inl ⟨by omega, by omega⟩)
  have a := norm_sub_le (hannDFT (((n * k : Nat) : ℤ) - k)) (hannDFT (((n * k : Nat) : ℤ) + k))
  linarith

theorem hannDFT_adjacent : 3241 / 5 ≤ ‖hannDFT 1 - hannDFT 3‖ := by
  have h3 := hannDFT_small 3 (Or.inl ⟨by norm_num, by norm_num⟩)
  have hl := hannDFT_one_lower
  have b := norm_sub_norm_le (hannDFT 1) (hannDFT 3)
  linarith

theorem sinusoid_magnitude (fuel : Nat) (A : ℝ) (k : Nat)
    (centered real_fft imag_fft magnitude : Nat → ℝ) (hfuel : 4096 < fuel) (hA : 0 ≤ A)
    (hsig : ∀ i, i < 4096 → centered i = A * Real.sin (2 * Real.pi * k * i / 4096)) :
    ∃ mag, main_spectrum_centered fuel centered real_fft imag_fft magnitude = some mag ∧
      ∀ m, m < 2048 →
        mag m = A / 2 * ‖hannDFT ((m : ℤ) - k) - hannDFT ((m : ℤ) + k)‖ := by
  obtain ⟨mag, hmag, hval, -⟩ :=
    main_spectrum_centered_spec fuel centered real_fft imag_fft magnitude hfuel
  refine ⟨mag, hmag, ?_⟩
  intro m hm
  rw [hval m hm]
  have hsum : ∑ i in Finset.range 4096,
      ((centered i * (hann 4096 i : ℝ) : ℝ) : ℂ) * omega 4096 ^ (i * m) =
      ∑ i in Finset.range 4096,
        ((A * Real.sin (2 * Real.pi * k * i / 4096) * (hann 4096 i : ℝ) : ℝ) : ℂ) *
          omega 4096 ^ (i * m) := by
    apply Finset.sum_congr rfl
    intro i hi
    rw [hsig i (Finset.mem_range.mp hi)]
  rw [hsum, sinusoid_dft, norm_mul, norm_div, Complex.norm_real, Real.norm_of_nonneg hA,
    norm_mul, Complex.norm_I, mul_one]
  norm_num

/-! ## Zero divisor and the bound on THD -/

theorem vrms_bin_eq_mul (magnitude : Nat → ℝ) (i : Nat) :
    vrms_bin magnitude i = magnitude i * (1 / 2048 / 1.4142 / 0.6123) := by
  simp only [vrms_bin, NFFT, HANN_GAIN]
  norm_num
  ring

theorem vrms_bin_eq_zero_iff (magnitude : Nat → ℝ) (i : Nat) :
    vrms_bin magnitude i = 0 ↔ magnitude i = 0 := by
  rw [vrms_bin_eq_mul]
  constructor
  · intro h
    rcases mul_eq_zero.mp h with h | h
    · exact h
    · norm_num at h
  · intro h
    rw [h, zero_mul]

theorem vrms_bin_le (magnitude : Nat → ℝ) (i j : Nat) (h : magnitude i ≤ magnitude j) :
    vrms_bin magnitude i ≤ vrms_bin magnitude j := by
  rw [vrms_bin_eq_mul, vrms_bin_eq_mul]
  exact mul_le_mul_of_nonneg_right h (by norm_num)

theorem vrms_bin_nonneg (magnitude : Nat → ℝ) (i : Nat) (h : 0 ≤ magnitude i) :
    0 ≤ vrms_bin magnitude i := by
  rw [vrms_bin_eq_mul]
  exact mul_nonneg h (by norm_num)

theorem analysis_zero_iff (fuel : Nat) (magnitude : Nat → ℝ) (hfuel : 2048 < fuel)
    (hnn : ∀ i, 1 ≤ i → i < 2048 → 0 ≤ magnitude i) :
    ∃ r, main_analysis fuel magnitude = some r ∧
      (r.fundamental_rms = 0 ↔ ∀ i, 1 ≤ i → i < 2048 → magnitude i = 0) ∧
      (r.total_rms = 0 ↔ ∀ i, 1 ≤ i → i < 2048 → magnitude i = 0) ∧
      (r.thd = none ↔ ∀ i, 1 ≤ i → i < 2048 → magnitude i = 0) := by
  obtain ⟨r, hr, h1, h2, h4, -, hfund, -, htot, hthd, -⟩ :=
    main_analysis_values fuel magnitude hfuel
  have hA : r.fundamental_rms = 0 ↔ ∀ i, 1 ≤ i → i < 2048 → magnitude i = 0 := by
    rw [hfund, vrms_bin_eq_zero_iff]
    constructor
    · intro h0 i hi1 hi2
      have := h4 i hi1 hi2
      rw [h0] at this
      exact le_antisymm this (hnn i hi1 hi2)
    · intro hall
      exact hall _ h1 h2
  have hB : r.total_rms = 0 ↔ ∀ i, 1 ≤ i → i < 2048 → magnitude i = 0 := by
    rw [htot, Real.sqrt_eq_zero (Finset.sum_nonneg (fun i _ => sq_nonneg _)),
      Finset.sum_eq_zero_iff_of_nonneg (fun i _ => sq_nonneg _)]
    constructor
    · intro h i hi1 hi2
      have := h i (Finset.mem_Ico.mpr ⟨hi1, hi2⟩)
      rw [sq_eq_zero_iff, vrms_bin_eq_zero_iff] at this
      exact this
    · intro h i hi
      obtain ⟨hi1, hi2⟩ := Finset.mem_Ico.mp hi
      rw [sq_eq_zero_iff, vrms_bin_eq_zero_iff]
      exact h i hi1 hi2
  refine ⟨r, hr, hA, hB, ?_⟩
  rw [← hA, hthd, float_div]
  by_cases h0 : r.fundamental_rms = 0
  · simp [h0]
  · simp [h0]

theorem analysis_thd_le (fuel : Nat) (magnitude : Nat → ℝ) (hfuel : 2048 < fuel)
    (hnn : ∀ i, 1 ≤ i → i < 2048 → 0 ≤ magnitude i) :
    ∃ r, main_analysis fuel magnitude = some r ∧
      (r.fundamental_rms ≠ 0 →
        ∃ v, r.thd = some v ∧ v ≤ Real.sqrt 19 ∧
          r.thd_percent = some (v * 100) ∧ v * 100 ≤ 100 * Real.sqrt 19) := by
  obtain ⟨r, hr, h1, h2, h4, -, hfund, hsum, -, hthd, hpc⟩ :=
    main_analysis_values fuel magnitude hfuel
  refine ⟨r, hr, ?_⟩
  intro hne
  have hf0 : 0 ≤ r.fundamental_rms := by
    rw [hfund]; exact vrms_bin_nonneg _ _ (hnn _ h1 h2)
  have hfpos : 0 < r.fundamental_rms := lt_of_le_of_ne hf0 (Ne.symm hne)
  have hv : r.thd = some (Real.sqrt r.sum_harm_sq / r.fundamental_rms) := by
    rw [hthd, float_div, if_neg hne]
  have hcard : ((Finset.Icc 2 20).filter (fun n => n * r.f0_idx < 2048)).card ≤ 19 :=
    le_trans (Finset.card_filter_le _ _) (by simp)
  have hbound : r.sum_harm_sq ≤ 19 * r.fundamental_rms ^ 2 := by
    rw [hsum]
    have hterm : ∀ n ∈ (Finset.Icc 2 20).filter (fun n => n * r.f0_idx < 2048),
        vrms_bin magnitude (n * r.f0_idx) ^ 2 ≤ r.fundamental_rms ^ 2 := by
      intro n hn
      obtain ⟨hn1, hn2⟩ := Finset.mem_filter.mp hn
      have hn3 := (Finset.mem_Icc.mp hn1).1
      have hpos : 1 ≤ n * r.f0_idx := Nat.one_le_iff_ne_zero.mpr
        (Nat.mul_ne_zero (by omega) (by omega))
      rw [hfund]
      apply pow_le_pow_left₀ (vrms_bin_nonneg _ _ (hnn _ hpos hn2))
      exact vrms_bin_le _ _ _ (h4 _ hpos hn2)
    calc ∑ n in (Finset.Icc 2 20).filter (fun n => n * r.f0_idx < 2048),
          vrms_bin magnitude (n * r.f0_idx) ^ 2
        ≤ ∑ _n in (Finset.Icc 2 20).filter (fun n => n * r.f0_idx < 2048),
          r.fundamental_rms ^ 2 := Finset.sum_le_sum hterm
      _ = ((Finset.Icc 2 20).filter (fun n => n * r.f0_idx < 2048)).card *
          r.fundamental_rms ^ 2 := by rw [Finset.sum_const, nsmul_eq_mul]
      _ ≤ 19 * r.fundamental_rms ^ 2 := by
          apply mul_le_mul_of_nonneg_right _ (sq_nonneg _)
          exact_mod_cast hcard
  have hle : Real.sqrt r.sum_harm_sq / r.fundamental_rms ≤ Real.sqrt 19 := by
    rw [div_le_iff₀ hfpos]
    calc Real.sqrt r.sum_harm_sq ≤ Real.sqrt (19 * r.fundamental_rms ^ 2) :=
          Real.sqrt_le_sqrt hbound
      _ = Real.sqrt 19 * r.fundamental_rms := by
          rw [Real.sqrt_mul (by norm_num), Real.sqrt_sq hf0]
  refine ⟨_, hv, hle, by rw [hpc, hv]; rfl, ?_⟩
  linarith

/-! ## Linearity, symmetry, involution -/

theorem fft_1024_linear (fuel : Nat) (a b : ℂ) (xr xi yr yi : Nat → ℝ) (hfuel : 4096 < fuel) :
    ∃ X Y Z, fft_1024 fuel xr xi = some X ∧ fft_1024 fuel yr yi = some Y ∧
      fft_1024 fuel (fun m => (a * ⟨xr m, xi m⟩ + b * ⟨yr m, yi m⟩ : ℂ).re)
        (fun m => (a * ⟨xr m, xi m⟩ + b * ⟨yr m, yi m⟩ : ℂ).im) = some Z ∧
      ∀ k, k < 4096 →
        (⟨Z.1 k, Z.2 k⟩ : ℂ) = a * ⟨X.1 k, X.2 k⟩ + b * ⟨Y.1 k, Y.2 k⟩ := by
  obtain ⟨X, hX, hXs⟩ := fft_1024_spec fuel xr xi hfuel
  obtain ⟨Y, hY, hYs⟩ := fft_1024_spec fuel yr yi hfuel
  obtain ⟨Z, hZ, hZs⟩ := fft_1024_spec fuel
    (fun m => (a * ⟨xr m, xi m⟩ + b * ⟨yr m, yi m⟩ : ℂ).re)
    (fun m => (a * ⟨xr m, xi m⟩ + b * ⟨yr m, yi m⟩ : ℂ).im) hfuel
  refine ⟨X, Y, Z, hX, hY, hZ, ?_⟩
  intro k hk
  have hx := hXs k hk
  have hy := hYs k hk
  have hz := hZs k hk
  simp only [toC] at hx hy hz
  rw [hz, hx, hy, Finset.mul_sum, Finset.mul_sum, ← Finset.sum_add_distrib]
  apply Finset.sum_congr rfl
  intro m _
  rw [Complex.eta]
  ring

theorem fft_1024_hermitian (fuel : Nat) (real imag : Nat → ℝ) (hfuel : 4096 < fuel)
    (hreal : ∀ i, i < 4096 → imag i = 0) :
    ∃ X, fft_1024 fuel real imag = some X ∧
      ∀ k, 1 ≤ k → k < 4096 → X.1 (4096 - k) = X.1 k ∧ X.2 (4096 - k) = -X.2 k := by
  obtain ⟨X, hX, hXs⟩ := fft_1024_spec fuel real imag hfuel
  refine ⟨X, hX, ?_⟩
  intro k hk1 hk2
  have h1 := hXs k hk2
  have h2 := hXs (4096 - k) (by omega)
  have hconj : toC X.1 X.2 (4096 - k) = (starRingEnd ℂ) (toC X.1 X.2 k) := by
    rw [h1, h2, map_sum]
    apply Finset.sum_congr rfl
    intro m hm
    have hm' := Finset.mem_range.mp hm
    have hx : (starRingEnd ℂ) (toC real imag m) = toC real imag m := by
      apply Complex.ext <;> simp [toC, hreal m hm']
    have hw : omega 4096 ^ (m * (4096 - k)) = (omega 4096 ^ (m * k))⁻¹ := by
      apply eq_inv_of_mul_eq_one_left
      rw [← pow_add, ← Nat.mul_add, Nat.sub_add_cancel (by omega), Nat.mul_comm, pow_mul,
        omega_pow_self 4096 (by norm_num), one_pow]
    rw [map_mul, map_pow, omega_conj, hx, hw, inv_pow]
  have hre := congrArg Complex.re hconj
  have him := congrArg Complex.im hconj
  simp only [toC, Complex.conj_re, Complex.conj_im] at hre him
  exact ⟨hre, him⟩

theorem bit_reverse_counter (k fuel t : Nat) {K : Type} (real imag : Nat → K)
    (hfuel : 2 ^ k < fuel) (ht : t ≤ 2 ^ k) :
    ∃ s, whileLoop (fun s : BitRevState K => decide (s.i < t)) (bit_reverse_body fuel (2 ^ k))
        fuel { real := real, imag := imag, j := 0, i := 0 } = some s ∧
      s.i = t ∧ s.j = rev k (t % 2 ^ k) ∧ s.j < 2 ^ k := by
  have hk : k < fuel := lt_trans (Nat.lt_two_pow k) hfuel
  obtain ⟨s, hs, hi, hj⟩ := whileLoop_inv (fun s : BitRevState K => decide (s.i < t))
    (bit_reverse_body fuel (2 ^ k))
    (fun u s => s.i = u ∧ s.j = rev k (u % 2 ^ k)) t
    (by
      rintro u s hu ⟨hi, hj⟩
      have hu' : u < 2 ^ k := by omega
      refine ⟨by simp [hi, hu], ?_⟩
      rw [Nat.mod_eq_of_lt hu'] at hj
      obtain ⟨jm, hjm, hsum⟩ := bit_reverse_while_spec k u fuel hu' hk
      exact ⟨_, by rw [bit_reverse_body, hj, hjm]; rfl, by simp [hi], hsum⟩)
    (by
      rintro s ⟨hi, -⟩
      simp [hi])
    fuel 0 { real := real, imag := imag, j := 0, i := 0 } (Nat.zero_le _) (by omega)
    ⟨rfl, by
      show 0 = rev k (0 % 2 ^ k)
      rw [Nat.zero_mod, rev_zero]⟩
  exact ⟨s, hs, hi, hj, by rw [hj]; exact rev_lt k _⟩

theorem bit_reverse_twice {K : Type} (k fuel : Nat) (real imag : Nat → K)
    (hfuel : 2 ^ k < fuel) :
    ∃ out1 out2, bit_reverse fuel real imag (2 ^ k) = some out1 ∧
      bit_reverse fuel out1.1 out1.2 (2 ^ k) = some out2 ∧
      (∀ p, 2 ^ k ≤ p → out1.1 p = real p ∧ out1.2 p = imag p) ∧
      out2.1 = real ∧ out2.2 = imag := by
  obtain ⟨out1, h1, hp1⟩ := bit_reverse_spec k fuel real imag hfuel
  obtain ⟨out2, h2, hp2⟩ := bit_reverse_spec k fuel out1.1 out1.2 hfuel
  refine ⟨out1, out2, h1, h2, ?_, ?_, ?_⟩
  · intro p hp
    obtain ⟨e1, e2⟩ := hp1 p
    rw [if_neg (by omega)] at e1 e2
    exact ⟨e1, e2⟩
  · funext p
    rw [(hp2 p).1]
    by_cases hp : p < 2 ^ k
    · rw [if_pos hp, (hp1 (rev k p)).1, if_pos (rev_lt k p), rev_rev k p hp]
    · rw [if_neg hp, (hp1 p).1, if_neg hp]
  · funext p
    rw [(hp2 p).2]
    by_cases hp : p < 2 ^ k
    · rw [if_pos hp, (hp1 (rev k p)).2, if_pos (rev_lt k p), rev_rev k p hp]
    · rw [if_neg hp, (hp1 p).2, if_neg hp]


/-! ## The cycle on a single tone -/

theorem main_analysis_f0 (fuel : Nat) (magnitude : Nat → ℝ) (hfuel : 2048 < fuel) :
    ∃ r, main_analysis fuel magnitude = some r ∧ r.f0 = (r.f0_idx : ℝ) := by
  obtain ⟨pk, h, t, r, -, -, -, hr, hidx, hf0, -⟩ := main_analysis_spec fuel magnitude hfuel
  refine ⟨r, hr, ?_⟩
  rw [hf0, hidx]
  simp only [FS, NFFT]
  push_cast
  field_simp

theorem sinusoid_cycle (fuel : Nat) (A : ℝ) (k : Nat)
    (centered real_fft imag_fft magnitude : Nat → ℝ) (hfuel : 4096 < fuel) (hA : 0 < A)
    (hk1 : 1 ≤ k) (hk2 : k < 2048)
    (hsig : ∀ i, i < 4096 → centered i = A * Real.sin (2 * Real.pi * k * i / 4096)) :
    ∃ mag r, main_spectrum_centered fuel centered real_fft imag_fft magnitude = some mag ∧
      main_cycle_centered fuel centered real_fft imag_fft magnitude = some r ∧
      (∀ m, m < 2048 →
        mag m = A / 2 * ‖hannDFT ((m : ℤ) - k) - hannDFT ((m : ℤ) + k)‖) ∧
      r.f0_idx = k ∧ r.f0 = (k : ℝ) ∧
      r.fundamental_rms = vrms_bin mag k ∧
      r.sum_harm_sq = ∑ n in (Finset.Icc 2 20).filter (fun n => n * k < 2048),
        vrms_bin mag (n * k) ^ 2 ∧
      r.thd = float_div (Real.sqrt r.sum_harm_sq) r.fundamental_rms ∧
      r.thd_percent = r.thd.map fun v => v * 100 := by
  obtain ⟨mag, hmag, hval⟩ := sinusoid_magnitude fuel A k centered real_fft imag_fft magnitude
    hfuel hA.le hsig
  obtain ⟨r, hr, h1, h2, h4, -, hfund, hsum, -, hthd, hpc⟩ :=
    main_analysis_values fuel mag (by omega)
  obtain ⟨r', hr', hf0⟩ := main_analysis_f0 fuel mag (by omega)
  rw [hr] at hr'
  obtain rfl : r = r' := Option.some.inj hr'
  have hidx : r.f0_idx = k := by
    by_contra hne
    have hmax := h4 k hk1 hk2
    rw [hval k hk2, hval _ h2] at hmax
    have hp := (hannDFT_peak k hk1 hk2).1
    have ho := hannDFT_other k r.f0_idx hk1 hk2 h1 h2 hne
    have : A / 2 * ‖hannDFT ((r.f0_idx : ℤ) - k) - hannDFT ((r.f0_idx : ℤ) + k)‖ <
        A / 2 * ‖hannDFT ((k : ℤ) - k) - hannDFT ((k : ℤ) + k)‖ := by
      apply mul_lt_mul_of_pos_left _ (by linarith)
      have : (5126 : ℝ) / 5 < 4095 / 2 - 4 / 5 := by norm_num
      linarith
    linarith
  rw [hidx] at hfund hsum hf0
  exact ⟨mag, r, hmag, by rw [main_cycle_centered, hmag, Option.some_bind, hr], hval, hidx, hf0,
    hfund, hsum, hthd, hpc⟩




theorem sinusoid_thd_small (fuel : Nat) (A : ℝ) (k : Nat)
    (centered real_fft imag_fft magnitude : Nat → ℝ) (hfuel : 4096 < fuel) (hA : 0 < A)
    (hk1 : 2 ≤ k) (hk2 : k < 2048)
    (hsig : ∀ i, i < 4096 → centered i = A * Real.sin (2 * Real.pi * k * i / 4096)) :
    ∃ r v, main_cycle_centered fuel centered real_fft imag_fft magnitude = some r ∧
      r.thd = some v ∧ r.thd_percent = some (v * 100) ∧ v * 100 < 0.5 := by
  obtain ⟨mag, r, -, hr, hval, -, -, hfund, hsum, hthd, hpc⟩ :=
    sinusoid_cycle fuel A k centered real_fft imag_fft magnitude hfuel hA (by omega) hk2 hsig
  have hpeak := (hannDFT_peak k (by omega) hk2).1
  have hmk : A / 2 * (4095 / 2 - 4 / 5) ≤ mag k := by
    rw [hval k hk2]
    exact mul_le_mul_of_nonneg_left hpeak (by linarith)
  have hf : A / 2 * (4095 / 2 - 4 / 5) * (1 / 2048 / 1.4142 / 0.6123) ≤ r.fundamental_rms := by
    rw [hfund, vrms_bin_eq_mul]
    exact mul_le_mul_of_nonneg_right hmk (by norm_num)
  have hfpos : 0 < r.fundamental_rms := by
    refine lt_of_lt_of_le ?_ hf
    have : 0 < A / 2 * (4095 / 2 - 4 / 5) := mul_pos (by linarith) (by norm_num)
    exact mul_pos this (by norm_num)
  have hcard : ((Finset.Icc 2 20).filter (fun n => n * k < 2048)).card ≤ 19 :=
    le_trans (Finset.card_filter_le _ _) (by simp)
  have hterm : ∀ n ∈ (Finset.Icc 2 20).filter (fun n => n * k < 2048),
      vrms_bin mag (n * k) ^ 2 ≤ (A / 2 * (8 / 5) * (1 / 2048 / 1.4142 / 0.6123)) ^ 2 := by
    intro n hn
    obtain ⟨hn1, hn2⟩ := Finset.mem_filter.mp hn
    have hn3 := (Finset.mem_Icc.mp hn1).1
    have hh := hannDFT_harmonic k n hk1 hn3 hn2
    rw [vrms_bin_eq_mul, hval _ hn2]
    apply pow_le_pow_left₀
    · apply mul_nonneg _ (by norm_num)
      exact mul_nonneg (by linarith) (norm_nonneg _)
    · apply mul_le_mul_of_nonneg_right _ (by norm_num)
      exact mul_le_mul_of_nonneg_left hh (by linarith)
  have hS : r.sum_harm_sq ≤ 19 * (A / 2 * (8 / 5) * (1 / 2048 / 1.4142 / 0.6123)) ^ 2 := by
    rw [hsum]
    calc ∑ n in (Finset.Icc 2 20).filter (fun n => n * k < 2048), vrms_bin mag (n * k) ^ 2
        ≤ ∑ _n in (Finset.Icc 2 20).filter (fun n => n * k < 2048),
          (A / 2 * (8 / 5) * (1 / 2048 / 1.4142 / 0.6123)) ^ 2 := Finset.sum_le_sum hterm
      _ = ((Finset.Icc 2 20).filter (fun n => n * k < 2048)).card *
          (A / 2 * (8 / 5) * (1 / 2048 / 1.4142 / 0.6123)) ^ 2 := by
          rw [Finset.sum_const, nsmul_eq_mul]
      _ ≤ 19 * (A / 2 * (8 / 5) * (1 / 2048 / 1.4142 / 0.6123)) ^ 2 := by
          apply mul_le_mul_of_nonneg_right _ (sq_nonneg _)
          exact_mod_cast hcard
  have hv : r.thd = some (Real.sqrt r.sum_harm_sq / r.fundamental_rms) := by
    rw [hthd, float_div, if_neg hfpos.ne.symm]
  refine ⟨r, _, hr, hv, by rw [hpc, hv]; rfl, ?_⟩
  have hlt : Real.sqrt r.sum_harm_sq < 0.005 * r.fundamental_rms := by
    rw [Real.sqrt_lt' (by positivity)]
    set c : ℝ := 1 / 2048 / 1.4142 / 0.6123 with hc
    have hcpos : 0 < c := by rw [hc]; norm_num
    have hAc : 0 < A * c := mul_pos hA hcpos
    have h1 : r.sum_harm_sq ≤ 19 * (4 / 5) ^ 2 * (A * c) ^ 2 := by
      have : 19 * (A / 2 * (8 / 5) * c) ^ 2 = 19 * (4 / 5) ^ 2 * (A * c) ^ 2 := by ring
      linarith
    have h2 : 0.005 * (10233.5 / 10 * (A * c)) ≤ 0.005 * r.fundamental_rms := by
      have : A / 2 * (4095 / 2 - 4 / 5) * c = 10233.5 / 10 * (A * c) := by ring
      linarith
    have h3 : (0.005 * (10233.5 / 10 * (A * c))) ^ 2 ≤ (0.005 * r.fundamental_rms) ^ 2 :=
      pow_le_pow_left₀ (by positivity) h2 2
    have h4 : 19 * (4 / 5) ^ 2 * (A * c) ^ 2 < (0.005 * (10233.5 / 10 * (A * c))) ^ 2 := by
      have hpos : 0 < (A * c) ^ 2 := by positivity
      have : (0.005 * (10233.5 / 10 * (A * c))) ^ 2 =
          (0.005 * (10233.5 / 10)) ^ 2 * (A * c) ^ 2 := by ring
      rw [this]
      apply mul_lt_mul_of_pos_right _ hpos
      norm_num
    linarith
  have hdiv : Real.sqrt r.sum_harm_sq / r.fundamental_rms < 0.005 := by
    rw [div_lt_iff₀ hfpos]
    exact hlt
  linarith

theorem sinusoid_thd_bin_one (fuel : Nat) (A : ℝ)
    (centered real_fft imag_fft magnitude : Nat → ℝ) (hfuel : 4096 < fuel) (hA : 0 < A)
    (hsig : ∀ i, i < 4096 → centered i = A * Real.sin (2 * Real.pi * ((1 : Nat) : ℝ) * i / 4096)) :
    ∃ r v, main_cycle_centered fuel centered real_fft imag_fft magnitude = some r ∧
      r.f0_idx = 1 ∧ r.thd = some v ∧ r.thd_percent = some (v * 100) ∧ 30 ≤ v * 100 := by
  obtain ⟨mag, r, -, hr, hval, hidx, -, hfund, hsum, hthd, hpc⟩ :=
    sinusoid_cycle fuel A 1 centered real_fft imag_fft magnitude hfuel hA (by omega)
      (by omega) hsig
  set c : ℝ := 1 / 2048 / 1.4142 / 0.6123 with hc
  have hcpos : 0 < c := by rw [hc]; norm_num
  have hpk := hannDFT_peak 1 (by omega) (by omega)
  have hm1 : mag 1 = A / 2 * ‖hannDFT (((1 : Nat) : ℤ) - ((1 : Nat) : ℤ)) -
      hannDFT (((1 : Nat) : ℤ) + ((1 : Nat) : ℤ))‖ := hval 1 (by omega)
  have hm2 : mag 2 = A / 2 * ‖hannDFT 1 - hannDFT 3‖ := by
    rw [hval 2 (by omega)]
    norm_num
  have hadj := hannDFT_adjacent
  have hf_lo : A / 2 * (4095 / 2 - 4 / 5) * c ≤ r.fundamental_rms := by
    rw [hfund, vrms_bin_eq_mul, hm1]
    apply mul_le_mul_of_nonneg_right _ hcpos.le
    exact mul_le_mul_of_nonneg_left hpk.1 (by linarith)
  have hf_hi : r.fundamental_rms ≤ A / 2 * (4095 / 2 + 4 / 5) * c := by
    rw [hfund, vrms_bin_eq_mul, hm1]
    apply mul_le_mul_of_nonneg_right _ hcpos.le
    exact mul_le_mul_of_nonneg_left hpk.2 (by linarith)
  have hfpos : 0 < r.fundamental_rms := by
    refine lt_of_lt_of_le ?_ hf_lo
    have : 0 < A / 2 * (4095 / 2 - 4 / 5) := mul_pos (by linarith) (by norm_num)
    exact mul_pos this hcpos
  have hv2 : A / 2 * (3241 / 5) * c ≤ vrms_bin mag (2 * 1) := by
    rw [vrms_bin_eq_mul, hm2]
    apply mul_le_mul_of_nonneg_right _ hcpos.le
    exact mul_le_mul_of_nonneg_left hadj (by linarith)
  have hv2pos : 0 ≤ A / 2 * (3241 / 5) * c := by positivity
  have hS : (A / 2 * (3241 / 5) * c) ^ 2 ≤ r.sum_harm_sq := by
    rw [hsum]
    have hmem : 2 ∈ (Finset.Icc 2 20).filter (fun n => n * 1 < 2048) := by decide
    have hsingle := Finset.single_le_sum
      (f := fun n => vrms_bin mag (n * 1) ^ 2)
      (fun n _ => sq_nonneg (vrms_bin mag (n * 1))) hmem
    refine le_trans ?_ hsingle
    exact pow_le_pow_left₀ hv2pos hv2 2
  have hsq : A / 2 * (3241 / 5) * c ≤ Real.sqrt r.sum_harm_sq := by
    rw [← Real.sqrt_sq hv2pos]
    exact Real.sqrt_le_sqrt hS
  have hv : r.thd = some (Real.sqrt r.sum_harm_sq / r.fundamental_rms) := by
    rw [hthd, float_div, if_neg hfpos.ne.symm]
  refine ⟨r, _, hr, hidx, hv, by rw [hpc, hv]; rfl, ?_⟩
  have hdiv : 0.3 ≤ Real.sqrt r.sum_harm_sq / r.fundamental_rms := by
    rw [le_div_iff₀ hfpos]
    have hAc : 0 < A * c := mul_pos hA hcpos
    have e1 : A / 2 * (3241 / 5) * c = 3241 / 10 * (A * c) := by ring
    have e2 : A / 2 * (4095 / 2 + 4 / 5) * c = 20483 / 20 * (A * c) := by ring
    rw [e1] at hsq
    rw [e2] at hf_hi
    nlinarith
  linarith

/-! ## The tone buffer and the coherent gain -/

theorem tone_buffer_centered (i : Nat) :
    (centered_of tone_buffer i : ℝ) =
      1000 * Real.sin (2 * Real.pi * ((1024 : Nat) : ℝ) * i / 4096) := by
  obtain ⟨q, r, hr, rfl⟩ : ∃ q r, r < 4 ∧ i = 4 * q + r :=
    ⟨i / 4, i % 4, Nat.mod_lt _ (by norm_num), by omega⟩
  have harg : 2 * Real.pi * ((1024 : Nat) : ℝ) * ((4 * q + r : Nat) : ℝ) / 4096 =
      (r : ℝ) * (Real.pi / 2) + (q : ℝ) * (2 * Real.pi) := by
    push_cast
    ring
  rw [harg, Real.sin_add_nat_mul_two_pi]
  have hmod : (4 * q + r) % 4 = r := by omega
  simp only [centered_of, tone_buffer, hmod, ADC_OFFSET]
  interval_cases r
  · simp
  · simp
  · have : ((2 : Nat) : ℝ) * (Real.pi / 2) = Real.pi := by push_cast; ring
    rw [this, Real.sin_pi]
    simp
  · have : ((3 : Nat) : ℝ) * (Real.pi / 2) = Real.pi / 2 + Real.pi := by push_cast; ring
    rw [this, Real.sin_add_pi, Real.sin_pi_div_two]
    simp

theorem tone_buffer_peak (fuel : Nat) (real_fft imag_fft magnitude : Nat → ℝ)
    (hfuel : 4096 < fuel) :
    ∃ mag, main_spectrum_centered fuel (centered_of tone_buffer) real_fft imag_fft magnitude =
        some mag ∧
      1000 * (10233.5 / 10) ≤ mag 1024 ∧ mag 1024 ≤ 1000 * (10241.5 / 10) := by
  obtain ⟨mag, hmag, hval⟩ := sinusoid_magnitude fuel 1000 1024 (centered_of tone_buffer)
    real_fft imag_fft magnitude hfuel (by norm_num) (fun i _ => tone_buffer_centered i)
  have hp := hannDFT_peak 1024 (by norm_num) (by norm_num)
  refine ⟨mag, hmag, ?_, ?_⟩
  · rw [hval 1024 (by norm_num)]
    linarith [hp.1]
  · rw [hval 1024 (by norm_num)]
    linarith [hp.2]

theorem coherent_gain_eq (N : Nat) (hN : 3 ≤ N) :
    (coherent_gain N : ℝ) = ((N : ℝ) - 1) / (2 * N) := by
  have hN0 : (N : ℝ) ≠ 0 := by
    have : (0 : ℝ) < N := by exact_mod_cast (by omega : 0 < N)
    exact this.ne.symm
  rw [coherent_gain, hann_sum N hN]
  field_simp

theorem coherent_gain_two_eq : (coherent_gain 2 : ℝ) = 0 := by
  rw [coherent_gain, Finset.sum_eq_zero (fun i _ => hann_two i)]
  simp

/-! ## The alternating input -/

theorem alternating_dft (k : Nat) (hk : k < 4096) :
    ∑ m in Finset.range 4096, toC (fun i => (-1 : ℝ) ^ i) (fun _ => 0) m * omega 4096 ^ (m * k) =
      if k = 2048 then (4096 : ℂ) else 0 := by
  have hhalf : omega 4096 ^ 2048 = -1 := omega_half 2048 (by norm_num)
  have hterm : ∀ m ∈ Finset.range 4096,
      toC (fun i => (-1 : ℝ) ^ i) (fun _ => 0) m * omega 4096 ^ (m * k) =
        omega 4096 ^ (k * m) * (omega 4096)⁻¹ ^ (m * 2048) := by
    intro m _
    have e1 : toC (fun i => (-1 : ℝ) ^ i) (fun _ => 0) m = (-1 : ℂ) ^ m := by
      have : toC (fun i => (-1 : ℝ) ^ i) (fun _ => 0) m = (((-1 : ℝ) ^ m : ℝ) : ℂ) := rfl
      rw [this]
      push_cast
      rfl
    have e2 : (omega 4096)⁻¹ ^ (m * 2048) = (-1 : ℂ) ^ m := by
      rw [Nat.mul_comm, pow_mul, inv_pow, hhalf]
      norm_num
    rw [e1, e2, Nat.mul_comm m k, mul_comm]
  rw [Finset.sum_congr rfl hterm, omega_orthogonal 4096 k 2048 hk (by norm_num)]
  norm_num

theorem alternating_spectrum (fuel : Nat) (magnitude : Nat → ℝ) (hfuel : 4096 < fuel) :
    ∃ X mag, fft_1024 fuel (fun i => (-1 : ℝ) ^ i) (fun _ => 0) = some X ∧
      main_magnitude fuel X.1 X.2 magnitude = some mag ∧
      X.1 2048 = 4096 ∧ X.2 2048 = 0 ∧
      (∀ k, k < 2048 → X.1 k = 0 ∧ X.2 k = 0 ∧ mag k = 0) ∧
      (∀ k, 2048 ≤ k → mag k = magnitude k) := by
  obtain ⟨X, hX, hXs⟩ := fft_1024_spec fuel (fun i => (-1 : ℝ) ^ i) (fun _ => 0) hfuel
  obtain ⟨mag, hmag, hmarr⟩ := main_magnitude_spec fuel X.1 X.2 magnitude (by omega)
  have hval : ∀ k, k < 4096 → toC X.1 X.2 k = if k = 2048 then (4096 : ℂ) else 0 := by
    intro k hk
    rw [hXs k hk, alternating_dft k hk]
  have h2048 := hval 2048 (by norm_num)
  rw [if_pos rfl] at h2048
  have hre := congrArg Complex.re h2048
  have him := congrArg Complex.im h2048
  simp only [toC] at hre him
  refine ⟨X, mag, hX, hmag, by simpa using hre, by simpa using him, ?_, ?_⟩
  · intro k hk
    have hv := hval k (by omega)
    rw [if_neg (by omega)] at hv
    have hre := congrArg Complex.re hv
    have him := congrArg Complex.im hv
    simp only [toC, Complex.zero_re, Complex.zero_im] at hre him
    refine ⟨hre, him, ?_⟩
    rw [hmarr k, if_pos hk, hre, him]
    simp
  · intro k hk
    rw [hmarr k, if_neg (by omega)]


theorem zero_spectrum (fuel : Nat) (magnitude : Nat → ℝ) (hfuel : 4096 < fuel) :
    ∃ X mag, fft_1024 fuel (fun _ => (0 : ℝ)) (fun _ => 0) = some X ∧
      main_magnitude fuel X.1 X.2 magnitude = some mag ∧
      (∀ k, k < 4096 → X.1 k = 0 ∧ X.2 k = 0) ∧
      (∀ k, k < 2048 → mag k = 0) ∧ (∀ k, 2048 ≤ k → mag k = magnitude k) := by
  obtain ⟨X, hX, hXs⟩ := fft_1024_spec fuel (fun _ => (0 : ℝ)) (fun _ => 0) hfuel
  obtain ⟨mag, hmag, hmarr⟩ := main_magnitude_spec fuel X.1 X.2 magnitude (by omega)
  have hval : ∀ k, k < 4096 → X.1 k = 0 ∧ X.2 k = 0 := by
    intro k hk
    have hv := hXs k hk
    have hz : ∑ m in Finset.range 4096,
        toC (fun _ => (0 : ℝ)) (fun _ => 0) m * omega 4096 ^ (m * k) = 0 := by
      apply Finset.sum_eq_zero
      intro m _
      have : toC (fun _ => (0 : ℝ)) (fun _ => 0) m = 0 := rfl
      rw [this, zero_mul]
    rw [hz] at hv
    have hre := congrArg Complex.re hv
    have him := congrArg Complex.im hv
    simp only [toC, Complex.zero_re, Complex.zero_im] at hre him
    exact ⟨hre, him⟩
  refine ⟨X, mag, hX, hmag, hval, ?_, ?_⟩
  · intro k hk
    obtain ⟨e1, e2⟩ := hval k (by omega)
    rw [hmarr k, if_pos hk, e1, e2]
    simp
  · intro k hk
    rw [hmarr k, if_neg (by omega)]

/-! ## Samples within a distance of a sinusoid -/

theorem norm_sq_eq_mul_conj (z : ℂ) : ((‖z‖ : ℝ) : ℂ) ^ 2 = z * (starRingEnd ℂ) z := by
  rw [Complex.mul_conj, Complex.normSq_eq_abs, Complex.norm_eq_abs, Complex.ofReal_pow]

theorem dft_parseval (N : Nat) (y : Nat → ℂ) :
    ∑ m in Finset.range N, ‖∑ i in Finset.range N, y i * omega N ^ (i * m)‖ ^ 2 =
      N * ∑ i in Finset.range N, ‖y i‖ ^ 2 := by
  apply Complex.ofReal_injective
  push_cast
  simp only [norm_sq_eq_mul_conj]
  have hterm : ∀ m ∈ Finset.range N,
      (∑ i in Finset.range N, y i * omega N ^ (i * m)) *
        (starRingEnd ℂ) (∑ i in Finset.range N, y i * omega N ^ (i * m)) =
      ∑ i in Finset.range N, ∑ j in Finset.range N,
        y i * (starRingEnd ℂ) (y j) * (omega N ^ (i * m) * (omega N)⁻¹ ^ (m * j)) := by
    intro m _
    rw [map_sum, Finset.sum_mul_sum]
    apply Finset.sum_congr rfl
    intro i _
    apply Finset.sum_congr rfl
    intro j _
    rw [map_mul, map_pow, omega_conj, Nat.mul_comm j m]
    ring
  rw [Finset.sum_congr rfl hterm, Finset.sum_comm]
  have hinner : ∀ i ∈ Finset.range N,
      ∑ m in Finset.range N, ∑ j in Finset.range N,
        y i * (starRingEnd ℂ) (y j) * (omega N ^ (i * m) * (omega N)⁻¹ ^ (m * j)) =
      (N : ℂ) * (y i * (starRingEnd ℂ) (y i)) := by
    intro i hi
    rw [Finset.sum_comm]
    have hj : ∀ j ∈ Finset.range N,
        ∑ m in Finset.range N,
          y i * (starRingEnd ℂ) (y j) * (omega N ^ (i * m) * (omega N)⁻¹ ^ (m * j)) =
        if i = j then (N : ℂ) * (y i * (starRingEnd ℂ) (y i)) else 0 := by
      intro j hj
      rw [← Finset.mul_sum, omega_orthogonal N i j (Finset.mem_range.mp hi) (Finset.mem_range.mp hj)]
      by_cases hij : i = j
      · subst hij
        rw [if_pos rfl, if_pos rfl]
        ring
      · rw [if_neg hij, if_neg hij, mul_zero]
    rw [Finset.sum_congr rfl hj, Finset.sum_ite_eq (Finset.range N) i, if_pos hi]
  rw [Finset.sum_congr rfl hinner, ← Finset.mul_sum]

theorem omega_pow_norm (N n : Nat) : ‖omega N ^ n‖ = 1 := by
  have h : ‖omega N‖ = 1 := by
    have e : omega N = Complex.exp (((-2 * Real.pi / N : ℝ) : ℂ) * Complex.I) := by
      rw [omega]
      congr 1
      push_cast
      ring
    rw [e, Complex.norm_exp_ofReal_mul_I]
  rw [norm_pow, h, one_pow]

theorem hann_nonneg (N i : Nat) : 0 ≤ (hann N i : ℝ) := by
  rw [hann_real]
  have := Real.cos_le_one (2 * Real.pi / ((N - 1 : Nat) : ℝ) * i)
  norm_num
  linarith

theorem hann_le_one (N i : Nat) : (hann N i : ℝ) ≤ 1 := by
  rw [hann_real]
  have := Real.neg_one_le_cos (2 * Real.pi / ((N - 1 : Nat) : ℝ) * i)
  norm_num
  linarith

theorem windowed_dft_add (x e : Nat → ℝ) (m : Nat) :
    windowed_dft (fun i => x i + e i) m = windowed_dft x m + windowed_dft e m := by
  rw [windowed_dft, windowed_dft, windowed_dft, ← Finset.sum_add_distrib]
  apply Finset.sum_congr rfl
  intro i _
  push_cast
  ring

theorem windowed_dft_congr (x y : Nat → ℝ) (m : Nat) (h : ∀ i, i < 4096 → x i = y i) :
    windowed_dft x m = windowed_dft y m := by
  rw [windowed_dft, windowed_dft]
  apply Finset.sum_congr rfl
  intro i hi
  rw [h i (Finset.mem_range.mp hi)]

theorem windowed_dft_norm_le (e : Nat → ℝ) (δ : ℝ) (m : Nat)
    (h : ∀ i, i < 4096 → |e i| ≤ δ) : ‖windowed_dft e m‖ ≤ δ * (4095 / 2) := by
  rw [windowed_dft]
  refine le_trans (norm_sum_le _ _) ?_
  have hterm : ∀ i ∈ Finset.range 4096,
      ‖((e i * (hann 4096 i : ℝ) : ℝ) : ℂ) * omega 4096 ^ (i * m)‖ ≤ δ * (hann 4096 i : ℝ) := by
    intro i hi
    rw [norm_mul, omega_pow_norm, mul_one, Complex.norm_real, Real.norm_eq_abs, abs_mul,
      abs_of_nonneg (hann_nonneg 4096 i)]
    exact mul_le_mul_of_nonneg_right (h i (Finset.mem_range.mp hi)) (hann_nonneg 4096 i)
  refine le_trans (Finset.sum_le_sum hterm) ?_
  rw [← Finset.mul_sum, hann_sum 4096 (by norm_num)]
  norm_num

theorem windowed_dft_energy (e : Nat → ℝ) (δ : ℝ)
    (h : ∀ i, i < 4096 → |e i| ≤ δ) :
    ∑ m in Finset.range 4096, ‖windowed_dft e m‖ ^ 2 ≤ 4096 * (δ ^ 2 * (4095 / 2)) := by
  have hp := dft_parseval 4096 (fun i => ((e i * (hann 4096 i : ℝ) : ℝ) : ℂ))
  simp only [windowed_dft]
  rw [hp, show ((4096 : Nat) : ℝ) = 4096 by norm_num]
  apply mul_le_mul_of_nonneg_left _ (by norm_num)
  have hterm : ∀ i ∈ Finset.range 4096,
      ‖((e i * (hann 4096 i : ℝ) : ℝ) : ℂ)‖ ^ 2 ≤ δ ^ 2 * (hann 4096 i : ℝ) := by
    intro i hi
    have h0 := hann_nonneg 4096 i
    have h1 := hann_le_one 4096 i
    have he := h i (Finset.mem_range.mp hi)
    rw [Complex.norm_real, Real.norm_eq_abs, abs_mul, abs_of_nonneg h0, mul_pow]
    have hsq : |e i| ^ 2 ≤ δ ^ 2 := pow_le_pow_left₀ (abs_nonneg _) he 2
    have hh : (hann 4096 i : ℝ) ^ 2 ≤ (hann 4096 i : ℝ) := by nlinarith
    calc |e i| ^ 2 * (hann 4096 i : ℝ) ^ 2 ≤ δ ^ 2 * (hann 4096 i : ℝ) ^ 2 :=
          mul_le_mul_of_nonneg_right hsq (sq_nonneg _)
      _ ≤ δ ^ 2 * (hann 4096 i : ℝ) := mul_le_mul_of_nonneg_left hh (sq_nonneg _)
  refine le_trans (Finset.sum_le_sum hterm) ?_
  rw [← Finset.mul_sum, hann_sum 4096 (by norm_num)]
  norm_num

theorem noisy_magnitude (fuel : Nat) (A δ : ℝ) (k : Nat)
    (centered real_fft imag_fft magnitude : Nat → ℝ) (hfuel : 4096 < fuel) (hA : 0 ≤ A)
    (hsig : ∀ i, i < 4096 → |centered i - A * Real.sin (2 * Real.pi * k * i / 4096)| ≤ δ) :
    ∃ (mag : Nat → ℝ) (b : Nat → ℝ), main_spectrum_centered fuel centered real_fft imag_fft magnitude = some mag ∧
      (∀ m, m < 2048 →
        |mag m - A / 2 * ‖hannDFT ((m : ℤ) - k) - hannDFT ((m : ℤ) + k)‖| ≤ b m) ∧
      (∀ m, 0 ≤ b m) ∧ (∀ m, b m ≤ δ * (4095 / 2)) ∧
      ∑ m in Finset.range 4096, b m ^ 2 ≤ 4096 * (δ ^ 2 * (4095 / 2)) := by
  obtain ⟨mag, hmag, hval, -⟩ :=
    main_spectrum_centered_spec fuel centered real_fft imag_fft magnitude hfuel
  have hen := windowed_dft_energy
    (fun i => centered i - A * Real.sin (2 * Real.pi * k * i / 4096)) δ hsig
  have hle := fun m => windowed_dft_norm_le
    (fun i => centered i - A * Real.sin (2 * Real.pi * k * i / 4096)) δ m hsig
  refine ⟨mag, fun m => ‖windowed_dft
    (fun i => centered i - A * Real.sin (2 * Real.pi * k * i / 4096)) m‖, hmag, ?_,
    fun m => norm_nonneg _, hle, hen⟩
  intro m hm
  have h1 : mag m = ‖windowed_dft centered m‖ := hval m hm
  have h2 : windowed_dft centered m =
      windowed_dft (fun i => A * Real.sin (2 * Real.pi * k * i / 4096)) m +
        windowed_dft (fun i => centered i - A * Real.sin (2 * Real.pi * k * i / 4096)) m := by
    rw [← windowed_dft_add]
    apply windowed_dft_congr
    intro i _
    ring
  have h3 : ‖windowed_dft (fun i => A * Real.sin (2 * Real.pi * k * i / 4096)) m‖ =
      A / 2 * ‖hannDFT ((m : ℤ) - k) - hannDFT ((m : ℤ) + k)‖ := by
    rw [windowed_dft, sinusoid_dft, norm_mul, norm_div, Complex.norm_real,
      Real.norm_of_nonneg hA, norm_mul, Complex.norm_I, mul_one]
    norm_num
  rw [h1, h2, ← h3]
  have := abs_norm_sub_norm_le
    (windowed_dft (fun i => A * Real.sin (2 * Real.pi * k * i / 4096)) m +
      windowed_dft (fun i => centered i - A * Real.sin (2 * Real.pi * k * i / 4096)) m)
    (windowed_dft (fun i => A * Real.sin (2 * Real.pi * k * i / 4096)) m)
  rwa [add_sub_cancel_left] at this

theorem noisy_sinusoid_cycle (fuel : Nat) (A δ : ℝ) (k : Nat)
    (centered real_fft imag_fft magnitude : Nat → ℝ) (hfuel : 4096 < fuel) (hA : 0 < A)
    (hk1 : 1 ≤ k) (hk2 : k < 2048)
    (hsig : ∀ i, i < 4096 → |centered i - A * Real.sin (2 * Real.pi * k * i / 4096)| ≤ δ)
    (hbig : 4095 * δ < A * (2043 / 4)) :
    ∃ (mag : Nat → ℝ) (b : Nat → ℝ) (r : AnalysisResult ℝ), main_spectrum_centered fuel centered real_fft imag_fft magnitude = some mag ∧
      main_cycle_centered fuel centered real_fft imag_fft magnitude = some r ∧
      (∀ m, m < 2048 →
        |mag m - A / 2 * ‖hannDFT ((m : ℤ) - k) - hannDFT ((m : ℤ) + k)‖| ≤ b m) ∧
      (∀ m, 0 ≤ b m) ∧ (∀ m, b m ≤ δ * (4095 / 2)) ∧
      ∑ m in Finset.range 4096, b m ^ 2 ≤ 4096 * (δ ^ 2 * (4095 / 2)) ∧
      r.f0_idx = k ∧ r.f0 = (k : ℝ) ∧
      r.fundamental_rms = vrms_bin mag k ∧
      r.sum_harm_sq = ∑ n in (Finset.Icc 2 20).filter (fun n => n * k < 2048),
        vrms_bin mag (n * k) ^ 2 ∧
      r.thd = float_div (Real.sqrt r.sum_harm_sq) r.fundamental_rms ∧
      r.thd_percent = r.thd.map fun v => v * 100 := by
  obtain ⟨mag, b, hmag, hval, hb0, hb1, hb2⟩ := noisy_magnitude fuel A δ k centered real_fft
    imag_fft magnitude hfuel hA.le hsig
  obtain ⟨r, hr, h1, h2, h4, -, hfund, hsum, -, hthd, hpc⟩ :=
    main_analysis_values fuel mag (by omega)
  obtain ⟨r', hr', hf0⟩ := main_analysis_f0 fuel mag (by omega)
  rw [hr] at hr'
  obtain rfl : r = r' := Option.some.inj hr'
  have hidx : r.f0_idx = k := by
    by_contra hne
    have hmax := h4 k hk1 hk2
    have hp := (hannDFT_peak k hk1 hk2).1
    have ho := hannDFT_other k r.f0_idx hk1 hk2 h1 h2 hne
    have e1 := abs_le.mp (hval k hk2)
    have e2 := abs_le.mp (hval _ h2)
    have b1 := hb1 k
    have b2 := hb1 r.f0_idx
    have a1 : A / 2 * (4095 / 2 - 4 / 5) ≤
        A / 2 * ‖hannDFT ((k : ℤ) - k) - hannDFT ((k : ℤ) + k)‖ :=
      mul_le_mul_of_nonneg_left hp (by linarith)
    have a2 : A / 2 * ‖hannDFT ((r.f0_idx : ℤ) - k) - hannDFT ((r.f0_idx : ℤ) + k)‖ ≤
        A / 2 * (5126 / 5) := mul_le_mul_of_nonneg_left ho (by linarith)
    linarith [e1.1, e2.2]
  rw [hidx] at hfund hsum hf0
  exact ⟨mag, b, r, hmag, by rw [main_cycle_centered, hmag, Option.some_bind, hr], hval, hb0, hb1,
    hb2, hidx, hf0, hfund, hsum, hthd, hpc⟩

theorem harmonic_noise_sum (b : Nat → ℝ) (k : Nat) (hk : 1 ≤ k) :
    ∑ n in (Finset.Icc 2 20).filter (fun n => n * k < 2048), b (n * k) ^ 2 ≤
      ∑ m in Finset.range 4096, b m ^ 2 := by
  have hinj : ∀ x ∈ (Finset.Icc 2 20).filter (fun n => n * k < 2048),
      ∀ y ∈ (Finset.Icc 2 20).filter (fun n => n * k < 2048), x * k = y * k → x = y := by
    intro x _ y _ hxy
    exact Nat.eq_of_mul_eq_mul_right (by omega) hxy
  rw [← Finset.sum_image (f := fun m => b m ^ 2) hinj]
  apply Finset.sum_le_sum_of_subset_of_nonneg
  · intro m hm
    obtain ⟨n, hn, rfl⟩ := Finset.mem_image.mp hm
    have := (Finset.mem_filter.mp hn).2
    exact Finset.mem_range.mpr (by omega)
  · intro m _ _
    exact sq_nonneg _

theorem sq_add_le_weighted (M a b : ℝ) (h1 : M ≤ a + b) (h2 : -(a + b) ≤ M) :
    M ^ 2 ≤ 7 / 5 * a ^ 2 + 7 / 2 * b ^ 2 := by
  have hsq : M ^ 2 ≤ (a + b) ^ 2 := sq_le_sq' h2 h1
  nlinarith [sq_nonneg (2 * a - 5 * b)]

theorem noisy_harmonic_sum (A E : ℝ) (k : Nat) (mag b : Nat → ℝ) (hA : 0 ≤ A) (hk1 : 2 ≤ k)
    (hval : ∀ m, m < 2048 →
      |mag m - A / 2 * ‖hannDFT ((m : ℤ) - k) - hannDFT ((m : ℤ) + k)‖| ≤ b m)
    (hb2 : ∑ m in Finset.range 4096, b m ^ 2 ≤ E) :
    ∑ n in (Finset.Icc 2 20).filter (fun n => n * k < 2048), mag (n * k) ^ 2 ≤
      19 * (7 / 5 * (A / 2 * (8 / 5)) ^ 2) + 7 / 2 * E := by
  have hterm : ∀ n ∈ (Finset.Icc 2 20).filter (fun n => n * k < 2048),
      mag (n * k) ^ 2 ≤ 7 / 5 * (A / 2 * (8 / 5)) ^ 2 + 7 / 2 * b (n * k) ^ 2 := by
    intro n hn
    obtain ⟨hn1, hn2⟩ := Finset.mem_filter.mp hn
    have hn3 := (Finset.mem_Icc.mp hn1).1
    have hh := hannDFT_harmonic k n hk1 hn3 hn2
    have e := abs_le.mp (hval _ hn2)
    have ha0 : 0 ≤ A / 2 * ‖hannDFT (((n * k : Nat) : ℤ) - k) -
        hannDFT (((n * k : Nat) : ℤ) + k)‖ := mul_nonneg (by linarith) (norm_nonneg _)
    have ha1 : A / 2 * ‖hannDFT (((n * k : Nat) : ℤ) - k) -
        hannDFT (((n * k : Nat) : ℤ) + k)‖ ≤ A / 2 * (8 / 5) :=
      mul_le_mul_of_nonneg_left hh (by linarith)
    have hw := sq_add_le_weighted (mag (n * k))
      (A / 2 * ‖hannDFT (((n * k : Nat) : ℤ) - k) - hannDFT (((n * k : Nat) : ℤ) + k)‖)
      (b (n * k)) (by linarith [e.2]) (by linarith [e.1])
    have ha2 := pow_le_pow_left₀ ha0 ha1 2
    linarith
  have hcard : ((Finset.Icc 2 20).filter (fun n => n * k < 2048)).card ≤ 19 :=
    le_trans (Finset.card_filter_le _ _) (by simp)
  refine le_trans (Finset.sum_le_sum hterm) ?_
  rw [Finset.sum_add_distrib, Finset.sum_const, nsmul_eq_mul, ← Finset.mul_sum]
  have h1 : (((Finset.Icc 2 20).filter (fun n => n * k < 2048)).card : ℝ) *
      (7 / 5 * (A / 2 * (8 / 5)) ^ 2) ≤ 19 * (7 / 5 * (A / 2 * (8 / 5)) ^ 2) := by
    apply mul_le_mul_of_nonneg_right _ (by positivity)
    exact_mod_cast hcard
  have h2 := harmonic_noise_sum b k (by omega)
  linarith

theorem thd_noise_arith (A : ℝ) (hA : 900 ≤ A) :
    19 * (7 / 5 * (A / 2 * (8 / 5)) ^ 2) + 7 / 2 * (4096 * ((1 / 2) ^ 2 * (4095 / 2))) <
      (0.005 * (A / 2 * (4095 / 2 - 4 / 5) - 1 / 2 * (4095 / 2))) ^ 2 := by
  have e1 : 19 * (7 / 5 * (A / 2 * (8 / 5)) ^ 2) +
      7 / 2 * (4096 * ((1 / 2) ^ 2 * (4095 / 2))) = 2128 / 125 * A ^ 2 + 7338240 := by
    ring
  have e2 : (0.005 * (A / 2 * (4095 / 2 - 4 / 5) - 1 / 2 * (4095 / 2))) ^ 2 =
      (20467 / 4000 * A - 819 / 160) ^ 2 := by
    norm_num
    ring
  rw [e1, e2]
  have ht : 0 ≤ A - 900 := by linarith
  nlinarith [mul_nonneg ht ht]

theorem thd_ratio_lt (S f c P Q : ℝ) (hc : 0 < c) (hQ : 0 < Q) (hS : S ≤ c ^ 2 * P)
    (hf : Q * c ≤ f) (hPQ : P < (0.005 * Q) ^ 2) : Real.sqrt S / f * 100 < 0.5 := by
  have hfpos : 0 < f := lt_of_lt_of_le (mul_pos hQ hc) hf
  have hlt : Real.sqrt S < 0.005 * f := by
    rw [Real.sqrt_lt' (by positivity)]
    have h2 : 0.005 * (Q * c) ≤ 0.005 * f := by linarith
    have h3 : (0.005 * (Q * c)) ^ 2 ≤ (0.005 * f) ^ 2 := pow_le_pow_left₀ (by positivity) h2 2
    have h4 : c ^ 2 * P < (0.005 * (Q * c)) ^ 2 := by
      have e : (0.005 * (Q * c)) ^ 2 = c ^ 2 * (0.005 * Q) ^ 2 := by ring
      rw [e]
      exact mul_lt_mul_of_pos_left hPQ (by positivity)
    linarith
  have hdiv : Real.sqrt S / f < 0.005 := by
    rw [div_lt_iff₀ hfpos]
    exact hlt
  linarith

theorem noisy_thd_small (fuel : Nat) (A : ℝ) (k : Nat)
    (centered real_fft imag_fft magnitude : Nat → ℝ) (hfuel : 4096 < fuel) (hA : 900 ≤ A)
    (hk1 : 2 ≤ k) (hk2 : k < 2048)
    (hsig : ∀ i, i < 4096 →
      |centered i - A * Real.sin (2 * Real.pi * k * i / 4096)| ≤ 1 / 2) :
    ∃ r v, main_cycle_centered fuel centered real_fft imag_fft magnitude = some r ∧
      r.f0_idx = k ∧ r.thd = some v ∧ r.thd_percent = some (v * 100) ∧ v * 100 < 0.5 := by
  have hApos : 0 < A := by linarith
  obtain ⟨mag, b, r, -, hr, hval, hb0, hb1, hb2, hidx, -, hfund, hsum, hthd, hpc⟩ :=
    noisy_sinusoid_cycle fuel A (1 / 2) k centered real_fft imag_fft magnitude hfuel hApos
      (by omega) hk2 hsig (by linarith)
  have hcpos : (0 : ℝ) < 1 / 2048 / 1.4142 / 0.6123 := by norm_num
  have hpeak := (hannDFT_peak k (by omega) hk2).1
  have hmk : A / 2 * (4095 / 2 - 4 / 5) - 1 / 2 * (4095 / 2) ≤ mag k := by
    have e := (abs_le.mp (hval k hk2)).1
    have a1 : A / 2 * (4095 / 2 - 4 / 5) ≤
        A / 2 * ‖hannDFT ((k : ℤ) - k) - hannDFT ((k : ℤ) + k)‖ :=
      mul_le_mul_of_nonneg_left hpeak (by linarith)
    linarith [hb1 k]
  have hf : (A / 2 * (4095 / 2 - 4 / 5) - 1 / 2 * (4095 / 2)) * (1 / 2048 / 1.4142 / 0.6123) ≤
      r.fundamental_rms := by
    rw [hfund, vrms_bin_eq_mul]
    exact mul_le_mul_of_nonneg_right hmk hcpos.le
  have hlow : 0 < A / 2 * (4095 / 2 - 4 / 5) - 1 / 2 * (4095 / 2) := by linarith
  have hfpos : 0 < r.fundamental_rms := lt_of_lt_of_le (mul_pos hlow hcpos) hf
  have hS : r.sum_harm_sq ≤ (1 / 2048 / 1.4142 / 0.6123) ^ 2 *
      (19 * (7 / 5 * (A / 2 * (8 / 5)) ^ 2) + 7 / 2 * (4096 * ((1 / 2) ^ 2 * (4095 / 2)))) := by
    rw [hsum]
    have hs := noisy_harmonic_sum A _ k mag b hApos.le hk1 hval hb2
    have e : ∑ n in (Finset.Icc 2 20).filter (fun n => n * k < 2048), vrms_bin mag (n * k) ^ 2 =
        (1 / 2048 / 1.4142 / 0.6123) ^ 2 *
          ∑ n in (Finset.Icc 2 20).filter (fun n => n * k < 2048), mag (n * k) ^ 2 := by
      rw [Finset.mul_sum]
      apply Finset.sum_congr rfl
      intro n _
      rw [vrms_bin_eq_mul]
      ring
    rw [e]
    exact mul_le_mul_of_nonneg_left hs (sq_nonneg _)
  have hv : r.thd = some (Real.sqrt r.sum_harm_sq / r.fundamental_rms) := by
    rw [hthd, float_div, if_neg hfpos.ne.symm]
  exact ⟨r, _, hr, hidx, hv, by rw [hpc, hv]; rfl,
    thd_ratio_lt _ _ _ _ _ hcpos hlow hS hf (thd_noise_arith A hA)⟩

theorem thd_ratio_ge (S f c P Q : ℝ) (hc : 0 < c) (hP : 0 ≤ P) (hf0 : 0 < f)
    (hS : (P * c) ^ 2 ≤ S) (hf : f ≤ Q * c) (hPQ : 0.3 * Q ≤ P) :
    30 ≤ Real.sqrt S / f * 100 := by
  have hsq : P * c ≤ Real.sqrt S := by
    rw [← Real.sqrt_sq (mul_nonneg hP hc.le)]
    exact Real.sqrt_le_sqrt hS
  have hdiv : 0.3 ≤ Real.sqrt S / f := by
    rw [le_div_iff₀ hf0]
    have h1 : 0.3 * f ≤ 0.3 * (Q * c) := by linarith
    have h2 : 0.3 * (Q * c) ≤ P * c := by
      have := mul_le_mul_of_nonneg_right hPQ hc.le
      linarith
    linarith
  linarith

theorem noisy_thd_bin_one (fuel : Nat) (A : ℝ)
    (centered real_fft imag_fft magnitude : Nat → ℝ) (hfuel : 4096 < fuel) (hA : 100 ≤ A)
    (hsig : ∀ i, i < 4096 →
      |centered i - A * Real.sin (2 * Real.pi * ((1 : Nat) : ℝ) * i / 4096)| ≤ 1 / 2) :
    ∃ r v, main_cycle_centered fuel centered real_fft imag_fft magnitude = some r ∧
      r.f0_idx = 1 ∧ r.thd = some v ∧ r.thd_percent = some (v * 100) ∧ 30 ≤ v * 100 := by
  have hApos : 0 < A := by linarith
  obtain ⟨mag, b, r, -, hr, hval, -, hb1, -, hidx, -, hfund, hsum, hthd, hpc⟩ :=
    noisy_sinusoid_cycle fuel A (1 / 2) 1 centered real_fft imag_fft magnitude hfuel hApos
      (by omega) (by omega) hsig (by linarith)
  have hcpos : (0 : ℝ) < 1 / 2048 / 1.4142 / 0.6123 := by norm_num
  have hpk := hannDFT_peak 1 (by omega) (by omega)
  have hadj := hannDFT_adjacent
  have hm1 := abs_le.mp (hval 1 (by omega))
  have hm2 : |mag 2 - A / 2 * ‖hannDFT 1 - hannDFT 3‖| ≤ b 2 := by
    have := hval 2 (by omega)
    norm_num at this
    exact this
  have hm2' := abs_le.mp hm2
  have a1 : A / 2 * (4095 / 2 - 4 / 5) ≤
      A / 2 * ‖hannDFT (((1 : Nat) : ℤ) - ((1 : Nat) : ℤ)) -
        hannDFT (((1 : Nat) : ℤ) + ((1 : Nat) : ℤ))‖ :=
    mul_le_mul_of_nonneg_left hpk.1 (by linarith)
  have a2 : A / 2 * ‖hannDFT (((1 : Nat) : ℤ) - ((1 : Nat) : ℤ)) -
        hannDFT (((1 : Nat) : ℤ) + ((1 : Nat) : ℤ))‖ ≤ A / 2 * (4095 / 2 + 4 / 5) :=
    mul_le_mul_of_nonneg_left hpk.2 (by linarith)
  have a3 : A / 2 * (3241 / 5) ≤ A / 2 * ‖hannDFT 1 - hannDFT 3‖ :=
    mul_le_mul_of_nonneg_left hadj (by linarith)
  have hmag1_lo : A / 2 * (4095 / 2 - 4 / 5) - 1 / 2 * (4095 / 2) ≤ mag 1 := by
    linarith [hm1.1, hb1 1]
  have hmag1_hi : mag 1 ≤ A / 2 * (4095 / 2 + 4 / 5) + 1 / 2 * (4095 / 2) := by
    linarith [hm1.2, hb1 1]
  have hmag2_lo : A / 2 * (3241 / 5) - 1 / 2 * (4095 / 2) ≤ mag 2 := by
    linarith [hm2'.1, hb1 2]
  have hf_hi : r.fundamental_rms ≤
      (A / 2 * (4095 / 2 + 4 / 5) + 1 / 2 * (4095 / 2)) * (1 / 2048 / 1.4142 / 0.6123) := by
    rw [hfund, vrms_bin_eq_mul]
    exact mul_le_mul_of_nonneg_right hmag1_hi hcpos.le
  have hfpos : 0 < r.fundamental_rms := by
    rw [hfund, vrms_bin_eq_mul]
    exact mul_pos (by linarith) hcpos
  have hP : 0 ≤ A / 2 * (3241 / 5) - 1 / 2 * (4095 / 2) := by linarith
  have hS : ((A / 2 * (3241 / 5) - 1 / 2 * (4095 / 2)) * (1 / 2048 / 1.4142 / 0.6123)) ^ 2 ≤
      r.sum_harm_sq := by
    rw [hsum]
    have hmem : 2 ∈ (Finset.Icc 2 20).filter (fun n => n * 1 < 2048) := by decide
    have hsingle := Finset.single_le_sum
      (f := fun n => vrms_bin mag (n * 1) ^ 2)
      (fun n _ => sq_nonneg (vrms_bin mag (n * 1))) hmem
    refine le_trans ?_ hsingle
    show _ ≤ vrms_bin mag (2 * 1) ^ 2
    rw [vrms_bin_eq_mul]
    exact pow_le_pow_left₀ (mul_nonneg hP hcpos.le)
      (mul_le_mul_of_nonneg_right hmag2_lo hcpos.le) 2
  have hv : r.thd = some (Real.sqrt r.sum_harm_sq / r.fundamental_rms) := by
    rw [hthd, float_div, if_neg hfpos.ne.symm]
  exact ⟨r, _, hr, hidx, hv, by rw [hpc, hv]; rfl,
    thd_ratio_ge _ _ _ _ _ hcpos hP hfpos hS hf_hi (by linarith)⟩

theorem sine_buffer_round (A : ℝ) (k i : Nat) (hA0 : 0 ≤ A) (hA : A ≤ 2047) :
    ((sine_buffer A k i : Nat) : ℤ) =
      round ((2048 : ℝ) + A * Real.sin (2 * Real.pi * k * i / 4096)) ∧
    sine_buffer A k i < 4096 := by
  have hs1 := Real.sin_le_one (2 * Real.pi * k * i / 4096)
  have hs2 := Real.neg_one_le_sin (2 * Real.pi * k * i / 4096)
  have hx0 : 1 ≤ (2048 : ℝ) + A * Real.sin (2 * Real.pi * k * i / 4096) := by nlinarith
  have hx1 : (2048 : ℝ) + A * Real.sin (2 * Real.pi * k * i / 4096) ≤ 4095 := by nlinarith
  have hr0 : 0 ≤ round ((2048 : ℝ) + A * Real.sin (2 * Real.pi * k * i / 4096)) := by
    rw [round_eq]
    exact Int.floor_nonneg.mpr (by linarith)
  have hr1 : round ((2048 : ℝ) + A * Real.sin (2 * Real.pi * k * i / 4096)) < 4096 := by
    rw [round_eq, Int.floor_lt]
    push_cast
    linarith
  have hdef : sine_buffer A k i =
      (round ((2048 : ℝ) + A * Real.sin (2 * Real.pi * k * i / 4096))).toNat := by
    rw [sine_buffer, ADC_OFFSET]
    norm_num
  rw [hdef, Int.toNat_of_nonneg hr0]
  refine ⟨rfl, ?_⟩
  omega

theorem sine_buffer_near (A : ℝ) (k i : Nat) (hA0 : 0 ≤ A) (hA : A ≤ 2047) :
    |(centered_of (sine_buffer A k) i : ℝ) - A * Real.sin (2 * Real.pi * k * i / 4096)| ≤
      1 / 2 := by
  obtain ⟨hr, -⟩ := sine_buffer_round A k i hA0 hA
  have hc : (centered_of (sine_buffer A k) i : ℝ) =
      (round ((2048 : ℝ) + A * Real.sin (2 * Real.pi * k * i / 4096)) : ℝ) - 2048 := by
    rw [centered_of, hr, ADC_OFFSET]
    push_cast
    ring
  rw [hc]
  have h := abs_sub_round ((2048 : ℝ) + A * Real.sin (2 * Real.pi * k * i / 4096))
  rw [abs_sub_comm] at h
  have e : (round ((2048 : ℝ) + A * Real.sin (2 * Real.pi * k * i / 4096)) : ℝ) - 2048 -
      A * Real.sin (2 * Real.pi * k * i / 4096) =
      (round ((2048 : ℝ) + A * Real.sin (2 * Real.pi * k * i / 4096)) : ℝ) -
        ((2048 : ℝ) + A * Real.sin (2 * Real.pi * k * i / 4096)) := by ring
  rw [e]
  exact h

/-! ## The THD computation in binary32 -/

theorem flat_spectrum_thd_f32 : main_thd_f32 2049 (fun _ => 1) =
    some { f0_idx := 1, f0 := 1, fundamental_rms := 9687570 / 2 ^ 34,
           sum_harm_sq := 13285365 / 2 ^ 41, thd := 9141274 / 2 ^ 21,
           thd_percent := 14283241 / 2 ^ 15 } := by
  decide!

/-! ## Claims on the transform : linearity, symmetry, involution -/

/-- C11: over exact real arithmetic `fft_1024` is linear: for all scalars `a`, `b`
(complex, so in particular real) and all complex buffers `x`, `y` of length 4096,
the transform of `a·x + b·y` is `a·X + b·Y` at every index, `X` and `Y` being the
transforms of `x` and `y`. -/
theorem fft_linearity (fuel : Nat) (a b : ℂ) (xr xi yr yi : Nat → ℝ) (hfuel : 4096 < fuel) :
    ∃ X Y Z, fft_1024 fuel xr xi = some X ∧ fft_1024 fuel yr yi = some Y ∧
      fft_1024 fuel (fun m => (a * ⟨xr m, xi m⟩ + b * ⟨yr m, yi m⟩ : ℂ).re)
        (fun m => (a * ⟨xr m, xi m⟩ + b * ⟨yr m, yi m⟩ : ℂ).im) = some Z ∧
      ∀ k, k < 4096 →
        (⟨Z.1 k, Z.2 k⟩ : ℂ) = a * ⟨X.1 k, X.2 k⟩ + b * ⟨Y.1 k, Y.2 k⟩ :=
  fft_1024_linear fuel a b xr xi yr yi hfuel

theorem fft_linearity_witness :
    ∃ X Y Z, fft_1024 4097 (fun i => (i : ℝ)) (fun _ => (1 : ℝ)) = some X ∧
      fft_1024 4097 (fun _ => (2 : ℝ)) (fun i => (i : ℝ)) = some Y ∧
      fft_1024 4097
        (fun m => ((3 : ℂ) * ⟨(m : ℝ), 1⟩ + Complex.I * ⟨2, (m : ℝ)⟩ : ℂ).re)
        (fun m => ((3 : ℂ) * ⟨(m : ℝ), 1⟩ + Complex.I * ⟨2, (m : ℝ)⟩ : ℂ).im) = some Z ∧
      ∀ k, k < 4096 →
        (⟨Z.1 k, Z.2 k⟩ : ℂ) = 3 * ⟨X.1 k, X.2 k⟩ + Complex.I * ⟨Y.1 k, Y.2 k⟩ :=
  fft_linearity 4097 3 Complex.I (fun i => (i : ℝ)) (fun _ => 1) (fun _ => 2)
    (fun i => (i : ℝ)) (by norm_num)

/-- C15, the claim as stated fails at bin `N/2 = 2048`: for the real input
`x[i] = (-1)^i` the transform has `real[2048] = 4096`, `imag[2048] = 0`, while the
magnitude loop stops before bin 2048 and `magnitude[2048]` keeps its content 0, so
`sqrt(real[N-k]² + imag[N-k]²) = 4096` differs from `magnitude[k]` at `k = 2048`;
the all-zero input gives the same array `magnitude` and another value at bin 2048,
so that bin is not determined by what the magnitude loop computes. -/
theorem real_input_nyquist_bin :
    ∃ X mag X0 mag0,
      fft_1024 4097 (fun i => (-1 : ℝ) ^ i) (fun _ => 0) = some X ∧
      main_magnitude 4097 X.1 X.2 (fun _ => 0) = some mag ∧
      fft_1024 4097 (fun _ => (0 : ℝ)) (fun _ => 0) = some X0 ∧
      main_magnitude 4097 X0.1 X0.2 (fun _ => 0) = some mag0 ∧
      X.1 2048 = 4096 ∧ X.2 2048 = 0 ∧ mag 2048 = 0 ∧
      Real.sqrt (X.1 (4096 - 2048) * X.1 (4096 - 2048) +
        X.2 (4096 - 2048) * X.2 (4096 - 2048)) = 4096 ∧
      Real.sqrt (X.1 (4096 - 2048) * X.1 (4096 - 2048) +
        X.2 (4096 - 2048) * X.2 (4096 - 2048)) ≠ mag 2048 ∧
      mag0 = mag ∧ X0.1 2048 = 0 ∧ X0.1 2048 ≠ X.1 2048 := by
  obtain ⟨X, mag, hX, hmag, h1, h2, hlow, hhigh⟩ :=
    alternating_spectrum 4097 (fun _ => 0) (by norm_num)
  obtain ⟨X0, mag0, hX0, hmag0, hz, hlow0, hhigh0⟩ :=
    zero_spectrum 4097 (fun _ => 0) (by norm_num)
  have hm : mag 2048 = 0 := hhigh 2048 le_rfl
  have hs : Real.sqrt (X.1 (4096 - 2048) * X.1 (4096 - 2048) +
      X.2 (4096 - 2048) * X.2 (4096 - 2048)) = 4096 := by
    have e : 4096 - 2048 = 2048 := by norm_num
    rw [e, h1, h2]
    have : (4096 : ℝ) * 4096 + 0 * 0 = 4096 ^ 2 := by norm_num
    rw [this, Real.sqrt_sq (by norm_num)]
  refine ⟨X, mag, X0, mag0, hX, hmag, hX0, hmag0, h1, h2, hm, hs, ?_, ?_, (hz 2048 (by norm_num)).1,
    ?_⟩
  · rw [hs, hm]
    norm_num
  · funext k
    by_cases hk : k < 2048
    · rw [hlow0 k hk, (hlow k hk).2.2]
    · rw [hhigh0 k (by omega), hhigh k (by omega)]
  · rw [(hz 2048 (by norm_num)).1, h1]
    norm_num

/-- C15, amended: over exact real arithmetic, for a real input (`imag[i] = 0`) of
length 4096 the output of `fft_1024` is Hermitian-symmetric, `real[N-k] = real[k]`
and `imag[N-k] = -imag[k]` for `1 ≤ k < N`; hence for `1 ≤ k < N/2` the value
`sqrt(real[N-k]² + imag[N-k]²)` is the `magnitude[k]` that the magnitude loop stores,
so every bin `j` with `N/2 < j < N` is the mirror of the computed bin `N - j` and
carries no additional information; the magnitude loop leaves `magnitude[k]`
unchanged for `k ≥ N/2`, and bin `N/2` itself, whose imaginary part is 0, is
neither computed nor the mirror of a computed bin. -/
theorem real_input_hermitian (fuel : Nat) (real imag magnitude : Nat → ℝ) (hfuel : 4096 < fuel)
    (hreal : ∀ i, i < 4096 → imag i = 0) :
    ∃ X mag, fft_1024 fuel real imag = some X ∧
      main_magnitude fuel X.1 X.2 magnitude = some mag ∧
      (∀ k, 1 ≤ k → k < 4096 → X.1 (4096 - k) = X.1 k ∧ X.2 (4096 - k) = -X.2 k) ∧
      (∀ k, 1 ≤ k → k < NFFT / 2 →
        Real.sqrt (X.1 (4096 - k) * X.1 (4096 - k) + X.2 (4096 - k) * X.2 (4096 - k)) =
          mag k) ∧
      (∀ j, NFFT / 2 < j → j < 4096 →
        1 ≤ 4096 - j ∧ 4096 - j < NFFT / 2 ∧
        X.1 j = X.1 (4096 - j) ∧ X.2 j = -X.2 (4096 - j) ∧
        Real.sqrt (X.1 j * X.1 j + X.2 j * X.2 j) = mag (4096 - j)) ∧
      (∀ k, NFFT / 2 ≤ k → mag k = magnitude k) ∧
      X.2 (NFFT / 2) = 0 := by
  obtain ⟨X, hX, hsym⟩ := fft_1024_hermitian fuel real imag hfuel hreal
  obtain ⟨mag, hmag, hmarr⟩ := main_magnitude_spec fuel X.1 X.2 magnitude (by omega)
  refine ⟨X, mag, hX, hmag, hsym, ?_, ?_, ?_, ?_⟩
  · intro k hk1 hk2
    have hk3 : k < 2048 := hk2
    obtain ⟨e1, e2⟩ := hsym k hk1 (by omega)
    rw [hmarr k, if_pos hk3, e1, e2]
    congr 1
    ring
  · intro j hj1 hj2
    have hj3 : 2048 < j := hj1
    have hlt : 4096 - j < 2048 := by omega
    obtain ⟨e1, e2⟩ := hsym (4096 - j) (by omega) (by omega)
    have e : 4096 - (4096 - j) = j := by omega
    rw [e] at e1 e2
    refine ⟨by omega, hlt, e1, e2, ?_⟩
    rw [hmarr (4096 - j), if_pos hlt, e1, e2]
    congr 1
    ring
  · intro k hk
    have hk3 : 2048 ≤ k := hk
    rw [hmarr k, if_neg (by omega)]
  · obtain ⟨-, e2⟩ := hsym 2048 (by norm_num) (by norm_num)
    have e : 4096 - 2048 = 2048 := by norm_num
    rw [e] at e2
    show X.2 2048 = 0
    linarith

theorem real_input_hermitian_witness :
    ∃ X mag, fft_1024 4097 (fun i => (i : ℝ)) (fun _ => (0 : ℝ)) = some X ∧
      main_magnitude 4097 X.1 X.2 (fun _ => (0 : ℝ)) = some mag ∧
      (∀ k, 1 ≤ k → k < 4096 → X.1 (4096 - k) = X.1 k ∧ X.2 (4096 - k) = -X.2 k) ∧
      (∀ k, 1 ≤ k → k < NFFT / 2 →
        Real.sqrt (X.1 (4096 - k) * X.1 (4096 - k) + X.2 (4096 - k) * X.2 (4096 - k)) =
          mag k) ∧
      (∀ j, NFFT / 2 < j → j < 4096 →
        1 ≤ 4096 - j ∧ 4096 - j < NFFT / 2 ∧
        X.1 j = X.1 (4096 - j) ∧ X.2 j = -X.2 (4096 - j) ∧
        Real.sqrt (X.1 j * X.1 j + X.2 j * X.2 j) = mag (4096 - j)) ∧
      (∀ k, NFFT / 2 ≤ k → mag k = (0 : ℝ)) ∧
      X.2 (NFFT / 2) = 0 :=
  real_input_hermitian 4097 (fun i => (i : ℝ)) (fun _ => 0) (fun _ => 0) (by norm_num)
    (fun _ _ => rfl)

/-- C20: for every `n = 2^k` (`k ≥ 0`) `bit_reverse` is an involution that touches
only indices below `n`: at the start of every pass `t < n` the counters satisfy
`i = t` and `j < n` (the swap reads and writes positions `i` and `j` only), the
positions from `n` on are unchanged, and a second call restores both arrays. -/
theorem bit_reverse_involution {K : Type} (k fuel : Nat) (real imag : Nat → K)
    (hfuel : 2 ^ k < fuel) :
    (∀ t, t < 2 ^ k →
      ∃ s, whileLoop (fun s : BitRevState K => decide (s.i < t)) (bit_reverse_body fuel (2 ^ k))
          fuel { real := real, imag := imag, j := 0, i := 0 } = some s ∧
        s.i = t ∧ s.j < 2 ^ k) ∧
    ∃ out1 out2, bit_reverse fuel real imag (2 ^ k) = some out1 ∧
      bit_reverse fuel out1.1 out1.2 (2 ^ k) = some out2 ∧
      (∀ p, 2 ^ k ≤ p → out1.1 p = real p ∧ out1.2 p = imag p) ∧
      out2.1 = real ∧ out2.2 = imag := by
  refine ⟨?_, bit_reverse_twice k fuel real imag hfuel⟩
  intro t ht
  obtain ⟨s, hs, hi, -, hj⟩ := bit_reverse_counter k fuel t real imag hfuel ht.le
  exact ⟨s, hs, hi, hj⟩

theorem bit_reverse_involution_witness :
    (∀ t, t < 2 ^ 3 →
      ∃ s, whileLoop (fun s : BitRevState ℤ => decide (s.i < t)) (bit_reverse_body 9 (2 ^ 3))
          9 { real := fun i => (i : ℤ), imag := fun _ => (0 : ℤ), j := 0, i := 0 } = some s ∧
        s.i = t ∧ s.j < 2 ^ 3) ∧
    ∃ out1 out2, bit_reverse 9 (fun i => (i : ℤ)) (fun _ => (0 : ℤ)) (2 ^ 3) = some out1 ∧
      bit_reverse 9 out1.1 out1.2 (2 ^ 3) = some out2 ∧
      (∀ p, 2 ^ 3 ≤ p → out1.1 p = (p : ℤ) ∧ out1.2 p = (0 : ℤ)) ∧
      out2.1 = (fun i : Nat => (i : ℤ)) ∧ out2.2 = (fun _ : Nat => (0 : ℤ)) :=
  bit_reverse_involution 3 9 (fun i => (i : ℤ)) (fun _ => 0) (by decide)

/-! ## Claims on the analysis : zero divisor, bound on THD -/

/-- C18: for every magnitude spectrum with non-negative values in bins
`1 .. N/2 - 1`, the fundamental RMS (the THD divisor) is zero exactly when every
one of those bins is zero, which is exactly when the total RMS is zero; the THD
division has a zero divisor, and gives no finite value, in that case and no
other. -/
theorem thd_divisor_zero_iff (fuel : Nat) (magnitude : Nat → ℝ) (hfuel : 2048 < fuel)
    (hnn : ∀ i, 1 ≤ i → i < NFFT / 2 → 0 ≤ magnitude i) :
    ∃ r, main_analysis fuel magnitude = some r ∧
      (r.fundamental_rms = 0 ↔ ∀ i, 1 ≤ i → i < NFFT / 2 → magnitude i = 0) ∧
      ((∀ i, 1 ≤ i → i < NFFT / 2 → magnitude i = 0) ↔ r.total_rms = 0) ∧
      (r.thd = none ↔ ∀ i, 1 ≤ i → i < NFFT / 2 → magnitude i = 0) := by
  obtain ⟨r, hr, h1, h2, h3⟩ := analysis_zero_iff fuel magnitude hfuel hnn
  exact ⟨r, hr, h1, h2.symm, h3⟩

theorem thd_divisor_zero_iff_witness :
    ∃ r, main_analysis 2049 (fun i => (i : ℝ)) = some r ∧
      (r.fundamental_rms = 0 ↔ ∀ i : Nat, 1 ≤ i → i < NFFT / 2 → (i : ℝ) = 0) ∧
      ((∀ i : Nat, 1 ≤ i → i < NFFT / 2 → (i : ℝ) = 0) ↔ r.total_rms = 0) ∧
      (r.thd = none ↔ ∀ i : Nat, 1 ≤ i → i < NFFT / 2 → (i : ℝ) = 0) :=
  thd_divisor_zero_iff 2049 (fun i => (i : ℝ)) (by norm_num) (fun i _ _ => Nat.cast_nonneg i)

/-- C19, the claim as stated fails in the float arithmetic of the program: on the
magnitude spectrum whose bins all hold `1.0f` the THD computation in binary32
detects bin 1, a non-zero fundamental RMS `9687570 · 2^-34`, and returns
`thd = 9141274 · 2^-21 = 4.3588991...`, which is above `sqrt 19 = 4.3588989...`,
and a THD percent above `100 * sqrt 19`. -/
theorem thd_binary32_exceeds :
    ∃ r, main_thd_f32 2049 (fun _ => 1) = some r ∧ r.f0_idx = 1 ∧
      r.fundamental_rms = 9687570 / 2 ^ 34 ∧ r.fundamental_rms ≠ 0 ∧
      r.thd = 9141274 / 2 ^ 21 ∧ r.thd_percent = 14283241 / 2 ^ 15 ∧
      Real.sqrt 19 < ((r.thd : ℚ) : ℝ) ∧ ¬ ((r.thd : ℚ) : ℝ) ≤ Real.sqrt 19 ∧
      100 * Real.sqrt 19 < ((r.thd_percent : ℚ) : ℝ) := by
  have h1 : Real.sqrt 19 < (((9141274 / 2 ^ 21 : ℚ)) : ℝ) := by
    rw [Real.sqrt_lt' (by norm_num)]
    norm_num
  have h2 : 100 * Real.sqrt 19 < (((14283241 / 2 ^ 15 : ℚ)) : ℝ) := by
    have h : Real.sqrt 19 < (((14283241 / 2 ^ 15 : ℚ)) : ℝ) / 100 := by
      rw [Real.sqrt_lt' (by norm_num)]
      norm_num
    linarith
  exact ⟨_, flat_spectrum_thd_f32, rfl, rfl, by norm_num, rfl, rfl, h1, not_le.mpr h1, h2⟩

/-- C19, amended: over exact real arithmetic, for every magnitude spectrum with
non-negative values in bins `1 .. N/2 - 1` and a non-zero fundamental RMS, the THD
ratio is at most `sqrt 19` and the THD percent at most `100 * sqrt 19`. -/
theorem thd_at_most_sqrt_19 (fuel : Nat) (magnitude : Nat → ℝ) (hfuel : 2048 < fuel)
    (hnn : ∀ i, 1 ≤ i → i < NFFT / 2 → 0 ≤ magnitude i) :
    ∃ r, main_analysis fuel magnitude = some r ∧
      (r.fundamental_rms ≠ 0 →
        ∃ v, r.thd = some v ∧ v ≤ Real.sqrt 19 ∧
          r.thd_percent = some (v * 100) ∧ v * 100 ≤ 100 * Real.sqrt 19) :=
  analysis_thd_le fuel magnitude hfuel hnn

theorem thd_at_most_sqrt_19_witness :
    ∃ r, main_analysis 2049 (fun _ => (1 : ℝ)) = some r ∧ r.fundamental_rms ≠ 0 ∧
      ∃ v, r.thd = some v ∧ v ≤ Real.sqrt 19 ∧
        r.thd_percent = some (v * 100) ∧ v * 100 ≤ 100 * Real.sqrt 19 := by
  obtain ⟨r, hr, himp⟩ := thd_at_most_sqrt_19 2049 (fun _ => (1 : ℝ)) (by norm_num)
    (fun _ _ _ => zero_le_one)
  obtain ⟨r', hr', -, -, -, -, hfund, -⟩ := main_analysis_values 2049 (fun _ => (1 : ℝ))
    (by norm_num)
  rw [hr] at hr'
  obtain rfl : r = r' := Option.some.inj hr'
  have hne : r.fundamental_rms ≠ 0 := by
    rw [hfund, Ne, vrms_bin_eq_zero_iff]
    norm_num
  exact ⟨r, hr, hne, himp hne⟩

/-! ## Claims on the window gain -/

/-- C16, the claim as stated fails at `N = 2`: every weight of the window of
length 2 is `0.5 * (1 - cos(2π·i)) = 0`, so its coherent gain is 0 and not
`(N-1)/(2N) = 1/4`. -/
theorem coherent_gain_two : (coherent_gain 2 : ℝ) = 0 ∧
    (coherent_gain 2 : ℝ) ≠ (((2 : Nat) : ℝ) - 1) / (2 * ((2 : Nat) : ℝ)) := by
  refine ⟨coherent_gain_two_eq, ?_⟩
  rw [coherent_gain_two_eq]
  norm_num

/-- C16, amended: the coherent gain of the window as implemented,
`(Σ_{i<N} hann(i)) / N` with `hann(i) = 0.5*(1 - cos(2π·i/(N-1)))`, equals
`(N-1)/(2N)` for every `N > 2`; for `N = 4096`, the length the windowing loop uses
(its weight at `i` is `hann SAMPLES i`), it is `4095/8192`, within 0.001 of 0.5. -/
theorem coherent_gain_formula (N : Nat) (hN : 2 < N) :
    (coherent_gain N : ℝ) = ((N : ℝ) - 1) / (2 * N) ∧
    (coherent_gain 4096 : ℝ) = 4095 / 8192 ∧ |(coherent_gain 4096 : ℝ) - 0.5| ≤ 0.001 ∧
    ∀ (fuel : Nat) (centered real_fft imag_fft : Nat → ℝ), 4096 < fuel →
      ∃ w, main_window_centered fuel centered real_fft imag_fft = some w ∧
        ∀ i, i < SAMPLES → w.1 i = centered i * hann SAMPLES i := by
  have h4096 : (coherent_gain 4096 : ℝ) = 4095 / 8192 := by
    rw [coherent_gain_eq 4096 (by norm_num)]
    norm_num
  refine ⟨coherent_gain_eq N hN, h4096, ?_, ?_⟩
  · rw [h4096, abs_le]
    constructor <;> norm_num
  · intro fuel centered real_fft imag_fft hfuel
    obtain ⟨w, hw, harr⟩ := main_window_centered_spec fuel centered real_fft imag_fft hfuel
    refine ⟨w, hw, ?_⟩
    intro i hi
    have hi' : i < 4096 := hi
    rw [(harr i).1, if_pos hi']
    rfl

theorem coherent_gain_formula_witness :
    (coherent_gain 8 : ℝ) = (((8 : Nat) : ℝ) - 1) / (2 * ((8 : Nat) : ℝ)) ∧
    (coherent_gain 4096 : ℝ) = 4095 / 8192 ∧ |(coherent_gain 4096 : ℝ) - 0.5| ≤ 0.001 ∧
    ∀ (fuel : Nat) (centered real_fft imag_fft : Nat → ℝ), 4096 < fuel →
      ∃ w, main_window_centered fuel centered real_fft imag_fft = some w ∧
        ∀ i, i < SAMPLES → w.1 i = centered i * hann SAMPLES i :=
  coherent_gain_formula 8 (by norm_num)

/-- C17, evaluated on the code: the coherent gain of the window of length 4096
that the windowing loop applies is `4095/8192`, about 0.49988; it differs from
`HANN_GAIN = 0.6123` by more than 0.1, so it is not within 0.001 of it. -/
theorem hann_gain_not_coherent :
    (coherent_gain 4096 : ℝ) = 4095 / 8192 ∧
    0.1 < |(coherent_gain 4096 : ℝ) - HANN_GAIN| ∧
    ¬ |(coherent_gain 4096 : ℝ) - HANN_GAIN| ≤ 0.001 := by
  have h4096 : (coherent_gain 4096 : ℝ) = 4095 / 8192 := by
    rw [coherent_gain_eq 4096 (by norm_num)]
    norm_num
  have habs : |(coherent_gain 4096 : ℝ) - HANN_GAIN| = 0.6123 - 4095 / 8192 := by
    rw [h4096, HANN_GAIN, abs_sub_comm, abs_of_nonneg (by norm_num)]
  refine ⟨h4096, ?_, ?_⟩
  · rw [habs]
    norm_num
  · rw [habs]
    norm_num

/-! ## Claims on the single tone -/

/-- C12, evaluated on the code: on the buffer `tone_buffer`, whose centered
samples are the on-bin sinusoid `1000 * sin(2π·1024·i/4096)` and which the windowing
loop of `main` treats as those centered samples, the magnitude at bin 1024 lies
between 1023350 and 1024150 (about `A·(N/2)·0.5`), so it is not within 1% of
`A·(N/2)·HANN_GAIN = 1253990.4`. -/
theorem single_tone_peak_mismatch :
    (∀ i, (centered_of tone_buffer i : ℝ) =
      1000 * Real.sin (2 * Real.pi * ((1024 : Nat) : ℝ) * i / 4096)) ∧
    main_window 4097 tone_buffer (fun _ => (0 : ℝ)) (fun _ => (0 : ℝ)) =
      main_window_centered 4097 (centered_of tone_buffer) (fun _ => (0 : ℝ))
        (fun _ => (0 : ℝ)) ∧
    ∃ mag, main_spectrum_centered 4097 (centered_of tone_buffer) (fun _ => (0 : ℝ))
        (fun _ => (0 : ℝ)) (fun _ => (0 : ℝ)) = some mag ∧
      1023350 ≤ mag 1024 ∧ mag 1024 ≤ 1024150 ∧
      ¬ |mag 1024 - 1000 * ((NFFT / 2 : Nat) : ℝ) * HANN_GAIN| ≤
          0.01 * (1000 * ((NFFT / 2 : Nat) : ℝ) * HANN_GAIN) := by
  refine ⟨tone_buffer_centered, rfl, ?_⟩
  obtain ⟨mag, hmag, hlo, hhi⟩ := tone_buffer_peak 4097 (fun _ => 0) (fun _ => 0) (fun _ => 0)
    (by norm_num)
  have hlo' : 1023350 ≤ mag 1024 := by norm_num at hlo; linarith
  have hhi' : mag 1024 ≤ 1024150 := by norm_num at hhi; linarith
  refine ⟨mag, hmag, hlo', hhi', ?_⟩
  intro h
  rw [abs_le] at h
  have h1 := h.1
  simp only [NFFT, HANN_GAIN] at h1
  norm_num at h1
  linarith

/-- C13: with `N = FS = 4096`, for every amplitude `A > 0` and every bin `k` with
`1 ≤ k < N/2`, when the centered samples are `A * sin(2π·k·i/N)` the cycle returns
and the fundamental detector gives `f0_idx = k`, so `f0 = k`; the cycle of `main`
on a buffer of codes is this cycle on its centered samples. -/
theorem single_tone_detected (fuel : Nat) (A : ℝ) (k : Nat)
    (centered real_fft imag_fft magnitude : Nat → ℝ) (hfuel : 4096 < fuel) (hA : 0 < A)
    (hk1 : 1 ≤ k) (hk2 : k < NFFT / 2)
    (hsig : ∀ i, i < SAMPLES → centered i = A * Real.sin (2 * Real.pi * k * i / 4096)) :
    (∃ r, main_cycle_centered fuel centered real_fft imag_fft magnitude = some r ∧
      r.f0_idx = k ∧ r.f0 = (k : ℝ)) ∧
    ∀ buffer : Nat → Nat, main_cycle fuel buffer real_fft imag_fft magnitude =
      main_cycle_centered fuel (centered_of buffer) real_fft imag_fft magnitude := by
  refine ⟨?_, fun buffer => main_cycle_eq_centered fuel buffer real_fft imag_fft magnitude⟩
  obtain ⟨mag, r, -, hr, -, hidx, hf0, -⟩ :=
    sinusoid_cycle fuel A k centered real_fft imag_fft magnitude hfuel hA hk1 hk2 hsig
  exact ⟨r, hr, hidx, hf0⟩

theorem single_tone_detected_witness :
    (∃ r, main_cycle_centered 4097
        (fun i => 1000 * Real.sin (2 * Real.pi * ((1024 : Nat) : ℝ) * i / 4096))
        (fun _ => (0 : ℝ)) (fun _ => (0 : ℝ)) (fun _ => (0 : ℝ)) = some r ∧
      r.f0_idx = 1024 ∧ r.f0 = ((1024 : Nat) : ℝ)) ∧
    ∀ buffer : Nat → Nat, main_cycle 4097 buffer (fun _ => (0 : ℝ)) (fun _ => (0 : ℝ))
        (fun _ => (0 : ℝ)) =
      main_cycle_centered 4097 (centered_of buffer) (fun _ => (0 : ℝ)) (fun _ => (0 : ℝ))
        (fun _ => (0 : ℝ)) :=
  single_tone_detected 4097 1000 1024
    (fun i => 1000 * Real.sin (2 * Real.pi * ((1024 : Nat) : ℝ) * i / 4096))
    (fun _ => 0) (fun _ => 0) (fun _ => 0) (by norm_num) (by norm_num) (by norm_num)
    (by decide) (fun _ _ => rfl)

/-- C14, the claim as stated fails at bin 1: on the buffer of the 12-bit codes
nearest to the sinusoid of amplitude 1000 at bin 1 (every code within half a code
of `2048 + 1000·sin(2π·i/4096)`), one cycle of `main` detects bin 1 and returns a
THD percent of at least 30, not below 0.5; the same holds for the pure sinusoid
`sin(2π·i/4096)` given as centered samples. The second harmonic is read at bin 2,
next to the fundamental, inside the main lobe of the window. -/
theorem clean_tone_thd_bin_one :
    (∀ i, i < SAMPLES → sine_buffer 1000 1 i < 4096 ∧
      |(centered_of (sine_buffer 1000 1) i : ℝ) -
        1000 * Real.sin (2 * Real.pi * ((1 : Nat) : ℝ) * i / 4096)| ≤ 1 / 2) ∧
    (∃ r p, main_cycle 4097 (sine_buffer 1000 1) (fun _ => (0 : ℝ)) (fun _ => (0 : ℝ))
        (fun _ => (0 : ℝ)) = some r ∧
      r.f0_idx = 1 ∧ r.thd_percent = some p ∧ 30 ≤ p ∧ ¬ p < 0.5) ∧
    ∃ r p, main_cycle_centered 4097
        (fun i => 1 * Real.sin (2 * Real.pi * ((1 : Nat) : ℝ) * i / 4096))
        (fun _ => (0 : ℝ)) (fun _ => (0 : ℝ)) (fun _ => (0 : ℝ)) = some r ∧
      r.f0_idx = 1 ∧ r.thd_percent = some p ∧ 30 ≤ p ∧ ¬ p < 0.5 := by
  refine ⟨?_, ?_, ?_⟩
  · intro i _
    exact ⟨(sine_buffer_round 1000 1 i (by norm_num) (by norm_num)).2,
      sine_buffer_near 1000 1 i (by norm_num) (by norm_num)⟩
  · obtain ⟨r, v, hr, hidx, -, hpc, hv⟩ := noisy_thd_bin_one 4097 1000
      (centered_of (sine_buffer 1000 1)) (fun _ => 0) (fun _ => 0) (fun _ => 0) (by norm_num)
      (by norm_num) (fun i _ => sine_buffer_near 1000 1 i (by norm_num) (by norm_num))
    refine ⟨r, v * 100, by rw [main_cycle_eq_centered]; exact hr, hidx, hpc, hv, ?_⟩
    intro h
    norm_num at h
    linarith
  · obtain ⟨r, v, hr, hidx, -, hpc, hv⟩ := sinusoid_thd_bin_one 4097 1
      (fun i => 1 * Real.sin (2 * Real.pi * ((1 : Nat) : ℝ) * i / 4096))
      (fun _ => 0) (fun _ => 0) (fun _ => 0) (by norm_num) (by norm_num) (fun _ _ => rfl)
    refine ⟨r, v * 100, hr, hidx, hpc, hv, ?_⟩
    intro h
    norm_num at h
    linarith

/-- C14, amended: with `N = FS = 4096`, over exact real arithmetic, for every bin
`k` with `2 ≤ k < N/2`: when the centered samples are the pure sinusoid
`A * sin(2π·k·i/N)` of any amplitude `A > 0`, the cycle returns a THD percent below
0.5; and on every buffer whose codes are within half a code of
`2048 + A * sin(2π·k·i/N)` (the sinusoid as the converter delivers it), of amplitude
`A ≥ 900` codes, one cycle of `main` detects bin `k` and returns a THD percent
below 0.5. -/
theorem clean_tone_thd (fuel : Nat) (A : ℝ) (k : Nat)
    (real_fft imag_fft magnitude : Nat → ℝ) (hfuel : 4096 < fuel) (hA : 0 < A)
    (hk1 : 2 ≤ k) (hk2 : k < NFFT / 2) :
    (∀ centered : Nat → ℝ,
      (∀ i, i < SAMPLES → centered i = A * Real.sin (2 * Real.pi * k * i / 4096)) →
      ∃ r p, main_cycle_centered fuel centered real_fft imag_fft magnitude = some r ∧
        r.thd_percent = some p ∧ p < 0.5) ∧
    (∀ buffer : Nat → Nat, 900 ≤ A →
      (∀ i, i < SAMPLES →
        |(centered_of buffer i : ℝ) - A * Real.sin (2 * Real.pi * k * i / 4096)| ≤ 1 / 2) →
      ∃ r p, main_cycle fuel buffer real_fft imag_fft magnitude = some r ∧
        r.f0_idx = k ∧ r.thd_percent = some p ∧ p < 0.5) := by
  constructor
  · intro centered hsig
    obtain ⟨r, v, hr, -, hpc, hv⟩ :=
      sinusoid_thd_small fuel A k centered real_fft imag_fft magnitude hfuel hA hk1 hk2 hsig
    exact ⟨r, v * 100, hr, hpc, hv⟩
  · intro buffer hA900 hbuf
    obtain ⟨r, v, hr, hidx, -, hpc, hv⟩ :=
      noisy_thd_small fuel A k (centered_of buffer) real_fft imag_fft magnitude hfuel hA900
        hk1 hk2 hbuf
    exact ⟨r, v * 100, by rw [main_cycle_eq_centered]; exact hr, hidx, hpc, hv⟩

theorem clean_tone_thd_witness :
    (∃ r p, main_cycle_centered 4097
        (fun i => 1000 * Real.sin (2 * Real.pi * ((2 : Nat) : ℝ) * i / 4096))
        (fun _ => (0 : ℝ)) (fun _ => (0 : ℝ)) (fun _ => (0 : ℝ)) = some r ∧
      r.thd_percent = some p ∧ p < 0.5) ∧
    (∀ i, i < SAMPLES → sine_buffer 1000 2 i < 4096) ∧
    ∃ r p, main_cycle 4097 (sine_buffer 1000 2) (fun _ => (0 : ℝ)) (fun _ => (0 : ℝ))
        (fun _ => (0 : ℝ)) = some r ∧
      r.f0_idx = 2 ∧ r.thd_percent = some p ∧ p < 0.5 :=
  ⟨(clean_tone_thd 4097 1000 2 (fun _ => 0) (fun _ => 0) (fun _ => 0) (by norm_num)
      (by norm_num) (by norm_num) (by decide)).1 _ (fun _ _ => rfl),
    fun i _ => (sine_buffer_round 1000 2 i (by norm_num) (by norm_num)).2,
    (clean_tone_thd 4097 1000 2 (fun _ => 0) (fun _ => 0) (fun _ => 0) (by norm_num)
      (by norm_num) (by norm_num) (by decide)).2 (sine_buffer 1000 2) (by norm_num)
      (fun i _ => sine_buffer_near 1000 2 i (by norm_num) (by norm_num))⟩

end PES
